import Mathlib

/-!
# Verification of the stack-frame arena allocators

Shallow embedding of the block-chaining arena allocators
(src/stack_frame_allocator.rs, src/stack_frame_dict_allocator.rs,
src/stack_frame_header.rs, src/stack_size.rs) and proofs about them.

Modelling conventions:
* machine addresses are natural numbers; the i-th block allocated by the
  host is placed at base address (i+1) * B where B is the configured block
  size (the source assumes every block start is suitably aligned for the
  element types in use, and that blocks obtained later compare higher than
  the frame boundaries of earlier blocks; choosing increasing multiples of
  B realises exactly these assumptions);
* memory is an association list of typed cells (frame header, block tail,
  key, value) keyed by address; a write prepends, a read takes the most
  recent cell at the address; reading an address that holds no cell (or a
  cell of the wrong kind) makes the operation return none, which models
  the undefined behaviour of the corresponding raw-pointer read;
* sizes and alignments of the element types are a parameter record
  (Layout), mirroring the mem::size_of / mem::align_of constants of the
  generic Rust code;
* the backward walks (teardown, get_in_frame, get_in_stack) and the
  forward deallocation walk are written with an explicit fuel argument;
  all walk results are shown stable under enough fuel.
-/

set_option maxHeartbeats 1000000
set_option synthInstance.maxSize 512
set_option linter.unusedVariables false

namespace StackFrameAlloc

/-- One typed cell of the modelled address space: a StackFrameHeader
(previous_frame reference as an optional address, current_frame_ptr),
a BlockTail (prev_block, prev_block_bytes_used, next_block; null pointers
are none), a stored Key, or a stored Value. -/
inductive Cell (K V : Type) where
  | header (prev : Option Nat) (cur : Nat)
  | tail (prevBlock : Option Nat) (prevUsed : Nat) (nextBlock : Option Nat)
  | key (k : K)
  | val (v : V)
  deriving DecidableEq, Repr

/-- Memory: most recent write first. -/
abbrev Mem (K V : Type) : Type := List (Nat × Cell K V)

/-- Read the most recently written cell at address a. -/
def Mem.read (m : Mem K V) (a : Nat) : Option (Cell K V) :=
  match m with
  | [] => none
  | (b, c) :: rest => if b = a then some c else Mem.read rest a

/-- Write a cell at address a (shadowing any earlier cell there). -/
def Mem.write (m : Mem K V) (a : Nat) (c : Cell K V) : Mem K V := (a, c) :: m

@[simp] theorem Mem.read_write (m : Mem K V) (a : Nat) (c : Cell K V) :
    (m.write a c).read a = some c := by
  simp [Mem.read, Mem.write]

@[simp] theorem Mem.read_write_ne (m : Mem K V) (a b : Nat) (c : Cell K V)
    (h : a ≠ b) : (m.write a c).read b = m.read b := by
  simp [Mem.read, Mem.write, h]

/-- Project a header cell. -/
def readHeader (m : Mem K V) (a : Nat) : Option (Option Nat × Nat) :=
  match m.read a with
  | some (.header p c) => some (p, c)
  | _ => none

/-- Project the backward fields of a tail cell (prev_block,
prev_block_bytes_used); the walks only consult these two fields when
crossing a block boundary. -/
def readTailPrev (m : Mem K V) (a : Nat) : Option (Option Nat × Nat) :=
  match m.read a with
  | some (.tail p u _) => some (p, u)
  | _ => none

/-- Project the forward field of a tail cell (next_block). -/
def readTailNext (m : Mem K V) (a : Nat) : Option (Option Nat) :=
  match m.read a with
  | some (.tail _ _ n) => some n
  | _ => none

/-- Read a whole tail cell. -/
def readTailAll (m : Mem K V) (a : Nat) : Option (Option Nat × Nat × Option Nat) :=
  match m.read a with
  | some (.tail p u n) => some (p, u, n)
  | _ => none

/-- Read a stored key. -/
def readKeyAt (m : Mem K V) (a : Nat) : Option K :=
  match m.read a with
  | some (.key k) => some k
  | _ => none

/-- Read a stored value. -/
def readValAt (m : Mem K V) (a : Nat) : Option V :=
  match m.read a with
  | some (.val v) => some v
  | _ => none

/-- The size/alignment environment of one monomorphised allocator:
the block size B (StackSize), size/align of StackFrameHeader, of the Key
and Value element types, and the size of BlockTail. -/
structure Layout where
  bsize : Nat
  sizeH : Nat
  alignH : Nat
  sizeK : Nat
  alignK : Nat
  sizeV : Nat
  alignV : Nat
  sizeTail : Nat
  deriving DecidableEq, Repr

/-- Usable capacity of a block: B - sizeof(BlockTail)
(fn real_size in both source files). -/
def Layout.realSize (L : Layout) : Nat := L.bsize - L.sizeTail

/-- Base address of the i-th block handed out by the host allocator. -/
def Layout.base (L : Layout) (i : Nat) : Nat := (i + 1) * L.bsize

/-- pointer::align_offset for our Nat addresses: the least padding that
makes p + padding a multiple of a. -/
def alignOffset (p a : Nat) : Nat := (a - p % a) % a

theorem alignOffset_of_dvd {p a : Nat} (h : a ∣ p) : alignOffset p a = 0 := by
  rcases Nat.eq_zero_or_pos a with ha | ha
  · simp [alignOffset, ha]
  · simp [alignOffset, Nat.eq_zero_of_dvd_of_lt, Nat.mod_eq_zero_of_dvd h]

/-- The padding formula the dictionary engine's scans use in place of
align_offset (get_in_frame, get_in_stack, print and Drop all compute
`-(-(size as isize) % (align as isize)) as usize`); Rust's % is the
truncated remainder, Int.tmod. -/
def rustScanPad (size align : Nat) : Nat :=
  (-((-(size : Int)).tmod (align : Int))).toNat

/-- Global state of the chain: the memory and the number of blocks the
host allocator has handed out. -/
structure St (K V : Type) where
  mem : Mem K V
  nBlocks : Nat
  deriving DecidableEq

/-- The externally visible cursor bookkeeping of one allocator value:
current_frame (address of the active StackFrameHeader) and
buffer_bytes_used. The block-size configuration lives in Layout. -/
structure Cursor where
  currentFrame : Nat
  bytesUsed : Nat
  deriving DecidableEq, Repr

variable {K V : Type}

/-- fn new() for both engines: allocate the first block, write its tail
(null prev_block, next_block), write the root StackFrameHeader at the
block start, start the cursor with buffer_bytes_used = sizeof(Header).
The source fixes B = 1024 via StackSize::default; the model keeps B in
the layout, exactly as the struct field `size` that every method reads. -/
def mkStack (L : Layout) : St K V × Cursor :=
  let b0 := L.base 0
  let m1 : Mem K V := Mem.write [] (b0 + (L.bsize - L.sizeTail)) (.tail none 0 none)
  let m2 := m1.write b0 (.header none (b0 + L.sizeH))
  (⟨m2, 1⟩, ⟨b0, L.sizeH⟩)

/-- StackFrameAllocator::push (value engine). Returns the new state,
the new cursor and the address of the written value (the StackRef).
Returns none when a raw-pointer read hits a cell that is not there
(modelled undefined behaviour). -/
def pushV (L : Layout) (st : St K V) (c : Cursor) (v : V) :
    Option (St K V × Cursor × Nat) :=
  match readHeader st.mem c.currentFrame with
  | none => none
  | some (prevF, cfp) =>
    let pad := alignOffset cfp L.alignV
    let vptr := cfp + pad
    if c.bytesUsed + pad + L.sizeV < L.realSize then
      let m1 := (st.mem.write vptr (.val v)).write c.currentFrame
        (.header prevF (cfp + (pad + L.sizeV)))
      some (⟨m1, st.nBlocks⟩, ⟨c.currentFrame, c.bytesUsed + (pad + L.sizeV)⟩, vptr)
    else
      -- get_block_tail: the tail sits real_size − buffer_bytes_used past
      -- the bump pointer
      let tAddr := cfp + (L.realSize - c.bytesUsed)
      match readTailAll st.mem tAddr with
      | none => none
      | some (tp, tu, tn) =>
        let alloc : Nat × St K V :=
          match tn with
          | some nb => (nb, st)
          | none =>
            let nb := L.base st.nBlocks
            let m' := ((st.mem.write (nb + L.realSize)
                (.tail (some cfp) c.bytesUsed none)).write tAddr
                (.tail tp tu (some nb)))
            (nb, ⟨m', st.nBlocks + 1⟩)
        let nb := alloc.1
        let st1 := alloc.2
        let pad2 := alignOffset nb L.alignV
        let vptr2 := nb + pad2
        let off := pad2 + L.sizeV
        let m2 := (st1.mem.write vptr2 (.val v)).write c.currentFrame
          (.header prevF (nb + off))
        some (⟨m2, st1.nBlocks⟩, ⟨c.currentFrame, off⟩, vptr2)

/-- StackFrameDictAllocator::push. Returns the address of the key slot
and of the value slot along with the new state. -/
def pushKV (L : Layout) (st : St K V) (c : Cursor) (k : K) (v : V) :
    Option (St K V × Cursor × Nat × Nat) :=
  match readHeader st.mem c.currentFrame with
  | none => none
  | some (prevF, cfp) =>
    let kpad := alignOffset cfp L.alignK
    let kptr := cfp + kpad
    let vpad := alignOffset (kptr + L.sizeK) L.alignV
    let vptr := kptr + L.sizeK + vpad
    if c.bytesUsed + kpad + L.sizeK + vpad + L.sizeV < L.realSize then
      let off := kpad + L.sizeK + vpad + L.sizeV
      let m1 := ((st.mem.write kptr (.key k)).write vptr (.val v)).write
        c.currentFrame (.header prevF (cfp + off))
      some (⟨m1, st.nBlocks⟩, ⟨c.currentFrame, c.bytesUsed + off⟩, kptr, vptr)
    else
      let tAddr := cfp + (L.realSize - c.bytesUsed)
      match readTailAll st.mem tAddr with
      | none => none
      | some (tp, tu, tn) =>
        let alloc : Nat × St K V :=
          match tn with
          | some nb => (nb, st)
          | none =>
            let nb := L.base st.nBlocks
            let m' := ((st.mem.write (nb + L.realSize)
                (.tail (some cfp) c.bytesUsed none)).write tAddr
                (.tail tp tu (some nb)))
            (nb, ⟨m', st.nBlocks + 1⟩)
        let nb := alloc.1
        let st1 := alloc.2
        let kpad2 := alignOffset nb L.alignK
        let kptr2 := nb + kpad2
        let vpad2 := alignOffset (kptr2 + L.sizeK) L.alignV
        let vptr2 := kptr2 + L.sizeK + vpad2
        let off := kpad2 + L.sizeK + vpad2 + L.sizeV
        let m2 := ((st1.mem.write kptr2 (.key k)).write vptr2 (.val v)).write
          c.currentFrame (.header prevF (nb + off))
        some (⟨m2, st1.nBlocks⟩, ⟨c.currentFrame, off⟩, kptr2, vptr2)

/-- fn generate_frame (textually identical in both engines): write a new
StackFrameHeader whose previous_frame is the caller's current header and
move the cursor onto it. In the in-block branch the source computes
mem = current_frame_ptr.add(header_padding + SIZE_HEADER) and then
current_frame_ptr = mem.add(SIZE_HEADER), while buffer_bytes_used only
advances by header_padding + SIZE_HEADER; in the overflow branch
buffer_bytes_used is not updated at all and prev_block is set to the
current header's address. The model reproduces all of this. -/
def generateFrame (L : Layout) (st : St K V) (c : Cursor) :
    Option (St K V × Cursor) :=
  match readHeader st.mem c.currentFrame with
  | none => none
  | some (_, cfp) =>
    let pad := alignOffset cfp L.alignH
    if c.bytesUsed + pad + L.sizeH < L.realSize then
      let memAddr := cfp + (pad + L.sizeH)
      let st' : St K V := ⟨st.mem.write memAddr
        (.header (some c.currentFrame) (memAddr + L.sizeH)), st.nBlocks⟩
      some (st', ⟨memAddr, c.bytesUsed + (pad + L.sizeH)⟩)
    else
      let tAddr := cfp + (L.realSize - c.bytesUsed)
      match readTailAll st.mem tAddr with
      | none => none
      | some (tp, tu, tn) =>
        let alloc : Nat × St K V :=
          match tn with
          | some nb => (nb, st)
          | none =>
            let nb := L.base st.nBlocks
            let m' := ((st.mem.write (nb + L.realSize)
                (.tail (some c.currentFrame) c.bytesUsed none)).write tAddr
                (.tail tp tu (some nb)))
            (nb, ⟨m', st.nBlocks + 1⟩)
        let nb := alloc.1
        let st1 := alloc.2
        let st2 : St K V := ⟨st1.mem.write nb
          (.header (some c.currentFrame) (nb + L.sizeH)), st1.nBlocks⟩
        some (st2, ⟨nb, c.bytesUsed⟩)

/-- StackFrameAllocator::new_frame (value engine): clone the cursor and
run generate_frame on the clone. -/
def newFrameValue (L : Layout) (st : St K V) (c : Cursor) :
    Option (St K V × Cursor) :=
  generateFrame L st ⟨c.currentFrame, c.bytesUsed⟩

/-- StackFrameDictAllocator::new_frame: the source only clones the
cursor fields and returns — no generate_frame call, no header write. -/
def newFrameDict (L : Layout) (st : St K V) (c : Cursor) :
    (St K V × Cursor) :=
  (st, ⟨c.currentFrame, c.bytesUsed⟩)

/-- One block-boundary crossing of a backward walk: follow prev_block /
prev_block_bytes_used of the tail at tailAddr and recompute the tail
reference of the predecessor block, exactly as the loops do. Crossing
with a null prev_block is the unreachable! panic of the source. -/
def crossBack (L : Layout) (m : Mem K V) (tailAddr : Nat) :
    Option (Nat × Nat × Nat) :=
  match readTailPrev m tailAddr with
  | none => none
  | some (none, _) => none
  | some (some pb, pu) => some (pb, pu, pb + (L.realSize - pu))

/-- The backward destruction loop of Drop for StackFrameAllocator
(value engine): from the bump pointer, walk entries of size sizeof(Value)
back to the frame's start boundary, decrementing bytes_remaining,
crossing blocks backward when it hits zero. Events are
(address, destructed value) in destruction order. Returns none on the
source's unreachable!/underflow/invalid-read situations. -/
def dropWalkV (L : Layout) (m : Mem K V) :
    Nat → Nat → Nat → Nat → Nat → Option (List (Nat × V))
  | 0, _, _, _, _ => none
  | fuel + 1, peek, remaining, tailAddr, boundary =>
    if peek > boundary then
      let step : Option (Nat × Nat × Nat) :=
        if remaining = 0 then crossBack L m tailAddr
        else some (peek, remaining, tailAddr)
      match step with
      | none => none
      | some (p, r, t) =>
        if L.sizeV ≤ p ∧ L.sizeV ≤ r then
          let p' := p - L.sizeV
          match readValAt m p' with
          | none => none
          | some v =>
            match dropWalkV L m fuel p' (r - L.sizeV) t boundary with
            | none => none
            | some evs => some ((p', v) :: evs)
        else none
    else some []

/-- The backward destruction loop of Drop for StackFrameDictAllocator:
stride sizeof(Key) + value_padding + sizeof(Value) + next_key_padding
with the paddings computed by the source's remainder formula; per entry
it destructs the key at the scan pointer and the value at
scan + sizeof(Key) + next_key_padding (as the source does). -/
def dropWalkKV (L : Layout) (m : Mem K V) :
    Nat → Nat → Nat → Nat → Nat → Option (List (Nat × K × V))
  | 0, _, _, _, _ => none
  | fuel + 1, peek, remaining, tailAddr, boundary =>
    let vpad := rustScanPad L.sizeK L.alignV
    let kpad := rustScanPad L.sizeV L.alignK
    let kvs := L.sizeK + vpad + L.sizeV + kpad
    if peek > boundary then
      let step : Option (Nat × Nat × Nat) :=
        if remaining = 0 then crossBack L m tailAddr
        else some (peek, remaining, tailAddr)
      match step with
      | none => none
      | some (p, r, t) =>
        if kvs ≤ p ∧ kvs ≤ r then
          let p' := p - kvs
          match readKeyAt m p', readValAt m (p' + (L.sizeK + kpad)) with
          | some k, some v =>
            match dropWalkKV L m fuel p' (r - kvs) t boundary with
            | none => none
            | some evs => some ((p', k, v) :: evs)
          | _, _ => none
        else none
    else some []

/-- The forward deallocation loop at the end of Drop (root cursor only):
starting from the root header's address (the first block's start), free
each block and follow next_block. -/
def freeWalk (L : Layout) (m : Mem K V) : Nat → Option Nat → Option (List Nat)
  | 0, _ => none
  | _, none => some []
  | fuel + 1, some a =>
    match readTailNext m (a + L.realSize) with
    | none => none
    | some nxt =>
      match freeWalk L m fuel nxt with
      | none => none
      | some rest => some (a :: rest)

/-- Drop for StackFrameAllocator (value engine): destruct the current
frame's entries backward, then, if this cursor's frame is the root,
free the whole block chain forward. Result: (destruction events,
freed block bases). -/
def dropValue (L : Layout) (fuel : Nat) (st : St K V) (c : Cursor) :
    Option (List (Nat × V) × List Nat) :=
  match readHeader st.mem c.currentFrame with
  | none => none
  | some (prevF, cfp) =>
    let boundary := c.currentFrame + L.sizeH +
      alignOffset (c.currentFrame + L.sizeH) L.alignV
    let tailAddr := cfp + (L.realSize - c.bytesUsed)
    match dropWalkV L st.mem fuel cfp c.bytesUsed tailAddr boundary with
    | none => none
    | some evs =>
      match prevF with
      | some _ => some (evs, [])
      | none =>
        match freeWalk L st.mem fuel (some c.currentFrame) with
        | none => none
        | some freed => some (evs, freed)

/-- Drop for StackFrameDictAllocator. -/
def dropDict (L : Layout) (fuel : Nat) (st : St K V) (c : Cursor) :
    Option (List (Nat × K × V) × List Nat) :=
  match readHeader st.mem c.currentFrame with
  | none => none
  | some (prevF, cfp) =>
    let boundary := c.currentFrame + L.sizeH +
      alignOffset (c.currentFrame + L.sizeH) L.alignK
    let tailAddr := cfp + (L.realSize - c.bytesUsed)
    match dropWalkKV L st.mem fuel cfp c.bytesUsed tailAddr boundary with
    | none => none
    | some evs =>
      match prevF with
      | some _ => some (evs, [])
      | none =>
        match freeWalk L st.mem fuel (some c.currentFrame) with
        | none => none
        | some freed => some (evs, freed)

section Lookup

variable [DecidableEq K]

/-- Scan loop of StackFrameDictAllocator::get_in_frame: backward over
the current frame only, crossing block boundaries via the tails.
Result: some (some a) = handle to the value slot at address a;
some none = the source's None (no match in the frame); none = the
source's unreachable!/underflow/invalid-read situations. -/
def getFrameWalk (L : Layout) (m : Mem K V) (k : K) :
    Nat → Nat → Nat → Nat → Nat → Option (Option Nat)
  | 0, _, _, _, _ => none
  | fuel + 1, peek, remaining, tailAddr, boundary =>
    let vpad := rustScanPad L.sizeK L.alignV
    let kpad := rustScanPad L.sizeV L.alignK
    let kvs := L.sizeK + vpad + L.sizeV + kpad
    if peek > boundary then
      let step : Option (Nat × Nat × Nat) :=
        if remaining = 0 then crossBack L m tailAddr
        else some (peek, remaining, tailAddr)
      match step with
      | none => none
      | some (p, r, t) =>
        if kvs ≤ p ∧ kvs ≤ r then
          let p' := p - kvs
          match readKeyAt m p' with
          | none => none
          | some kc =>
            if k = kc then some (some (p' + (L.sizeK + kpad)))
            else getFrameWalk L m k fuel p' (r - kvs) t boundary
        else none
    else some none

/-- StackFrameDictAllocator::get_in_frame. -/
def getInFrame (L : Layout) (fuel : Nat) (st : St K V) (c : Cursor)
    (k : K) : Option (Option Nat) :=
  match readHeader st.mem c.currentFrame with
  | none => none
  | some (_, cfp) =>
    let boundary := c.currentFrame + L.sizeH +
      alignOffset (c.currentFrame + L.sizeH) L.alignK
    let tailAddr := cfp + (L.realSize - c.bytesUsed)
    getFrameWalk L st.mem k fuel cfp c.bytesUsed tailAddr boundary

/-- Scan loop of StackFrameDictAllocator::get_in_stack: like the frame
scan, but on reaching the walked frame's start boundary it re-targets
the enclosing frame via previous_frame; the boundary is recomputed with
header alignment right after a frame jump and with key alignment once an
entry is expected again, and crossing a block boundary leaves the
boundary and the flags untouched — all exactly as in the source. The
walked frame is tracked by its header address (the source's
stack_frame reference). -/
def getStackWalk (L : Layout) (m : Mem K V) (k : K) :
    Nat → Nat → Nat → Nat → Nat → Nat → Bool → Bool → Option (Option Nat)
  | 0, _, _, _, _, _, _, _ => none
  | fuel + 1, peek, remaining, tailAddr, boundary, frameAddr, justJumped,
      expectKV =>
    let vpad := rustScanPad L.sizeK L.alignV
    let kpad := rustScanPad L.sizeV L.alignK
    let kvs := L.sizeK + vpad + L.sizeV + kpad
    let step : Option (Nat × Nat × Nat) :=
      if remaining = 0 then crossBack L m tailAddr
      else some (peek, remaining, tailAddr)
    match step with
    | none => none
    | some (p, r, t) =>
      if p < boundary then none
      else if p = boundary then
        match readHeader m frameAddr with
        | none => none
        | some (none, _) => some none
        | some (some pf, _) =>
          match readHeader m pf with
          | none => none
          | some (_, pcur) =>
            let boundary' := pf + L.sizeH + alignOffset (pf + L.sizeH) L.alignH
            getStackWalk L m k fuel pcur r t boundary' pf false false
      else
        let boundary' :=
          if !expectKV || justJumped then
            frameAddr + L.sizeH + alignOffset (frameAddr + L.sizeH) L.alignK
          else boundary
        if kvs ≤ p ∧ kvs ≤ r then
          let p' := p - kvs
          match readKeyAt m p' with
          | none => none
          | some kc =>
            if k = kc then some (some (p' + (L.sizeK + kpad)))
            else getStackWalk L m k fuel p' (r - kvs) t boundary' frameAddr
              false true
        else none

/-- StackFrameDictAllocator::get_in_stack. -/
def getInStack (L : Layout) (fuel : Nat) (st : St K V) (c : Cursor)
    (k : K) : Option (Option Nat) :=
  match readHeader st.mem c.currentFrame with
  | none => none
  | some (_, cfp) =>
    let boundary := c.currentFrame + L.sizeH +
      alignOffset (c.currentFrame + L.sizeH) L.alignK
    let tailAddr := cfp + (L.realSize - c.bytesUsed)
    getStackWalk L st.mem k fuel cfp c.bytesUsed tailAddr boundary
      c.currentFrame false true

end Lookup

/-- Push a list of values left to right, collecting (address, value)
in push order. -/
def pushManyV (L : Layout) (st : St K V) (c : Cursor) :
    List V → Option (St K V × Cursor × List (Nat × V))
  | [] => some (st, c, [])
  | v :: vs =>
    match pushV L st c v with
    | none => none
    | some (st', c', a) =>
      match pushManyV L st' c' vs with
      | none => none
      | some (st'', c'', tr) => some (st'', c'', (a, v) :: tr)

/-- Push a list of key-value pairs left to right, collecting
(key address, key, value address, value) in push order. -/
def pushManyKV (L : Layout) (st : St K V) (c : Cursor) :
    List (K × V) → Option (St K V × Cursor × List (Nat × K × Nat × V))
  | [] => some (st, c, [])
  | (k, v) :: ps =>
    match pushKV L st c k v with
    | none => none
    | some (st', c', ka, va) =>
      match pushManyKV L st' c' ps with
      | none => none
      | some (st'', c'', tr) => some (st'', c'', (ka, k, va, v) :: tr)

/-- StackFrameAllocator::new_scope driven with a callback that pushes
the given values: snapshot-copy the cursor, generate_frame on the copy,
run the pushes, and tear the child frame down when the callback's scope
ends. The parent's own cursor fields are never touched (the source
clones them into the child). Returns the memory/chain state after the
callback and the child's destruction events. -/
def newScopeValue (L : Layout) (fuel : Nat) (st : St K V) (c : Cursor)
    (vs : List V) : Option (St K V × List (Nat × V)) :=
  match generateFrame L st ⟨c.currentFrame, c.bytesUsed⟩ with
  | none => none
  | some (st1, cc) =>
    match pushManyV L st1 cc vs with
    | none => none
    | some (st2, cc2, _) =>
      match dropValue L fuel st2 cc2 with
      | none => none
      | some (evs, _) => some (st2, evs)

/-- StackFrameDictAllocator::new_scope driven with a callback that
pushes the given pairs. -/
def newScopeDict (L : Layout) (fuel : Nat) (st : St K V) (c : Cursor)
    (ps : List (K × V)) : Option (St K V × List (Nat × K × V)) :=
  match generateFrame L st ⟨c.currentFrame, c.bytesUsed⟩ with
  | none => none
  | some (st1, cc) =>
    match pushManyKV L st1 cc ps with
    | none => none
    | some (st2, cc2, _) =>
      match dropDict L fuel st2 cc2 with
      | none => none
      | some (evs, _) => some (st2, evs)

/-! ## Basic lemmas about padding and memory projections -/

theorem rustScanPad_eq_zero {s a : Nat} (h : a ∣ s) : rustScanPad s a = 0 := by
  unfold rustScanPad
  rcases h with ⟨t, rfl⟩
  have he : (-(((a * t : Nat)) : Int)) = (a : Int) * (-(t : Int)) := by
    push_cast; ring
  rw [he, Int.mul_tmod_right]
  simp

theorem readKeyAt_write (m : Mem K V) (a b : Nat) (c : Cell K V) :
    readKeyAt (m.write a c) b =
      if a = b then (match c with | .key k => some k | _ => none)
      else readKeyAt m b := by
  by_cases h : a = b <;> simp [readKeyAt, Mem.read, Mem.write, h]
  cases c <;> rfl

theorem readValAt_write (m : Mem K V) (a b : Nat) (c : Cell K V) :
    readValAt (m.write a c) b =
      if a = b then (match c with | .val v => some v | _ => none)
      else readValAt m b := by
  by_cases h : a = b <;> simp [readValAt, Mem.read, Mem.write, h]
  cases c <;> rfl

theorem readHeader_write (m : Mem K V) (a b : Nat) (c : Cell K V) :
    readHeader (m.write a c) b =
      if a = b then (match c with | .header p q => some (p, q) | _ => none)
      else readHeader m b := by
  by_cases h : a = b <;> simp [readHeader, Mem.read, Mem.write, h]
  cases c <;> rfl

theorem readTailPrev_write (m : Mem K V) (a b : Nat) (c : Cell K V) :
    readTailPrev (m.write a c) b =
      if a = b then (match c with | .tail p u _ => some (p, u) | _ => none)
      else readTailPrev m b := by
  by_cases h : a = b <;> simp [readTailPrev, Mem.read, Mem.write, h]
  cases c <;> rfl

theorem readTailNext_write (m : Mem K V) (a b : Nat) (c : Cell K V) :
    readTailNext (m.write a c) b =
      if a = b then (match c with | .tail _ _ n => some n | _ => none)
      else readTailNext m b := by
  by_cases h : a = b <;> simp [readTailNext, Mem.read, Mem.write, h]
  cases c <;> rfl

theorem readTailAll_write (m : Mem K V) (a b : Nat) (c : Cell K V) :
    readTailAll (m.write a c) b =
      if a = b then (match c with | .tail p u n => some (p, u, n) | _ => none)
      else readTailAll m b := by
  by_cases h : a = b <;> simp [readTailAll, Mem.read, Mem.write, h]
  cases c <;> rfl

theorem readKeyAt_of_header {m : Mem K V} {a : Nat} {x}
    (h : readHeader m a = some x) : readKeyAt m a = none := by
  unfold readHeader at h; unfold readKeyAt
  rcases hr : m.read a with _ | c
  · rw [hr] at h
  · rw [hr] at h
    cases c <;> simp_all

theorem readValAt_of_header {m : Mem K V} {a : Nat} {x}
    (h : readHeader m a = some x) : readValAt m a = none := by
  unfold readHeader at h; unfold readValAt
  rcases hr : m.read a with _ | c
  · rw [hr] at h
  · rw [hr] at h
    cases c <;> simp_all

theorem readTailPrev_of_header {m : Mem K V} {a : Nat} {x}
    (h : readHeader m a = some x) : readTailPrev m a = none := by
  unfold readHeader at h; unfold readTailPrev
  rcases hr : m.read a with _ | c
  · rw [hr] at h
  · rw [hr] at h
    cases c <;> simp_all

/-- Agreement between two memories sufficient for the single-frame
backward walks: same keys and values strictly below the bump pointer,
same tail backward-projections at the tails of the first mIdx+1 blocks.
Future pushes only add cells at or above the bump, allocate fresh blocks
higher up, and rewrite existing tails preserving their backward fields,
so every state reached later agrees with the current one. -/
def AgreeFor (L : Layout) (m m' : Mem K V) (bump mIdx : Nat) : Prop :=
  (∀ a, a < bump → readKeyAt m' a = readKeyAt m a ∧
    readValAt m' a = readValAt m a) ∧
  (∀ i, i ≤ mIdx → readTailPrev m' (L.base i + L.realSize) =
    readTailPrev m (L.base i + L.realSize))

theorem AgreeFor.refl (L : Layout) (m : Mem K V) (bump mIdx : Nat) :
    AgreeFor L m m bump mIdx := ⟨fun _ _ => ⟨rfl, rfl⟩, fun _ _ => rfl⟩

theorem AgreeFor.trans {L : Layout} {m₁ m₂ m₃ : Mem K V} {b₁ i₁ b₂ i₂ : Nat}
    (g₁ : AgreeFor L m₁ m₂ b₁ i₁) (g₂ : AgreeFor L m₂ m₃ b₂ i₂)
    (hb : b₁ ≤ b₂) (hh : i₁ ≤ i₂) : AgreeFor L m₁ m₃ b₁ i₁ := by
  refine ⟨fun a ha => ?_, fun i hi => ?_⟩
  · rcases g₁.1 a ha with ⟨e₁, e₂⟩
    rcases g₂.1 a (lt_of_lt_of_le ha hb) with ⟨f₁, f₂⟩
    exact ⟨f₁.trans e₁, f₂.trans e₂⟩
  · exact (g₂.2 i (le_trans hi hh)).trans (g₁.2 i hi)

/-! ## Well-formedness of layouts

Rust guarantees size_of is a multiple of align_of for every type; the
source additionally assumes block starts are aligned for the element
types in use (it takes padding in a fresh block as zero). The model's
block bases are multiples of the block size, so those assumptions
become divisibility conditions on the layout. -/

/-- Layout assumptions for the value engine. -/
structure WFv (L : Layout) : Prop where
  alignPos : 0 < L.alignV
  dvdSizeV : L.alignV ∣ L.sizeV
  dvdSizeH : L.alignV ∣ L.sizeH
  dvdB : L.alignV ∣ L.bsize
  sizeVPos : 0 < L.sizeV
  sizeHPos : 0 < L.sizeH
  capacity : L.sizeH + L.sizeV < L.realSize
  tailPos : 0 < L.sizeTail
  tailLt : L.sizeTail < L.bsize

/-- Layout assumptions for the dictionary engine: key, value and header
share one alignment that divides all three sizes and the block size
(e.g. &str keys with usize values on a 64-bit host). This is the regime
in which the scans' precomputed constant stride coincides with the
addresses push actually used. -/
structure WFkv (L : Layout) : Prop where
  alignPos : 0 < L.alignK
  alignVEq : L.alignV = L.alignK
  alignHEq : L.alignH = L.alignK
  dvdSizeK : L.alignK ∣ L.sizeK
  dvdSizeV : L.alignK ∣ L.sizeV
  dvdSizeH : L.alignK ∣ L.sizeH
  dvdB : L.alignK ∣ L.bsize
  sizeKPos : 0 < L.sizeK
  sizeVPos : 0 < L.sizeV
  sizeHPos : 0 < L.sizeH
  capacity : L.sizeH + (L.sizeK + L.sizeV) < L.realSize
  tailPos : 0 < L.sizeTail
  tailLt : L.sizeTail < L.bsize

theorem WFv.bsizePosV {L : Layout} (h : WFv L) : 0 < L.bsize :=
  lt_trans h.tailPos h.tailLt

theorem WFv.realSizeLtV {L : Layout} (h : WFv L) : L.realSize < L.bsize := by
  have := h.tailPos; have := h.tailLt; unfold Layout.realSize; omega

theorem WFkv.bsizePosKV {L : Layout} (h : WFkv L) : 0 < L.bsize :=
  lt_trans h.tailPos h.tailLt

theorem WFkv.realSizeLtKV {L : Layout} (h : WFkv L) : L.realSize < L.bsize := by
  have := h.tailPos; have := h.tailLt; unfold Layout.realSize; omega

theorem base_lt_base (L : Layout) {i j : Nat} (hB : 0 < L.bsize)
    (h : i < j) : L.base i < L.base j := by
  unfold Layout.base
  exact (Nat.mul_lt_mul_right hB).mpr (by omega)

theorem base_add_realSize_lt (L : Layout) (i : Nat)
    (h : L.realSize < L.bsize) : L.base i + L.realSize < L.base (i + 1) := by
  unfold Layout.base; nlinarith [Nat.le_refl i]

theorem dvd_base {L : Layout} {a : Nat} (h : a ∣ L.bsize) (i : Nat) :
    a ∣ L.base i := Dvd.dvd.mul_left h (i + 1)

/-! ## Unfolding lemmas for push (value engine) -/

theorem pushV_eq_inblock {L : Layout} {st : St K V} {c : Cursor}
    {p : Option Nat} {cfp : Nat} (v : V)
    (hh : readHeader st.mem c.currentFrame = some (p, cfp))
    (hpad : alignOffset cfp L.alignV = 0)
    (hfit : c.bytesUsed + L.sizeV < L.realSize) :
    pushV L st c v = some (⟨(st.mem.write cfp (.val v)).write c.currentFrame
        (.header p (cfp + L.sizeV)), st.nBlocks⟩,
      ⟨c.currentFrame, c.bytesUsed + L.sizeV⟩, cfp) := by
  unfold pushV
  rw [hh]
  simp [hpad, hfit]

theorem pushV_eq_overflow {L : Layout} {st : St K V} {c : Cursor}
    {p : Option Nat} {cfp : Nat} {tp : Option Nat} {tu : Nat} (v : V)
    (hh : readHeader st.mem c.currentFrame = some (p, cfp))
    (hpad : alignOffset cfp L.alignV = 0)
    (hfit : ¬ c.bytesUsed + L.sizeV < L.realSize)
    (htail : readTailAll st.mem (cfp + (L.realSize - c.bytesUsed)) =
      some (tp, tu, none))
    (hpad2 : alignOffset (L.base st.nBlocks) L.alignV = 0) :
    pushV L st c v = some (⟨((((st.mem.write (L.base st.nBlocks + L.realSize)
          (.tail (some cfp) c.bytesUsed none)).write
          (cfp + (L.realSize - c.bytesUsed))
          (.tail tp tu (some (L.base st.nBlocks)))).write
          (L.base st.nBlocks) (.val v)).write c.currentFrame
          (.header p (L.base st.nBlocks + L.sizeV))), st.nBlocks + 1⟩,
      ⟨c.currentFrame, L.sizeV⟩, L.base st.nBlocks) := by
  unfold pushV
  rw [hh]
  simp only [hpad, Nat.add_zero, hfit, if_false]
  rw [htail]
  simp [hpad2]

/-! ## The root-frame invariant for the value engine -/

theorem readTailPrev_of_all {m : Mem K V} {a : Nat} {tp tu tn}
    (h : readTailAll m a = some (tp, tu, tn)) :
    readTailPrev m a = some (tp, tu) := by
  unfold readTailAll at h; unfold readTailPrev
  rcases hr : m.read a with _ | c
  all_goals rw [hr] at h
  all_goals try exact Option.noConfusion h
  all_goals cases c <;> simp_all

/-- One loop iteration of the teardown walk that starts with
bytes_remaining = 0 crosses backward and then behaves exactly as an
iteration entered at the predecessor configuration. -/
theorem dropWalkV_cross {L : Layout} {m : Mem K V} {q p r t t₂ bd : Nat}
    (hcross : crossBack L m t₂ = some (p, r, t))
    (hq : bd < q) (hp : bd < p) (hr : r ≠ 0) (fuel : Nat) :
    dropWalkV L m (fuel + 1) q 0 t₂ bd =
      dropWalkV L m (fuel + 1) p r t bd := by
  simp only [dropWalkV, gt_iff_lt, hq, if_pos, hp, hcross, hr,
    if_neg, if_true, reduceIte]

/-- The invariant of a root cursor (single root frame) of the value
engine after a sequence of pushes: m is the index of the logical current
block, j the number of values in it, tr the push trace. The teardown
walk's behaviour is carried as part of the invariant, stated over every
future memory that still agrees below the bump. -/
structure RootVAt (L : Layout) (st : St K V) (c : Cursor)
    (tr : List (Nat × V)) (m j : Nat) : Prop where
  hnb : st.nBlocks = m + 1
  hcf : c.currentFrame = L.base 0
  hbump : readHeader st.mem (L.base 0) = some (none, L.base m + c.bytesUsed)
  hused : c.bytesUsed = (if m = 0 then L.sizeH else 0) + j * L.sizeV
  husedLt : c.bytesUsed < L.realSize
  hjpos : m = 0 ∨ 1 ≤ j
  hlen : m = 0 → j = tr.length
  htailNext : ∀ i, i ≤ m → readTailNext st.mem (L.base i + L.realSize) =
      some (if i = m then none else some (L.base (i + 1)))
  htailFull : ∃ tp tu, readTailAll st.mem (L.base m + L.realSize) =
      some (tp, tu, none)
  hdrop : ∀ m' : Mem K V,
      AgreeFor L st.mem m' (L.base m + c.bytesUsed) m →
      ∀ fuel, dropWalkV L m' (fuel + (tr.length + 1))
        (L.base m + c.bytesUsed) c.bytesUsed (L.base m + L.realSize)
        (L.base 0 + L.sizeH) = some tr.reverse

/-- The memory written by mkStack. -/
def mkMem (L : Layout) : Mem K V :=
  (Mem.write [] (L.base 0 + (L.bsize - L.sizeTail))
    (.tail none 0 none)).write (L.base 0)
    (.header none (L.base 0 + L.sizeH))

theorem mkStack_eq (L : Layout) :
    (mkStack L : St K V × Cursor) =
      (⟨mkMem L, 1⟩, ⟨L.base 0, L.sizeH⟩) := rfl

/-- mkStack establishes the invariant with an empty trace. -/
theorem rootVAt_mkStack (L : Layout) (hW : WFv L) :
    RootVAt L (⟨mkMem L, 1⟩ : St K V) ⟨L.base 0, L.sizeH⟩ [] 0 0 := by
  have hrs : 0 < L.realSize := by
    have := hW.capacity; omega
  have hrs' : L.bsize - L.sizeTail = L.realSize := rfl
  have hne : L.base 0 + (L.bsize - L.sizeTail) ≠ L.base 0 := by
    rw [hrs']; omega
  refine ⟨rfl, rfl, ?_,
    by show L.sizeH = (if 0 = 0 then L.sizeH else 0) + 0 * L.sizeV; simp,
    by show L.sizeH < L.realSize; have := hW.capacity; omega,
    Or.inl rfl, fun _ => rfl, ?_, ?_, ?_⟩
  · show readHeader _ (L.base 0) = _
    unfold mkMem
    rw [readHeader_write, if_pos rfl]
  · intro i hi
    interval_cases i
    unfold mkMem
    rw [readTailNext_write, if_neg (by omega),
      readTailNext_write, if_pos (by rw [hrs'])]
    simp
  · refine ⟨none, 0, ?_⟩
    unfold mkMem
    rw [readTailAll_write, if_neg (by omega),
      readTailAll_write, if_pos (by rw [hrs'])]
  · intro m' hag fuel
    show dropWalkV L m' (fuel + 1) (L.base 0 + L.sizeH) L.sizeH
      (L.base 0 + L.realSize) (L.base 0 + L.sizeH) = some []
    simp [dropWalkV]

theorem base_le_base (L : Layout) {i j : Nat} (h : i ≤ j) :
    L.base i ≤ L.base j :=
  Nat.mul_le_mul_right _ (by omega)

theorem readValAt_of_tailPrev {m : Mem K V} {a : Nat} {x}
    (h : readTailPrev m a = some x) : readValAt m a = none := by
  unfold readTailPrev at h; unfold readValAt
  rcases hr : m.read a with _ | c
  all_goals rw [hr] at h
  all_goals try exact Option.noConfusion h
  all_goals cases c <;> simp_all

theorem readKeyAt_of_tailPrev {m : Mem K V} {a : Nat} {x}
    (h : readTailPrev m a = some x) : readKeyAt m a = none := by
  unfold readTailPrev at h; unfold readKeyAt
  rcases hr : m.read a with _ | c
  all_goals rw [hr] at h
  all_goals try exact Option.noConfusion h
  all_goals cases c <;> simp_all

/-- Writing at or above the bump, away from the block tails, preserves
agreement. -/
theorem agree_write_above {L : Layout} {mm : Mem K V} {bump mIdx w : Nat}
    {c : Cell K V} (hw : bump ≤ w)
    (ht : ∀ i, i ≤ mIdx → w ≠ L.base i + L.realSize) :
    AgreeFor L mm (mm.write w c) bump mIdx := by
  constructor
  · intro a ha
    rw [readKeyAt_write, readValAt_write, if_neg (by omega),
      if_neg (by omega)]
    exact ⟨rfl, rfl⟩
  · intro i hi
    rw [readTailPrev_write, if_neg (ht i hi)]

/-- Rewriting a header cell (in place) preserves agreement: the scans
only read key, value and tail projections, which see a header as
nothing. -/
theorem agree_write_header {L : Layout} {mm : Mem K V} {bump mIdx w : Nat}
    (x : Option Nat × Nat) {p : Option Nat} {q : Nat}
    (hh : readHeader mm w = some x) :
    AgreeFor L mm (mm.write w (.header p q)) bump mIdx := by
  constructor
  · intro a ha
    rw [readKeyAt_write, readValAt_write]
    by_cases hac : w = a
    · subst hac
      simp [readKeyAt_of_header hh, readValAt_of_header hh]
    · rw [if_neg hac, if_neg hac]; exact ⟨rfl, rfl⟩
  · intro i hi
    rw [readTailPrev_write]
    by_cases hac : w = L.base i + L.realSize
    · rw [if_pos hac, ← hac, readTailPrev_of_header hh]
    · rw [if_neg hac]

/-- Rewriting a tail cell keeping its backward fields preserves
agreement, provided the tail sits at or above the bump. -/
theorem agree_write_tail_keep {L : Layout} {mm : Mem K V}
    {bump mIdx w : Nat} (tp : Option Nat) (tu : Nat) {n' : Option Nat}
    (hw : bump ≤ w) (hh : readTailPrev mm w = some (tp, tu)) :
    AgreeFor L mm (mm.write w (.tail tp tu n')) bump mIdx := by
  constructor
  · intro a ha
    rw [readKeyAt_write, readValAt_write, if_neg (by omega),
      if_neg (by omega)]
    exact ⟨rfl, rfl⟩
  · intro i hi
    rw [readTailPrev_write]
    by_cases hac : w = L.base i + L.realSize
    · rw [if_pos hac, ← hac, hh]
    · rw [if_neg hac]

/-- One non-crossing iteration of the value teardown walk destructs the
value right below the scan pointer. -/
theorem dropWalkV_step {L : Layout} {m : Mem K V} {peek r t bd : Nat}
    {v : V} (hgt : bd < peek) (hr : r ≠ 0) (hp : L.sizeV ≤ peek)
    (hrr : L.sizeV ≤ r)
    (hv : readValAt m (peek - L.sizeV) = some v) (fuel : Nat) :
    dropWalkV L m (fuel + 1) peek r t bd =
      (dropWalkV L m fuel (peek - L.sizeV) (r - L.sizeV) t bd).map
        (fun evs => (peek - L.sizeV, v) :: evs) := by
  simp only [dropWalkV, gt_iff_lt, hgt, if_pos, hr, if_neg, if_true,
    reduceIte, hv]
  rw [if_pos ⟨hp, hrr⟩]
  cases dropWalkV L m fuel (peek - L.sizeV) (r - L.sizeV) t bd <;> rfl

theorem crossBack_eq (L : Layout) {m : Mem K V} {t pb pu : Nat}
    (h : readTailPrev m t = some (some pb, pu)) :
    crossBack L m t = some (pb, pu, pb + (L.realSize - pu)) := by
  unfold crossBack; rw [h]

theorem base_inj (L : Layout) (hB : 0 < L.bsize) {i j : Nat}
    (h : L.base i = L.base j) : i = j := by
  unfold Layout.base at h
  have := Nat.eq_of_mul_eq_mul_right hB h
  omega

/-- push preserves the root-frame invariant of the value engine,
extending the trace by the address the value was written to. -/
theorem RootVAt.pushPresV {L : Layout} (hW : WFv L) {st : St K V} {c : Cursor}
    {tr : List (Nat × V)} {m j : Nat} (h : RootVAt L st c tr m j) (v : V) :
    ∃ st' c' a m' j', pushV L st c v = some (st', c', a) ∧
      RootVAt L st' c' (tr ++ [(a, v)]) m' j' := by
  have hBpos := hW.bsizePosV
  have hrsLt := hW.realSizeLtV
  have hcap := hW.capacity
  have hsVpos := hW.sizeVPos
  have hsHpos := hW.sizeHPos
  have hrsPos : 0 < L.realSize := by omega
  have hb0m : L.base 0 ≤ L.base m := base_le_base L (Nat.zero_le m)
  have hbrs : L.base m + L.realSize < L.base (m + 1) :=
    base_add_realSize_lt L m hrsLt
  have hb0B : L.base 0 = L.bsize := by unfold Layout.base; ring
  have husedLB : (m = 0 → L.sizeH ≤ c.bytesUsed) ∧
      (1 ≤ m → L.sizeV ≤ c.bytesUsed) := by
    constructor
    · intro hm; rw [h.hused, if_pos hm]; omega
    · intro hm
      rcases h.hjpos with h1 | h1
      · omega
      · rw [h.hused]
        have : 1 * L.sizeV ≤ j * L.sizeV := Nat.mul_le_mul_right _ h1
        omega
  have hb1le : 1 ≤ m → L.base 1 ≤ L.base m := fun hm => base_le_base L hm
  have hb1 : L.base 1 = L.bsize + L.bsize := by unfold Layout.base; ring
  have husedPos : 0 < c.bytesUsed := by
    rcases Nat.eq_zero_or_pos m with hm | hm
    · have := husedLB.1 hm; omega
    · have := husedLB.2 hm; omega
  have hbumpGe : L.base 0 + L.sizeH ≤ L.base m + c.bytesUsed := by
    rcases Nat.eq_zero_or_pos m with hm | hm
    · have := husedLB.1 hm; subst hm; omega
    · have := hb1le hm; omega
  have hdvdUsed : L.alignV ∣ c.bytesUsed := by
    rw [h.hused]
    refine Nat.dvd_add ?_ (Dvd.dvd.mul_left hW.dvdSizeV j)
    by_cases hm : m = 0 <;> simp [hm, hW.dvdSizeH]
  have hpad : alignOffset (L.base m + c.bytesUsed) L.alignV = 0 :=
    alignOffset_of_dvd (Nat.dvd_add (dvd_base hW.dvdB m) hdvdUsed)
  have hh : readHeader st.mem c.currentFrame =
      some (none, L.base m + c.bytesUsed) := by
    rw [h.hcf]; exact h.hbump
  have hcfTail : ∀ i, c.currentFrame ≠ L.base i + L.realSize := by
    intro i
    rw [h.hcf]
    have := base_le_base L (Nat.zero_le i)
    omega
  by_cases hfit : c.bytesUsed + L.sizeV < L.realSize
  · -- the value fits the current block
    refine ⟨_, _, _, m, j + 1, pushV_eq_inblock v hh hpad hfit, ?_⟩
    have hb0lt : L.base 0 < L.base m + c.bytesUsed := by omega
    have hbumpTail : ∀ i, i ≤ m →
        L.base m + c.bytesUsed ≠ L.base i + L.realSize := by
      intro i hi
      rcases Nat.lt_or_ge i m with hlt | hge
      · have h1 := base_add_realSize_lt L i hrsLt
        have h2 := base_le_base L (show i + 1 ≤ m from hlt)
        have := h.husedLt
        omega
      · have hieq : i = m := le_antisymm hi hge
        subst hieq
        have := h.husedLt
        omega
    obtain ⟨tp, tu, htf⟩ := h.htailFull
    have hstep : AgreeFor L st.mem
        ((st.mem.write (L.base m + c.bytesUsed) (.val v)).write
          c.currentFrame (.header none (L.base m + c.bytesUsed + L.sizeV)))
        (L.base m + c.bytesUsed) m := by
      refine AgreeFor.trans
        (agree_write_above le_rfl hbumpTail)
        (agree_write_header (none, L.base m + c.bytesUsed) ?_)
        le_rfl le_rfl
      rw [readHeader_write, if_neg (by rw [h.hcf]; omega)]
      exact hh
    refine ⟨h.hnb, h.hcf, ?_, ?_, hfit, Or.inr (by omega), ?_, ?_, ?_, ?_⟩
    · show readHeader _ (L.base 0) = _
      rw [readHeader_write, if_pos h.hcf]
      have he : L.base m + c.bytesUsed + L.sizeV =
        L.base m + (c.bytesUsed + L.sizeV) := by omega
      rw [he]
    · show c.bytesUsed + L.sizeV = _
      rw [h.hused]; ring
    · intro hm
      have := h.hlen hm
      simp only [List.length_append, List.length_cons, List.length_nil,
        Nat.zero_add]
      omega
    · intro i hi
      show readTailNext _ _ = _
      rw [readTailNext_write, if_neg (hcfTail i), readTailNext_write,
        if_neg (hbumpTail i hi)]
      exact h.htailNext i hi
    · refine ⟨tp, tu, ?_⟩
      show readTailAll _ _ = _
      rw [readTailAll_write, if_neg (hcfTail m), readTailAll_write,
        if_neg (hbumpTail m le_rfl)]
      exact htf
    · intro m'' hag fuel
      have hag2 : AgreeFor L ((st.mem.write (L.base m + c.bytesUsed)
          (.val v)).write c.currentFrame
          (.header none (L.base m + c.bytesUsed + L.sizeV))) m''
          (L.base m + (c.bytesUsed + L.sizeV)) m := hag
      have hag' : AgreeFor L st.mem m'' (L.base m + c.bytesUsed) m :=
        AgreeFor.trans hstep hag2 (by omega) le_rfl
      show dropWalkV L m'' _ (L.base m + (c.bytesUsed + L.sizeV))
        (c.bytesUsed + L.sizeV) (L.base m + L.realSize)
        (L.base 0 + L.sizeH) = _
      have hfc : fuel + ((tr ++ [(L.base m + c.bytesUsed, v)]).length + 1) =
          (fuel + (tr.length + 1)) + 1 := by
        simp only [List.length_append, List.length_cons, List.length_nil,
        Nat.zero_add]
        omega
      rw [hfc]
      have hpe : L.base m + (c.bytesUsed + L.sizeV) =
          (L.base m + c.bytesUsed) + L.sizeV := by omega
      rw [hpe]
      have hv : readValAt m'' ((L.base m + c.bytesUsed) + L.sizeV - L.sizeV)
          = some v := by
        have he : (L.base m + c.bytesUsed) + L.sizeV - L.sizeV =
          L.base m + c.bytesUsed := by omega
        rw [he]
        rw [(hag2.1 (L.base m + c.bytesUsed) (by omega)).2]
        rw [readValAt_write, if_neg (by rw [h.hcf]; omega), readValAt_write,
          if_pos rfl]
      rw [dropWalkV_step (by omega) (by omega) (by omega) (by omega) hv]
      have he : (L.base m + c.bytesUsed) + L.sizeV - L.sizeV =
          L.base m + c.bytesUsed := by omega
      have he2 : c.bytesUsed + L.sizeV - L.sizeV = c.bytesUsed := by omega
      rw [he, he2, h.hdrop m'' hag' fuel]
      simp
  · -- overflow into a fresh block
    obtain ⟨tp, tu, htf⟩ := h.htailFull
    have htf' : readTailAll st.mem
        ((L.base m + c.bytesUsed) + (L.realSize - c.bytesUsed)) =
        some (tp, tu, none) := by
      have he : (L.base m + c.bytesUsed) + (L.realSize - c.bytesUsed) =
        L.base m + L.realSize := by have := h.husedLt; omega
      rw [he]; exact htf
    have hpad2 : alignOffset (L.base st.nBlocks) L.alignV = 0 :=
      alignOffset_of_dvd (dvd_base hW.dvdB _)
    have heq := pushV_eq_overflow v hh hpad hfit htf' hpad2
    rw [h.hnb] at heq
    have he : (L.base m + c.bytesUsed) + (L.realSize - c.bytesUsed) =
      L.base m + L.realSize := by have := h.husedLt; omega
    rw [he] at heq
    refine ⟨_, _, _, m + 1, 1, heq, ?_⟩
    have husedGe : L.realSize - L.sizeV ≤ c.bytesUsed := by omega
    have hstrict : L.base 0 + L.sizeH < L.base m + c.bytesUsed := by
      rcases Nat.eq_zero_or_pos m with hm | hm
      · subst hm; omega
      · have := hb1le hm; omega
    have hnbTail : ∀ i, i ≤ m + 1 →
        L.base (m + 1) ≠ L.base i + L.realSize := by
      intro i hi hc
      rcases Nat.lt_or_ge i (m + 1) with hlt | hge
      · have h1 := base_add_realSize_lt L i hrsLt
        have h2 := base_le_base L (show i + 1 ≤ m + 1 from hlt)
        omega
      · have hieq : i = m + 1 := le_antisymm hi hge
        subst hieq; omega
    have hmTail : ∀ i, L.base m + L.realSize = L.base i + L.realSize → i = m :=
      fun i hc => (base_inj L hBpos (by omega)).symm
    have hnewTail : ∀ i, i ≤ m →
        L.base (m + 1) + L.realSize ≠ L.base i + L.realSize := by
      intro i hi hc
      have : i = m + 1 := (base_inj L hBpos (by omega)).symm
      omega
    -- the new memory, inner to outer: fresh tail, old tail rewrite,
    -- value, header
    have hstep : AgreeFor L st.mem
        ((((st.mem.write (L.base (m + 1) + L.realSize)
          (.tail (some (L.base m + c.bytesUsed)) c.bytesUsed none)).write
          (L.base m + L.realSize)
          (.tail tp tu (some (L.base (m + 1))))).write
          (L.base (m + 1)) (.val v)).write c.currentFrame
          (.header none (L.base (m + 1) + L.sizeV)))
        (L.base m + c.bytesUsed) m := by
      refine AgreeFor.trans (AgreeFor.trans (AgreeFor.trans
        (agree_write_above (by omega) hnewTail)
        (agree_write_tail_keep tp tu
          (by have := h.husedLt; omega) ?_) le_rfl le_rfl)
        (agree_write_above (by omega) (fun i hi hc => by
          have h1 := base_add_realSize_lt L i hrsLt
          have h2 := base_le_base L (show i + 1 ≤ m + 1 by omega)
          omega)) le_rfl le_rfl)
        (agree_write_header (none, L.base m + c.bytesUsed) ?_)
        le_rfl le_rfl
      · rw [readTailPrev_write, if_neg (hnewTail m le_rfl)]
        exact readTailPrev_of_all htf
      · have hb0m1 : L.base 0 ≤ L.base (m + 1) :=
          base_le_base L (Nat.zero_le (m + 1))
        rw [readHeader_write, if_neg (by rw [h.hcf]; omega),
          readHeader_write, if_neg (by rw [h.hcf]; omega),
          readHeader_write, if_neg (by rw [h.hcf]; omega)]
        exact hh
    refine ⟨rfl, h.hcf, ?_, ?_, ?_,
      Or.inr le_rfl, ?_, ?_, ?_, ?_⟩
    · show readHeader _ (L.base 0) = _
      rw [readHeader_write, if_pos h.hcf]
    · show L.sizeV = _
      simp
    · show L.sizeV < L.realSize
      omega
    · intro hmm; exact absurd hmm (Nat.succ_ne_zero m)
    · intro i hi
      show readTailNext _ _ = _
      rw [readTailNext_write, if_neg (hcfTail i), readTailNext_write,
        if_neg ?_]
      · by_cases him : i = m
        · subst him
          rw [readTailNext_write, if_pos rfl]
          rw [if_neg (by omega)]
        · rw [readTailNext_write, if_neg (fun hc => him (hmTail i hc))]
          by_cases him1 : i = m + 1
          · subst him1
            rw [readTailNext_write, if_pos rfl, if_pos rfl]
          · rw [readTailNext_write,
              if_neg (fun hc => him1 ((base_inj L hBpos (by omega)).symm)),
              if_neg him1]
            have := h.htailNext i (by omega)
            rw [this, if_neg him]
      · intro hc
        rcases Nat.lt_or_ge i (m + 1) with hlt | hge
        · have h1 := base_add_realSize_lt L i hrsLt
          have h2 := base_le_base L (show i + 1 ≤ m + 1 from hlt)
          omega
        · have hieq : i = m + 1 := le_antisymm hi hge
          subst hieq; omega
    · refine ⟨some (L.base m + c.bytesUsed), c.bytesUsed, ?_⟩
      show readTailAll _ _ = _
      rw [readTailAll_write, if_neg (hcfTail (m + 1)), readTailAll_write,
        if_neg (hnbTail (m + 1) le_rfl), readTailAll_write,
        if_neg (fun hc => by have := hmTail (m + 1) hc; omega),
        readTailAll_write, if_pos rfl]
    · intro m'' hag fuel
      have hag2 : AgreeFor L ((((st.mem.write (L.base (m + 1) + L.realSize)
          (.tail (some (L.base m + c.bytesUsed)) c.bytesUsed none)).write
          (L.base m + L.realSize)
          (.tail tp tu (some (L.base (m + 1))))).write
          (L.base (m + 1)) (.val v)).write c.currentFrame
          (.header none (L.base (m + 1) + L.sizeV))) m''
          (L.base (m + 1) + L.sizeV) (m + 1) := hag
      have hbrs1 := base_add_realSize_lt L (m + 1) hrsLt
      have hag' : AgreeFor L st.mem m'' (L.base m + c.bytesUsed) m :=
        AgreeFor.trans hstep hag2
          (by have := h.husedLt; omega) (by omega)
      show dropWalkV L m'' _ (L.base (m + 1) + L.sizeV) L.sizeV
        (L.base (m + 1) + L.realSize) (L.base 0 + L.sizeH) = _
      have hfc : fuel + ((tr ++ [(L.base (m + 1), v)]).length + 1) =
          ((fuel + tr.length) + 1) + 1 := by
        simp only [List.length_append, List.length_cons, List.length_nil,
        Nat.zero_add]
        omega
      rw [hfc]
      have hb1m1 := base_le_base L (show 1 ≤ m + 1 by omega)
      have hv : readValAt m'' (L.base (m + 1) + L.sizeV - L.sizeV)
          = some v := by
        have hee : L.base (m + 1) + L.sizeV - L.sizeV = L.base (m + 1) := by
          omega
        rw [hee]
        rw [(hag2.1 (L.base (m + 1)) (by omega)).2]
        rw [readValAt_write, if_neg (by rw [h.hcf]; omega), readValAt_write,
          if_pos rfl]
      rw [dropWalkV_step (by omega) (by omega) (by omega) (by omega) hv]
      have hee : L.base (m + 1) + L.sizeV - L.sizeV = L.base (m + 1) := by
        omega
      have hee2 : L.sizeV - L.sizeV = 0 := by omega
      rw [hee, hee2]
      have hrt : readTailPrev m'' (L.base (m + 1) + L.realSize) =
          some (some (L.base m + c.bytesUsed), c.bytesUsed) := by
        rw [hag2.2 (m + 1) le_rfl]
        rw [readTailPrev_write, if_neg (hcfTail (m + 1)), readTailPrev_write,
          if_neg (hnbTail (m + 1) le_rfl), readTailPrev_write,
          if_neg (fun hc => by have := hmTail (m + 1) hc; omega),
          readTailPrev_write, if_pos rfl]
      have hcross := crossBack_eq L hrt
      have hee3 : L.base m + c.bytesUsed + (L.realSize - c.bytesUsed) =
          L.base m + L.realSize := by have := h.husedLt; omega
      rw [hee3] at hcross
      rw [dropWalkV_cross hcross (by omega) (by omega) (by omega)]
      have hfc2 : fuel + tr.length + 1 = fuel + (tr.length + 1) := by omega
      rw [hfc2, h.hdrop m'' hag' fuel]
      simp

/-- Any sequence of pushes from a fresh value-engine arena reaches a
state satisfying the root-frame invariant; the trace records the pushed
values in order. -/
theorem pushManyV_inv {L : Layout} (hW : WFv L) :
    ∀ (vs : List V) (st : St K V) (c : Cursor) (tr : List (Nat × V))
      (m j : Nat), RootVAt L st c tr m j →
      ∃ st' c' tr2 m' j', pushManyV L st c vs = some (st', c', tr2) ∧
        RootVAt L st' c' (tr ++ tr2) m' j' ∧ tr2.map Prod.snd = vs := by
  intro vs
  induction vs with
  | nil =>
    intro st c tr m j h
    exact ⟨st, c, [], m, j, rfl, by simpa using h, rfl⟩
  | cons v vs ih =>
    intro st c tr m j h
    obtain ⟨st1, c1, a, m1, j1, hpush, h1⟩ := h.pushPresV hW v
    obtain ⟨st2, c2, tr2, m2, j2, hmany, h2, hmap⟩ :=
      ih st1 c1 (tr ++ [(a, v)]) m1 j1 h1
    refine ⟨st2, c2, (a, v) :: tr2, m2, j2, ?_, ?_, ?_⟩
    · unfold pushManyV
      rw [hpush]
      show (match pushManyV L st1 c1 vs with
        | none => none
        | some (st'', c'', tr) => some (st'', c'', (a, v) :: tr)) = _
      rw [hmany]
    · simpa using h2
    · simpa using hmap

/-- The shadowing lookup policy: the value-slot address of the most
recently pushed entry whose key matches, if any. -/
def findSpec [DecidableEq K] (k : K) (tr : List (Nat × K × Nat × V)) :
    Option Nat :=
  (tr.reverse.find? (fun e => decide (e.2.1 = k))).map (fun e => e.2.2.1)

/-- Teardown events of the dictionary engine for a push trace: key
address, key, value, most recent first. -/
def dropEvsKV (tr : List (Nat × K × Nat × V)) : List (Nat × K × V) :=
  (tr.map (fun e => (e.1, e.2.1, e.2.2.2))).reverse

theorem findSpec_append [DecidableEq K] (k : K)
    (tr : List (Nat × K × Nat × V)) (ka va : Nat) (k0 : K) (v : V) :
    findSpec k (tr ++ [(ka, k0, va, v)]) =
      if k = k0 then some va else findSpec k tr := by
  unfold findSpec
  rw [List.reverse_append]
  simp only [List.reverse_cons, List.reverse_nil, List.nil_append,
    List.cons_append, List.find?]
  by_cases hk : k = k0
  · subst hk; simp
  · have : (decide (k0 = k)) = false := by
      simp only [decide_eq_false_iff_not]
      exact fun hc => hk hc.symm
    rw [this]
    simp [hk]

theorem pushKV_eq_inblock {L : Layout} {st : St K V} {c : Cursor}
    {p : Option Nat} {cfp : Nat} (k : K) (v : V)
    (hh : readHeader st.mem c.currentFrame = some (p, cfp))
    (hkpad : alignOffset cfp L.alignK = 0)
    (hvpad : alignOffset (cfp + L.sizeK) L.alignV = 0)
    (hfit : c.bytesUsed + L.sizeK + L.sizeV < L.realSize) :
    pushKV L st c k v = some (⟨((st.mem.write cfp (.key k)).write
        (cfp + L.sizeK) (.val v)).write c.currentFrame
        (.header p (cfp + (L.sizeK + L.sizeV))), st.nBlocks⟩,
      ⟨c.currentFrame, c.bytesUsed + (L.sizeK + L.sizeV)⟩, cfp,
      cfp + L.sizeK) := by
  unfold pushKV
  rw [hh]
  simp only [hkpad, hvpad, Nat.add_zero, Nat.zero_add]
  rw [if_pos hfit]

theorem pushKV_eq_overflow {L : Layout} {st : St K V} {c : Cursor}
    {p : Option Nat} {cfp : Nat} {tp : Option Nat} {tu : Nat} (k : K) (v : V)
    (hh : readHeader st.mem c.currentFrame = some (p, cfp))
    (hkpad : alignOffset cfp L.alignK = 0)
    (hvpad : alignOffset (cfp + L.sizeK) L.alignV = 0)
    (hfit : ¬ c.bytesUsed + L.sizeK + L.sizeV < L.realSize)
    (htail : readTailAll st.mem (cfp + (L.realSize - c.bytesUsed)) =
      some (tp, tu, none))
    (hkpad2 : alignOffset (L.base st.nBlocks) L.alignK = 0)
    (hvpad2 : alignOffset (L.base st.nBlocks + L.sizeK) L.alignV = 0) :
    pushKV L st c k v = some (⟨(((((st.mem.write
          (L.base st.nBlocks + L.realSize)
          (.tail (some cfp) c.bytesUsed none)).write
          (cfp + (L.realSize - c.bytesUsed))
          (.tail tp tu (some (L.base st.nBlocks)))).write
          (L.base st.nBlocks) (.key k)).write
          (L.base st.nBlocks + L.sizeK) (.val v)).write c.currentFrame
          (.header p (L.base st.nBlocks + (L.sizeK + L.sizeV)))),
        st.nBlocks + 1⟩,
      ⟨c.currentFrame, L.sizeK + L.sizeV⟩, L.base st.nBlocks,
      L.base st.nBlocks + L.sizeK) := by
  unfold pushKV
  rw [hh]
  simp only [hkpad, hvpad, Nat.add_zero, Nat.zero_add]
  rw [if_neg hfit]
  rw [htail]
  simp only [hkpad2, hvpad2, Nat.add_zero, Nat.zero_add]

theorem dropWalkKV_step {L : Layout} {m : Mem K V} {peek r t bd : Nat}
    {k : K} {v : V}
    (hv0 : rustScanPad L.sizeK L.alignV = 0)
    (hk0 : rustScanPad L.sizeV L.alignK = 0)
    (hgt : bd < peek) (hr : r ≠ 0)
    (hp : L.sizeK + L.sizeV ≤ peek) (hrr : L.sizeK + L.sizeV ≤ r)
    (hk : readKeyAt m (peek - (L.sizeK + L.sizeV)) = some k)
    (hv : readValAt m (peek - (L.sizeK + L.sizeV) + L.sizeK) = some v)
    (fuel : Nat) :
    dropWalkKV L m (fuel + 1) peek r t bd =
      (dropWalkKV L m fuel (peek - (L.sizeK + L.sizeV))
        (r - (L.sizeK + L.sizeV)) t bd).map
        (fun evs => (peek - (L.sizeK + L.sizeV), k, v) :: evs) := by
  simp only [dropWalkKV, hv0, hk0, Nat.add_zero, gt_iff_lt, hgt, if_pos,
    hr, if_neg, if_true, reduceIte, hk, hv]
  rw [if_pos ⟨hp, hrr⟩]
  cases dropWalkKV L m fuel (peek - (L.sizeK + L.sizeV))
    (r - (L.sizeK + L.sizeV)) t bd <;> rfl

theorem dropWalkKV_cross {L : Layout} {m : Mem K V} {q p r t t₂ bd : Nat}
    (hcross : crossBack L m t₂ = some (p, r, t))
    (hq : bd < q) (hp : bd < p) (hr : r ≠ 0) (fuel : Nat) :
    dropWalkKV L m (fuel + 1) q 0 t₂ bd =
      dropWalkKV L m (fuel + 1) p r t bd := by
  simp only [dropWalkKV, gt_iff_lt, hq, if_pos, hp, hcross, hr,
    if_neg, if_true, reduceIte]

theorem getFrameWalk_exit [DecidableEq K] {L : Layout} {m : Mem K V}
    {k : K} {peek r t bd : Nat} (hle : ¬ bd < peek) (fuel : Nat) :
    getFrameWalk L m k (fuel + 1) peek r t bd = some none := by
  show (if bd < peek then _ else some none) = some none
  rw [if_neg hle]

theorem getFrameWalk_cross [DecidableEq K] {L : Layout} {m : Mem K V}
    {k : K} {q p r t t₂ bd : Nat}
    (hcross : crossBack L m t₂ = some (p, r, t))
    (hq : bd < q) (hp : bd < p) (hr : r ≠ 0) (fuel : Nat) :
    getFrameWalk L m k (fuel + 1) q 0 t₂ bd =
      getFrameWalk L m k (fuel + 1) p r t bd := by
  simp only [getFrameWalk, gt_iff_lt, hq, if_pos, hp, hcross, hr,
    if_neg, if_true, reduceIte]

theorem getFrameWalk_step [DecidableEq K] {L : Layout} {m : Mem K V}
    {k kc : K} {peek r t bd : Nat}
    (hv0 : rustScanPad L.sizeK L.alignV = 0)
    (hk0 : rustScanPad L.sizeV L.alignK = 0)
    (hgt : bd < peek) (hr : r ≠ 0)
    (hp : L.sizeK + L.sizeV ≤ peek) (hrr : L.sizeK + L.sizeV ≤ r)
    (hk : readKeyAt m (peek - (L.sizeK + L.sizeV)) = some kc) (fuel : Nat) :
    getFrameWalk L m k (fuel + 1) peek r t bd =
      if k = kc then some (some (peek - (L.sizeK + L.sizeV) + L.sizeK))
      else getFrameWalk L m k fuel (peek - (L.sizeK + L.sizeV))
        (r - (L.sizeK + L.sizeV)) t bd := by
  simp only [getFrameWalk, hv0, hk0, Nat.add_zero, gt_iff_lt, hgt, if_pos,
    hr, if_neg, if_true, reduceIte, hk]
  rw [if_pos ⟨hp, hrr⟩]

/-! ## Lemmas for the whole-stack scan -/

theorem getStackWalk_step [DecidableEq K] {L : Layout} {m : Mem K V}
    {k kc : K} {peek r t bd fa : Nat}
    (hv0 : rustScanPad L.sizeK L.alignV = 0)
    (hk0 : rustScanPad L.sizeV L.alignK = 0)
    (hgt : bd < peek) (hr : r ≠ 0)
    (hp : L.sizeK + L.sizeV ≤ peek) (hrr : L.sizeK + L.sizeV ≤ r)
    (hk : readKeyAt m (peek - (L.sizeK + L.sizeV)) = some kc) (fuel : Nat) :
    getStackWalk L m k (fuel + 1) peek r t bd fa false true =
      if k = kc then some (some (peek - (L.sizeK + L.sizeV) + L.sizeK))
      else getStackWalk L m k fuel (peek - (L.sizeK + L.sizeV))
        (r - (L.sizeK + L.sizeV)) t bd fa false true := by
  simp only [getStackWalk, hv0, hk0, Nat.add_zero, hr, if_neg, if_true,
    reduceIte, Bool.not_true, Bool.false_or, Bool.or_false, hk]
  rw [if_neg (by omega), if_neg (by omega)]
  simp only [Bool.false_eq_true, if_false]
  rw [if_pos ⟨hp, hrr⟩]

/-- At the frame's start boundary, the whole-stack scan either stops
(root frame) or re-targets the enclosing frame. -/
theorem getStackWalk_boundary_root [DecidableEq K] {L : Layout}
    {m : Mem K V} {k : K} {r t bd fa cur : Nat} {jj ekv : Bool}
    (hr : r ≠ 0) (hdr : readHeader m fa = some (none, cur)) (fuel : Nat) :
    getStackWalk L m k (fuel + 1) bd r t bd fa jj ekv = some none := by
  simp only [getStackWalk, hr, if_neg, if_true, reduceIte]
  rw [hdr, if_neg (Nat.lt_irrefl bd)]

theorem getStackWalk_boundary_jump [DecidableEq K] {L : Layout}
    {m : Mem K V} {k : K} {r t bd fa pf cur pcur : Nat} {jj ekv : Bool}
    {ppf : Option Nat}
    (hr : r ≠ 0) (hdr : readHeader m fa = some (some pf, cur))
    (hdr2 : readHeader m pf = some (ppf, pcur)) (fuel : Nat) :
    getStackWalk L m k (fuel + 1) bd r t bd fa jj ekv =
      getStackWalk L m k fuel pcur r t
        (pf + L.sizeH + alignOffset (pf + L.sizeH) L.alignH) pf
        false false := by
  simp only [getStackWalk, hr, if_neg, if_true, reduceIte]
  rw [hdr, if_neg (Nat.lt_irrefl bd)]
  show (match readHeader m pf with
    | none => none
    | some (_, pcur) =>
      getStackWalk L m k fuel pcur r t
        (pf + L.sizeH + alignOffset (pf + L.sizeH) L.alignH) pf
        false false) = _
  rw [hdr2]

/-- The first scan step after re-targeting a frame (expect_key_value_pair
is false): the boundary is recomputed with key alignment and an entry is
consumed. -/
theorem getStackWalk_step_reset [DecidableEq K] {L : Layout} {m : Mem K V}
    {k kc : K} {peek r t bd fa : Nat}
    (hv0 : rustScanPad L.sizeK L.alignV = 0)
    (hk0 : rustScanPad L.sizeV L.alignK = 0)
    (hgt : bd < peek) (hr : r ≠ 0)
    (hp : L.sizeK + L.sizeV ≤ peek) (hrr : L.sizeK + L.sizeV ≤ r)
    (hk : readKeyAt m (peek - (L.sizeK + L.sizeV)) = some kc) (fuel : Nat) :
    getStackWalk L m k (fuel + 1) peek r t bd fa false false =
      if k = kc then some (some (peek - (L.sizeK + L.sizeV) + L.sizeK))
      else getStackWalk L m k fuel (peek - (L.sizeK + L.sizeV))
        (r - (L.sizeK + L.sizeV)) t
        (fa + L.sizeH + alignOffset (fa + L.sizeH) L.alignK) fa
        false true := by
  simp only [getStackWalk, hv0, hk0, Nat.add_zero, hr, if_neg, if_true,
    reduceIte, Bool.not_false, Bool.true_or, hk]
  rw [if_neg (by omega), if_neg (by omega)]
  rw [if_pos ⟨hp, hrr⟩]

theorem getStackWalk_cross [DecidableEq K] {L : Layout} {m : Mem K V}
    {k : K} {q p r t t₂ bd fa : Nat}
    (hcross : crossBack L m t₂ = some (p, r, t))
    (hq : bd < q) (hp : bd < p) (hr : r ≠ 0) (fuel : Nat) :
    getStackWalk L m k (fuel + 1) q 0 t₂ bd fa false true =
      getStackWalk L m k (fuel + 1) p r t bd fa false true := by
  simp only [getStackWalk, hq, hp, hcross, hr, if_neg, if_true, reduceIte]

/-- The root-frame invariant for the dictionary engine: like RootVAt
but with key-value entries of stride sizeK + sizeV, and with the
get_in_frame scan's behaviour carried alongside the teardown walk's. -/
structure RootKVAt [DecidableEq K] (L : Layout) (st : St K V) (c : Cursor)
    (tr : List (Nat × K × Nat × V)) (m j : Nat) : Prop where
  hnb : st.nBlocks = m + 1
  hcf : c.currentFrame = L.base 0
  hbump : readHeader st.mem (L.base 0) = some (none, L.base m + c.bytesUsed)
  hused : c.bytesUsed = (if m = 0 then L.sizeH else 0) +
    j * (L.sizeK + L.sizeV)
  husedLt : c.bytesUsed < L.realSize
  hjpos : m = 0 ∨ 1 ≤ j
  hlen : m = 0 → j = tr.length
  htailNext : ∀ i, i ≤ m → readTailNext st.mem (L.base i + L.realSize) =
      some (if i = m then none else some (L.base (i + 1)))
  htailFull : ∃ tp tu, readTailAll st.mem (L.base m + L.realSize) =
      some (tp, tu, none)
  hdrop : ∀ m' : Mem K V,
      AgreeFor L st.mem m' (L.base m + c.bytesUsed) m →
      ∀ fuel, dropWalkKV L m' (fuel + (tr.length + 1))
        (L.base m + c.bytesUsed) c.bytesUsed (L.base m + L.realSize)
        (L.base 0 + L.sizeH) = some (dropEvsKV tr)
  hfind : ∀ (k : K) (m' : Mem K V),
      AgreeFor L st.mem m' (L.base m + c.bytesUsed) m →
      ∀ fuel, getFrameWalk L m' k (fuel + (tr.length + 1))
        (L.base m + c.bytesUsed) c.bytesUsed (L.base m + L.realSize)
        (L.base 0 + L.sizeH) = some (findSpec k tr)
  hstack : ∀ (k : K) (m' : Mem K V),
      AgreeFor L st.mem m' (L.base m + c.bytesUsed) m →
      (∃ cur, readHeader m' (L.base 0) = some (none, cur)) →
      ∀ fuel, getStackWalk L m' k (fuel + (tr.length + 2))
        (L.base m + c.bytesUsed) c.bytesUsed (L.base m + L.realSize)
        (L.base 0 + L.sizeH) (L.base 0) false true = some (findSpec k tr)

/-- mkStack establishes the dictionary invariant with an empty trace. -/
theorem rootKVAt_mkStack [DecidableEq K] (L : Layout) (hW : WFkv L) :
    RootKVAt L (⟨mkMem L, 1⟩ : St K V) ⟨L.base 0, L.sizeH⟩ [] 0 0 := by
  have hrs : 0 < L.realSize := by
    have := hW.capacity; omega
  have hrs' : L.bsize - L.sizeTail = L.realSize := rfl
  refine ⟨rfl, rfl, ?_,
    by show L.sizeH = (if 0 = 0 then L.sizeH else 0) + 0 * (L.sizeK + L.sizeV)
       simp,
    by show L.sizeH < L.realSize; have := hW.capacity; omega,
    Or.inl rfl, fun _ => rfl, ?_, ?_, ?_, ?_, ?_⟩
  · show readHeader _ (L.base 0) = _
    unfold mkMem
    rw [readHeader_write, if_pos rfl]
  · intro i hi
    interval_cases i
    unfold mkMem
    rw [readTailNext_write, if_neg (by omega),
      readTailNext_write, if_pos (by rw [hrs'])]
    simp
  · refine ⟨none, 0, ?_⟩
    unfold mkMem
    rw [readTailAll_write, if_neg (by omega),
      readTailAll_write, if_pos (by rw [hrs'])]
  · intro m' hag fuel
    show dropWalkKV L m' (fuel + 1) (L.base 0 + L.sizeH) L.sizeH
      (L.base 0 + L.realSize) (L.base 0 + L.sizeH) = some []
    simp [dropWalkKV]
  · intro k m' hag fuel
    show getFrameWalk L m' k (fuel + 1) (L.base 0 + L.sizeH) L.sizeH
      (L.base 0 + L.realSize) (L.base 0 + L.sizeH) = some (findSpec k [])
    rw [getFrameWalk_exit (by omega)]
    rfl
  · intro k m' hag hhdr fuel
    obtain ⟨cur, hcur⟩ := hhdr
    have hsH := hW.sizeHPos
    show getStackWalk L m' k (fuel + (0 + 2)) (L.base 0 + L.sizeH) L.sizeH
      (L.base 0 + L.realSize) (L.base 0 + L.sizeH) (L.base 0) false true =
      some (findSpec k ([] : List (Nat × K × Nat × V)))
    have hfc : fuel + (0 + 2) = (fuel + 1) + 1 := by omega
    rw [hfc, getStackWalk_boundary_root (by omega) hcur]
    rfl

/-- push preserves the dictionary root-frame invariant. -/
theorem RootKVAt.pushPresKV [DecidableEq K] {L : Layout} (hW : WFkv L)
    {st : St K V} {c : Cursor} {tr : List (Nat × K × Nat × V)} {m j : Nat}
    (h : RootKVAt L st c tr m j) (k0 : K) (v : V) :
    ∃ st' c' ka va m' j', pushKV L st c k0 v = some (st', c', ka, va) ∧
      va = ka + L.sizeK ∧
      RootKVAt L st' c' (tr ++ [(ka, k0, va, v)]) m' j' := by
  have hBpos := hW.bsizePosKV
  have hrsLt := hW.realSizeLtKV
  have hcap := hW.capacity
  have hsKpos := hW.sizeKPos
  have hsVpos := hW.sizeVPos
  have hsHpos := hW.sizeHPos
  have hrsPos : 0 < L.realSize := by omega
  have hb0m : L.base 0 ≤ L.base m := base_le_base L (Nat.zero_le m)
  have hbrs : L.base m + L.realSize < L.base (m + 1) :=
    base_add_realSize_lt L m hrsLt
  have hb0B : L.base 0 = L.bsize := by unfold Layout.base; ring
  have hv0 : rustScanPad L.sizeK L.alignV = 0 :=
    rustScanPad_eq_zero (hW.alignVEq ▸ hW.dvdSizeK)
  have hk0pad : rustScanPad L.sizeV L.alignK = 0 :=
    rustScanPad_eq_zero hW.dvdSizeV
  have husedLB : (m = 0 → L.sizeH ≤ c.bytesUsed) ∧
      (1 ≤ m → L.sizeK + L.sizeV ≤ c.bytesUsed) := by
    constructor
    · intro hm; rw [h.hused, if_pos hm]; omega
    · intro hm
      rcases h.hjpos with h1 | h1
      · omega
      · rw [h.hused]
        have : 1 * (L.sizeK + L.sizeV) ≤ j * (L.sizeK + L.sizeV) :=
          Nat.mul_le_mul_right _ h1
        omega
  have hb1le : 1 ≤ m → L.base 1 ≤ L.base m := fun hm => base_le_base L hm
  have hb1 : L.base 1 = L.bsize + L.bsize := by unfold Layout.base; ring
  have husedPos : 0 < c.bytesUsed := by
    rcases Nat.eq_zero_or_pos m with hm | hm
    · have := husedLB.1 hm; omega
    · have := husedLB.2 hm; omega
  have hbumpGe : L.base 0 + L.sizeH ≤ L.base m + c.bytesUsed := by
    rcases Nat.eq_zero_or_pos m with hm | hm
    · have := husedLB.1 hm; subst hm; omega
    · have := hb1le hm; omega
  have hdvdUsed : L.alignK ∣ c.bytesUsed := by
    rw [h.hused]
    refine Nat.dvd_add ?_
      (Dvd.dvd.mul_left (Nat.dvd_add hW.dvdSizeK hW.dvdSizeV) j)
    by_cases hm : m = 0 <;> simp [hm, hW.dvdSizeH]
  have hdvdBump : L.alignK ∣ L.base m + c.bytesUsed :=
    Nat.dvd_add (dvd_base hW.dvdB m) hdvdUsed
  have hkpad : alignOffset (L.base m + c.bytesUsed) L.alignK = 0 :=
    alignOffset_of_dvd hdvdBump
  have hvpad : alignOffset (L.base m + c.bytesUsed + L.sizeK) L.alignV = 0 := by
    rw [hW.alignVEq]
    exact alignOffset_of_dvd (Nat.dvd_add hdvdBump hW.dvdSizeK)
  have hh : readHeader st.mem c.currentFrame =
      some (none, L.base m + c.bytesUsed) := by
    rw [h.hcf]; exact h.hbump
  have hcfTail : ∀ i, c.currentFrame ≠ L.base i + L.realSize := by
    intro i
    rw [h.hcf]
    have := base_le_base L (Nat.zero_le i)
    omega
  by_cases hfit : c.bytesUsed + L.sizeK + L.sizeV < L.realSize
  · -- the pair fits the current block
    refine ⟨_, _, _, _, m, j + 1,
      pushKV_eq_inblock k0 v hh hkpad hvpad hfit, rfl, ?_⟩
    have hb0lt : L.base 0 < L.base m + c.bytesUsed := by omega
    have hbumpTail : ∀ i, i ≤ m →
        L.base m + c.bytesUsed ≠ L.base i + L.realSize := by
      intro i hi
      rcases Nat.lt_or_ge i m with hlt | hge
      · have h1 := base_add_realSize_lt L i hrsLt
        have h2 := base_le_base L (show i + 1 ≤ m from hlt)
        have := h.husedLt
        omega
      · have hieq : i = m := le_antisymm hi hge
        subst hieq
        have := h.husedLt
        omega
    have hvalTail : ∀ i, i ≤ m →
        L.base m + c.bytesUsed + L.sizeK ≠ L.base i + L.realSize := by
      intro i hi
      rcases Nat.lt_or_ge i m with hlt | hge
      · have h1 := base_add_realSize_lt L i hrsLt
        have h2 := base_le_base L (show i + 1 ≤ m from hlt)
        omega
      · have hieq : i = m := le_antisymm hi hge
        subst hieq
        omega
    obtain ⟨tp, tu, htf⟩ := h.htailFull
    have hstep : AgreeFor L st.mem
        (((st.mem.write (L.base m + c.bytesUsed) (.key k0)).write
          (L.base m + c.bytesUsed + L.sizeK) (.val v)).write
          c.currentFrame
          (.header none (L.base m + c.bytesUsed + (L.sizeK + L.sizeV))))
        (L.base m + c.bytesUsed) m := by
      refine AgreeFor.trans (AgreeFor.trans
        (agree_write_above le_rfl hbumpTail)
        (agree_write_above (by omega) hvalTail) le_rfl le_rfl)
        (agree_write_header (none, L.base m + c.bytesUsed) ?_)
        le_rfl le_rfl
      rw [readHeader_write, if_neg (by rw [h.hcf]; omega),
        readHeader_write, if_neg (by rw [h.hcf]; omega)]
      exact hh
    have hkeyRead : ∀ m'' : Mem K V,
        AgreeFor L (((st.mem.write (L.base m + c.bytesUsed)
          (.key k0)).write (L.base m + c.bytesUsed + L.sizeK)
          (.val v)).write c.currentFrame
          (.header none (L.base m + c.bytesUsed + (L.sizeK + L.sizeV)))) m''
          (L.base m + (c.bytesUsed + (L.sizeK + L.sizeV))) m →
        readKeyAt m'' (L.base m + c.bytesUsed) = some k0 ∧
        readValAt m'' (L.base m + c.bytesUsed + L.sizeK) = some v := by
      intro m'' hag
      constructor
      · rw [(hag.1 (L.base m + c.bytesUsed) (by omega)).1]
        rw [readKeyAt_write, if_neg (by rw [h.hcf]; omega), readKeyAt_write,
          if_neg (by omega), readKeyAt_write, if_pos rfl]
      · rw [(hag.1 (L.base m + c.bytesUsed + L.sizeK) (by omega)).2]
        rw [readValAt_write, if_neg (by rw [h.hcf]; omega), readValAt_write,
          if_pos rfl]
    refine ⟨h.hnb, h.hcf, ?_, ?_,
      by show c.bytesUsed + (L.sizeK + L.sizeV) < L.realSize; omega,
      Or.inr (by omega), ?_, ?_, ?_, ?_, ?_, ?_⟩
    · show readHeader _ (L.base 0) = _
      rw [readHeader_write, if_pos h.hcf]
      have he : L.base m + c.bytesUsed + (L.sizeK + L.sizeV) =
        L.base m + (c.bytesUsed + (L.sizeK + L.sizeV)) := by omega
      rw [he]
    · show c.bytesUsed + (L.sizeK + L.sizeV) = _
      rw [h.hused]; ring
    · intro hm
      have := h.hlen hm
      simp only [List.length_append, List.length_cons, List.length_nil,
        Nat.zero_add]
      omega
    · intro i hi
      show readTailNext _ _ = _
      rw [readTailNext_write, if_neg (hcfTail i), readTailNext_write,
        if_neg (hvalTail i hi), readTailNext_write,
        if_neg (hbumpTail i hi)]
      exact h.htailNext i hi
    · refine ⟨tp, tu, ?_⟩
      show readTailAll _ _ = _
      rw [readTailAll_write, if_neg (hcfTail m), readTailAll_write,
        if_neg (hvalTail m le_rfl), readTailAll_write,
        if_neg (hbumpTail m le_rfl)]
      exact htf
    · intro m'' hag fuel
      have hag2 : AgreeFor L (((st.mem.write (L.base m + c.bytesUsed)
          (.key k0)).write (L.base m + c.bytesUsed + L.sizeK)
          (.val v)).write c.currentFrame
          (.header none (L.base m + c.bytesUsed + (L.sizeK + L.sizeV)))) m''
          (L.base m + (c.bytesUsed + (L.sizeK + L.sizeV))) m := hag
      have hag' : AgreeFor L st.mem m'' (L.base m + c.bytesUsed) m :=
        AgreeFor.trans hstep hag2 (by omega) le_rfl
      show dropWalkKV L m'' _ (L.base m + (c.bytesUsed + (L.sizeK + L.sizeV)))
        (c.bytesUsed + (L.sizeK + L.sizeV)) (L.base m + L.realSize)
        (L.base 0 + L.sizeH) = _
      have hfc : fuel +
          ((tr ++ [(L.base m + c.bytesUsed, k0,
            L.base m + c.bytesUsed + L.sizeK, v)]).length + 1) =
          (fuel + (tr.length + 1)) + 1 := by
        simp only [List.length_append, List.length_cons, List.length_nil,
        Nat.zero_add]
        omega
      rw [hfc]
      have hpe : L.base m + (c.bytesUsed + (L.sizeK + L.sizeV)) =
          (L.base m + c.bytesUsed) + (L.sizeK + L.sizeV) := by omega
      rw [hpe]
      obtain ⟨hkr, hvr⟩ := hkeyRead m'' hag2
      have hkr' : readKeyAt m''
          ((L.base m + c.bytesUsed) + (L.sizeK + L.sizeV) -
            (L.sizeK + L.sizeV)) = some k0 := by
        have he : (L.base m + c.bytesUsed) + (L.sizeK + L.sizeV) -
          (L.sizeK + L.sizeV) = L.base m + c.bytesUsed := by omega
        rw [he]; exact hkr
      have hvr' : readValAt m''
          ((L.base m + c.bytesUsed) + (L.sizeK + L.sizeV) -
            (L.sizeK + L.sizeV) + L.sizeK) = some v := by
        have he : (L.base m + c.bytesUsed) + (L.sizeK + L.sizeV) -
          (L.sizeK + L.sizeV) = L.base m + c.bytesUsed := by omega
        rw [he]; exact hvr
      rw [dropWalkKV_step hv0 hk0pad (by omega) (by omega) (by omega)
        (by omega) hkr' hvr']
      have he : (L.base m + c.bytesUsed) + (L.sizeK + L.sizeV) -
          (L.sizeK + L.sizeV) = L.base m + c.bytesUsed := by omega
      have he2 : c.bytesUsed + (L.sizeK + L.sizeV) - (L.sizeK + L.sizeV) =
          c.bytesUsed := by omega
      rw [he, he2, h.hdrop m'' hag' fuel]
      unfold dropEvsKV
      simp
    · intro k m'' hag fuel
      have hag2 : AgreeFor L (((st.mem.write (L.base m + c.bytesUsed)
          (.key k0)).write (L.base m + c.bytesUsed + L.sizeK)
          (.val v)).write c.currentFrame
          (.header none (L.base m + c.bytesUsed + (L.sizeK + L.sizeV)))) m''
          (L.base m + (c.bytesUsed + (L.sizeK + L.sizeV))) m := hag
      have hag' : AgreeFor L st.mem m'' (L.base m + c.bytesUsed) m :=
        AgreeFor.trans hstep hag2 (by omega) le_rfl
      show getFrameWalk L m'' k _
        (L.base m + (c.bytesUsed + (L.sizeK + L.sizeV)))
        (c.bytesUsed + (L.sizeK + L.sizeV)) (L.base m + L.realSize)
        (L.base 0 + L.sizeH) = _
      have hfc : fuel +
          ((tr ++ [(L.base m + c.bytesUsed, k0,
            L.base m + c.bytesUsed + L.sizeK, v)]).length + 1) =
          (fuel + (tr.length + 1)) + 1 := by
        simp only [List.length_append, List.length_cons, List.length_nil,
        Nat.zero_add]
        omega
      rw [hfc]
      have hpe : L.base m + (c.bytesUsed + (L.sizeK + L.sizeV)) =
          (L.base m + c.bytesUsed) + (L.sizeK + L.sizeV) := by omega
      rw [hpe]
      obtain ⟨hkr, hvr⟩ := hkeyRead m'' hag2
      have hkr' : readKeyAt m''
          ((L.base m + c.bytesUsed) + (L.sizeK + L.sizeV) -
            (L.sizeK + L.sizeV)) = some k0 := by
        have he : (L.base m + c.bytesUsed) + (L.sizeK + L.sizeV) -
          (L.sizeK + L.sizeV) = L.base m + c.bytesUsed := by omega
        rw [he]; exact hkr
      rw [getFrameWalk_step hv0 hk0pad (by omega) (by omega) (by omega)
        (by omega) hkr']
      rw [findSpec_append]
      by_cases hkk : k = k0
      · rw [if_pos hkk, if_pos hkk]
        have he : (L.base m + c.bytesUsed) + (L.sizeK + L.sizeV) -
          (L.sizeK + L.sizeV) = L.base m + c.bytesUsed := by omega
        rw [he]
      · rw [if_neg hkk, if_neg hkk]
        have he : (L.base m + c.bytesUsed) + (L.sizeK + L.sizeV) -
          (L.sizeK + L.sizeV) = L.base m + c.bytesUsed := by omega
        have he2 : c.bytesUsed + (L.sizeK + L.sizeV) - (L.sizeK + L.sizeV) =
          c.bytesUsed := by omega
        rw [he, he2, h.hfind k m'' hag' fuel]
    · intro k m'' hag hhdr fuel
      have hag2 : AgreeFor L (((st.mem.write (L.base m + c.bytesUsed)
          (.key k0)).write (L.base m + c.bytesUsed + L.sizeK)
          (.val v)).write c.currentFrame
          (.header none (L.base m + c.bytesUsed + (L.sizeK + L.sizeV)))) m''
          (L.base m + (c.bytesUsed + (L.sizeK + L.sizeV))) m := hag
      have hag' : AgreeFor L st.mem m'' (L.base m + c.bytesUsed) m :=
        AgreeFor.trans hstep hag2 (by omega) le_rfl
      show getStackWalk L m'' k _
        (L.base m + (c.bytesUsed + (L.sizeK + L.sizeV)))
        (c.bytesUsed + (L.sizeK + L.sizeV)) (L.base m + L.realSize)
        (L.base 0 + L.sizeH) (L.base 0) false true = _
      have hfc : fuel +
          ((tr ++ [(L.base m + c.bytesUsed, k0,
            L.base m + c.bytesUsed + L.sizeK, v)]).length + 2) =
          (fuel + (tr.length + 2)) + 1 := by
        simp only [List.length_append, List.length_cons, List.length_nil,
        Nat.zero_add]
        omega
      rw [hfc]
      have hpe : L.base m + (c.bytesUsed + (L.sizeK + L.sizeV)) =
          (L.base m + c.bytesUsed) + (L.sizeK + L.sizeV) := by omega
      rw [hpe]
      obtain ⟨hkr, hvr⟩ := hkeyRead m'' hag2
      have hkr' : readKeyAt m''
          ((L.base m + c.bytesUsed) + (L.sizeK + L.sizeV) -
            (L.sizeK + L.sizeV)) = some k0 := by
        have he : (L.base m + c.bytesUsed) + (L.sizeK + L.sizeV) -
          (L.sizeK + L.sizeV) = L.base m + c.bytesUsed := by omega
        rw [he]; exact hkr
      rw [getStackWalk_step hv0 hk0pad (by omega) (by omega) (by omega)
        (by omega) hkr']
      rw [findSpec_append]
      by_cases hkk : k = k0
      · rw [if_pos hkk, if_pos hkk]
        have he : (L.base m + c.bytesUsed) + (L.sizeK + L.sizeV) -
          (L.sizeK + L.sizeV) = L.base m + c.bytesUsed := by omega
        rw [he]
      · rw [if_neg hkk, if_neg hkk]
        have he : (L.base m + c.bytesUsed) + (L.sizeK + L.sizeV) -
          (L.sizeK + L.sizeV) = L.base m + c.bytesUsed := by omega
        have he2 : c.bytesUsed + (L.sizeK + L.sizeV) - (L.sizeK + L.sizeV) =
          c.bytesUsed := by omega
        rw [he, he2, h.hstack k m'' hag' hhdr fuel]
  · -- overflow into a fresh block
    obtain ⟨tp, tu, htf⟩ := h.htailFull
    have htf' : readTailAll st.mem
        ((L.base m + c.bytesUsed) + (L.realSize - c.bytesUsed)) =
        some (tp, tu, none) := by
      have he : (L.base m + c.bytesUsed) + (L.realSize - c.bytesUsed) =
        L.base m + L.realSize := by have := h.husedLt; omega
      rw [he]; exact htf
    have hkpad2 : alignOffset (L.base st.nBlocks) L.alignK = 0 :=
      alignOffset_of_dvd (dvd_base hW.dvdB _)
    have hvpad2 : alignOffset (L.base st.nBlocks + L.sizeK) L.alignV = 0 := by
      rw [hW.alignVEq]
      exact alignOffset_of_dvd
        (Nat.dvd_add (dvd_base hW.dvdB _) hW.dvdSizeK)
    have heq := pushKV_eq_overflow k0 v hh hkpad hvpad hfit htf' hkpad2 hvpad2
    rw [h.hnb] at heq
    have he : (L.base m + c.bytesUsed) + (L.realSize - c.bytesUsed) =
      L.base m + L.realSize := by have := h.husedLt; omega
    rw [he] at heq
    refine ⟨_, _, _, _, m + 1, 1, heq, rfl, ?_⟩
    have husedGe : L.realSize - (L.sizeK + L.sizeV) ≤ c.bytesUsed := by omega
    have hstrict : L.base 0 + L.sizeH < L.base m + c.bytesUsed := by
      rcases Nat.eq_zero_or_pos m with hm | hm
      · subst hm; omega
      · have := hb1le hm; omega
    have hnbTail : ∀ i, i ≤ m + 1 →
        L.base (m + 1) ≠ L.base i + L.realSize := by
      intro i hi hc
      rcases Nat.lt_or_ge i (m + 1) with hlt | hge
      · have h1 := base_add_realSize_lt L i hrsLt
        have h2 := base_le_base L (show i + 1 ≤ m + 1 from hlt)
        omega
      · have hieq : i = m + 1 := le_antisymm hi hge
        subst hieq; omega
    have hnbkTail : ∀ i, i ≤ m + 1 →
        L.base (m + 1) + L.sizeK ≠ L.base i + L.realSize := by
      intro i hi hc
      rcases Nat.lt_or_ge i (m + 1) with hlt | hge
      · have h1 := base_add_realSize_lt L i hrsLt
        have h2 := base_le_base L (show i + 1 ≤ m + 1 from hlt)
        omega
      · have hieq : i = m + 1 := le_antisymm hi hge
        subst hieq
        omega
    have hmTail : ∀ i, L.base m + L.realSize = L.base i + L.realSize →
        i = m :=
      fun i hc => (base_inj L hBpos (by omega)).symm
    have hnewTail : ∀ i, i ≤ m →
        L.base (m + 1) + L.realSize ≠ L.base i + L.realSize := by
      intro i hi hc
      have : i = m + 1 := (base_inj L hBpos (by omega)).symm
      omega
    have hbrs1 := base_add_realSize_lt L (m + 1) hrsLt
    have hstep : AgreeFor L st.mem
        ((((((st.mem.write (L.base (m + 1) + L.realSize)
          (.tail (some (L.base m + c.bytesUsed)) c.bytesUsed none)).write
          (L.base m + L.realSize)
          (.tail tp tu (some (L.base (m + 1))))).write
          (L.base (m + 1)) (.key k0)).write
          (L.base (m + 1) + L.sizeK) (.val v)).write c.currentFrame
          (.header none (L.base (m + 1) + (L.sizeK + L.sizeV)))))
        (L.base m + c.bytesUsed) m := by
      refine AgreeFor.trans (AgreeFor.trans (AgreeFor.trans (AgreeFor.trans
        (agree_write_above (by omega) hnewTail)
        (agree_write_tail_keep tp tu
          (by have := h.husedLt; omega) ?_) le_rfl le_rfl)
        (agree_write_above (by omega) (fun i hi hc => by
          have h1 := base_add_realSize_lt L i hrsLt
          have h2 := base_le_base L (show i + 1 ≤ m + 1 by omega)
          omega)) le_rfl le_rfl)
        (agree_write_above (by omega) (fun i hi hc => by
          have h1 := base_add_realSize_lt L i hrsLt
          have h2 := base_le_base L (show i + 1 ≤ m + 1 by omega)
          omega)) le_rfl le_rfl)
        (agree_write_header (none, L.base m + c.bytesUsed) ?_)
        le_rfl le_rfl
      · rw [readTailPrev_write, if_neg (hnewTail m le_rfl)]
        exact readTailPrev_of_all htf
      · have hb0m1 : L.base 0 ≤ L.base (m + 1) :=
          base_le_base L (Nat.zero_le (m + 1))
        rw [readHeader_write, if_neg (by rw [h.hcf]; omega),
          readHeader_write, if_neg (by rw [h.hcf]; omega),
          readHeader_write, if_neg (by rw [h.hcf]; omega),
          readHeader_write, if_neg (by rw [h.hcf]; omega)]
        exact hh
    have hkeyRead : ∀ m'' : Mem K V,
        AgreeFor L ((((((st.mem.write (L.base (m + 1) + L.realSize)
          (.tail (some (L.base m + c.bytesUsed)) c.bytesUsed none)).write
          (L.base m + L.realSize)
          (.tail tp tu (some (L.base (m + 1))))).write
          (L.base (m + 1)) (.key k0)).write
          (L.base (m + 1) + L.sizeK) (.val v)).write c.currentFrame
          (.header none (L.base (m + 1) + (L.sizeK + L.sizeV))))) m''
          (L.base (m + 1) + (L.sizeK + L.sizeV)) (m + 1) →
        readKeyAt m'' (L.base (m + 1)) = some k0 ∧
        readValAt m'' (L.base (m + 1) + L.sizeK) = some v := by
      intro m'' hag
      have hb0m1 : L.base 0 ≤ L.base (m + 1) :=
        base_le_base L (Nat.zero_le (m + 1))
      constructor
      · rw [(hag.1 (L.base (m + 1)) (by omega)).1]
        rw [readKeyAt_write, if_neg (by rw [h.hcf]; omega), readKeyAt_write,
          if_neg (by omega), readKeyAt_write, if_pos rfl]
      · rw [(hag.1 (L.base (m + 1) + L.sizeK) (by omega)).2]
        rw [readValAt_write, if_neg (by rw [h.hcf]; omega), readValAt_write,
          if_pos rfl]
    refine ⟨rfl, h.hcf, ?_, ?_, ?_, Or.inr le_rfl, ?_, ?_, ?_, ?_, ?_, ?_⟩
    · show readHeader _ (L.base 0) = _
      rw [readHeader_write, if_pos h.hcf]
    · show L.sizeK + L.sizeV = _
      simp
    · show L.sizeK + L.sizeV < L.realSize
      omega
    · intro hmm; exact absurd hmm (Nat.succ_ne_zero m)
    · intro i hi
      show readTailNext _ _ = _
      rw [readTailNext_write, if_neg (hcfTail i), readTailNext_write,
        if_neg (hnbkTail i hi), readTailNext_write, if_neg (hnbTail i hi)]
      by_cases him : i = m
      · subst him
        rw [readTailNext_write, if_pos rfl]
        rw [if_neg (by omega)]
      · rw [readTailNext_write, if_neg (fun hc => him (hmTail i hc))]
        by_cases him1 : i = m + 1
        · subst him1
          rw [readTailNext_write, if_pos rfl, if_pos rfl]
        · rw [readTailNext_write,
            if_neg (fun hc => him1 ((base_inj L hBpos (by omega)).symm)),
            if_neg him1]
          have := h.htailNext i (by omega)
          rw [this, if_neg him]
    · refine ⟨some (L.base m + c.bytesUsed), c.bytesUsed, ?_⟩
      show readTailAll _ _ = _
      rw [readTailAll_write, if_neg (hcfTail (m + 1)), readTailAll_write,
        if_neg (hnbkTail (m + 1) le_rfl), readTailAll_write,
        if_neg (hnbTail (m + 1) le_rfl), readTailAll_write,
        if_neg (fun hc => by have := hmTail (m + 1) hc; omega),
        readTailAll_write, if_pos rfl]
    · intro m'' hag fuel
      have hag2 : AgreeFor L ((((((st.mem.write
          (L.base (m + 1) + L.realSize)
          (.tail (some (L.base m + c.bytesUsed)) c.bytesUsed none)).write
          (L.base m + L.realSize)
          (.tail tp tu (some (L.base (m + 1))))).write
          (L.base (m + 1)) (.key k0)).write
          (L.base (m + 1) + L.sizeK) (.val v)).write c.currentFrame
          (.header none (L.base (m + 1) + (L.sizeK + L.sizeV))))) m''
          (L.base (m + 1) + (L.sizeK + L.sizeV)) (m + 1) := hag
      have hag' : AgreeFor L st.mem m'' (L.base m + c.bytesUsed) m :=
        AgreeFor.trans hstep hag2
          (by have := h.husedLt; omega) (by omega)
      show dropWalkKV L m'' _ (L.base (m + 1) + (L.sizeK + L.sizeV))
        (L.sizeK + L.sizeV) (L.base (m + 1) + L.realSize)
        (L.base 0 + L.sizeH) = _
      have hfc : fuel + ((tr ++ [(L.base (m + 1), k0,
          L.base (m + 1) + L.sizeK, v)]).length + 1) =
          ((fuel + tr.length) + 1) + 1 := by
        simp only [List.length_append, List.length_cons, List.length_nil,
        Nat.zero_add]
        omega
      rw [hfc]
      have hb1m1 := base_le_base L (show 1 ≤ m + 1 by omega)
      obtain ⟨hkr, hvr⟩ := hkeyRead m'' hag2
      have hkr' : readKeyAt m'' (L.base (m + 1) + (L.sizeK + L.sizeV) -
          (L.sizeK + L.sizeV)) = some k0 := by
        have hee : L.base (m + 1) + (L.sizeK + L.sizeV) -
          (L.sizeK + L.sizeV) = L.base (m + 1) := by omega
        rw [hee]; exact hkr
      have hvr' : readValAt m'' (L.base (m + 1) + (L.sizeK + L.sizeV) -
          (L.sizeK + L.sizeV) + L.sizeK) = some v := by
        have hee : L.base (m + 1) + (L.sizeK + L.sizeV) -
          (L.sizeK + L.sizeV) = L.base (m + 1) := by omega
        rw [hee]; exact hvr
      rw [dropWalkKV_step hv0 hk0pad (by omega) (by omega) (by omega)
        (by omega) hkr' hvr']
      have hee : L.base (m + 1) + (L.sizeK + L.sizeV) -
          (L.sizeK + L.sizeV) = L.base (m + 1) := by omega
      have hee2 : L.sizeK + L.sizeV - (L.sizeK + L.sizeV) = 0 := by omega
      rw [hee, hee2]
      have hrt : readTailPrev m'' (L.base (m + 1) + L.realSize) =
          some (some (L.base m + c.bytesUsed), c.bytesUsed) := by
        rw [hag2.2 (m + 1) le_rfl]
        rw [readTailPrev_write, if_neg (hcfTail (m + 1)), readTailPrev_write,
          if_neg (hnbkTail (m + 1) le_rfl), readTailPrev_write,
          if_neg (hnbTail (m + 1) le_rfl), readTailPrev_write,
          if_neg (fun hc => by have := hmTail (m + 1) hc; omega),
          readTailPrev_write, if_pos rfl]
      have hcross := crossBack_eq L hrt
      have hee3 : L.base m + c.bytesUsed + (L.realSize - c.bytesUsed) =
          L.base m + L.realSize := by have := h.husedLt; omega
      rw [hee3] at hcross
      rw [dropWalkKV_cross hcross (by omega) (by omega) (by omega)]
      have hfc2 : fuel + tr.length + 1 = fuel + (tr.length + 1) := by omega
      rw [hfc2, h.hdrop m'' hag' fuel]
      unfold dropEvsKV
      simp
    · intro k m'' hag fuel
      have hag2 : AgreeFor L ((((((st.mem.write
          (L.base (m + 1) + L.realSize)
          (.tail (some (L.base m + c.bytesUsed)) c.bytesUsed none)).write
          (L.base m + L.realSize)
          (.tail tp tu (some (L.base (m + 1))))).write
          (L.base (m + 1)) (.key k0)).write
          (L.base (m + 1) + L.sizeK) (.val v)).write c.currentFrame
          (.header none (L.base (m + 1) + (L.sizeK + L.sizeV))))) m''
          (L.base (m + 1) + (L.sizeK + L.sizeV)) (m + 1) := hag
      have hag' : AgreeFor L st.mem m'' (L.base m + c.bytesUsed) m :=
        AgreeFor.trans hstep hag2
          (by have := h.husedLt; omega) (by omega)
      show getFrameWalk L m'' k _ (L.base (m + 1) + (L.sizeK + L.sizeV))
        (L.sizeK + L.sizeV) (L.base (m + 1) + L.realSize)
        (L.base 0 + L.sizeH) = _
      have hfc : fuel + ((tr ++ [(L.base (m + 1), k0,
          L.base (m + 1) + L.sizeK, v)]).length + 1) =
          ((fuel + tr.length) + 1) + 1 := by
        simp only [List.length_append, List.length_cons, List.length_nil,
        Nat.zero_add]
        omega
      rw [hfc]
      have hb1m1 := base_le_base L (show 1 ≤ m + 1 by omega)
      obtain ⟨hkr, hvr⟩ := hkeyRead m'' hag2
      have hkr' : readKeyAt m'' (L.base (m + 1) + (L.sizeK + L.sizeV) -
          (L.sizeK + L.sizeV)) = some k0 := by
        have hee : L.base (m + 1) + (L.sizeK + L.sizeV) -
          (L.sizeK + L.sizeV) = L.base (m + 1) := by omega
        rw [hee]; exact hkr
      rw [getFrameWalk_step hv0 hk0pad (by omega) (by omega) (by omega)
        (by omega) hkr']
      rw [findSpec_append]
      by_cases hkk : k = k0
      · rw [if_pos hkk, if_pos hkk]
        have hee : L.base (m + 1) + (L.sizeK + L.sizeV) -
          (L.sizeK + L.sizeV) = L.base (m + 1) := by omega
        rw [hee]
      · rw [if_neg hkk, if_neg hkk]
        have hee : L.base (m + 1) + (L.sizeK + L.sizeV) -
          (L.sizeK + L.sizeV) = L.base (m + 1) := by omega
        have hee2 : L.sizeK + L.sizeV - (L.sizeK + L.sizeV) = 0 := by omega
        rw [hee, hee2]
        have hrt : readTailPrev m'' (L.base (m + 1) + L.realSize) =
            some (some (L.base m + c.bytesUsed), c.bytesUsed) := by
          rw [hag2.2 (m + 1) le_rfl]
          rw [readTailPrev_write, if_neg (hcfTail (m + 1)),
            readTailPrev_write, if_neg (hnbkTail (m + 1) le_rfl),
            readTailPrev_write, if_neg (hnbTail (m + 1) le_rfl),
            readTailPrev_write,
            if_neg (fun hc => by have := hmTail (m + 1) hc; omega),
            readTailPrev_write, if_pos rfl]
        have hcross := crossBack_eq L hrt
        have hee3 : L.base m + c.bytesUsed + (L.realSize - c.bytesUsed) =
            L.base m + L.realSize := by have := h.husedLt; omega
        rw [hee3] at hcross
        rw [getFrameWalk_cross hcross (by omega) (by omega) (by omega)]
        have hfc2 : fuel + tr.length + 1 = fuel + (tr.length + 1) := by omega
        rw [hfc2, h.hfind k m'' hag' fuel]
    · intro k m'' hag hhdr fuel
      have hag2 : AgreeFor L ((((((st.mem.write
          (L.base (m + 1) + L.realSize)
          (.tail (some (L.base m + c.bytesUsed)) c.bytesUsed none)).write
          (L.base m + L.realSize)
          (.tail tp tu (some (L.base (m + 1))))).write
          (L.base (m + 1)) (.key k0)).write
          (L.base (m + 1) + L.sizeK) (.val v)).write c.currentFrame
          (.header none (L.base (m + 1) + (L.sizeK + L.sizeV))))) m''
          (L.base (m + 1) + (L.sizeK + L.sizeV)) (m + 1) := hag
      have hag' : AgreeFor L st.mem m'' (L.base m + c.bytesUsed) m :=
        AgreeFor.trans hstep hag2
          (by have := h.husedLt; omega) (by omega)
      show getStackWalk L m'' k _ (L.base (m + 1) + (L.sizeK + L.sizeV))
        (L.sizeK + L.sizeV) (L.base (m + 1) + L.realSize)
        (L.base 0 + L.sizeH) (L.base 0) false true = _
      have hfc : fuel + ((tr ++ [(L.base (m + 1), k0,
          L.base (m + 1) + L.sizeK, v)]).length + 2) =
          ((fuel + tr.length + 1) + 1) + 1 := by
        simp only [List.length_append, List.length_cons, List.length_nil,
        Nat.zero_add]
        omega
      rw [hfc]
      have hb1m1 := base_le_base L (show 1 ≤ m + 1 by omega)
      obtain ⟨hkr, hvr⟩ := hkeyRead m'' hag2
      have hkr' : readKeyAt m'' (L.base (m + 1) + (L.sizeK + L.sizeV) -
          (L.sizeK + L.sizeV)) = some k0 := by
        have hee : L.base (m + 1) + (L.sizeK + L.sizeV) -
          (L.sizeK + L.sizeV) = L.base (m + 1) := by omega
        rw [hee]; exact hkr
      rw [getStackWalk_step hv0 hk0pad (by omega) (by omega) (by omega)
        (by omega) hkr']
      rw [findSpec_append]
      by_cases hkk : k = k0
      · rw [if_pos hkk, if_pos hkk]
        have hee : L.base (m + 1) + (L.sizeK + L.sizeV) -
          (L.sizeK + L.sizeV) = L.base (m + 1) := by omega
        rw [hee]
      · rw [if_neg hkk, if_neg hkk]
        have hee : L.base (m + 1) + (L.sizeK + L.sizeV) -
          (L.sizeK + L.sizeV) = L.base (m + 1) := by omega
        have hee2 : L.sizeK + L.sizeV - (L.sizeK + L.sizeV) = 0 := by omega
        rw [hee, hee2]
        have hrt : readTailPrev m'' (L.base (m + 1) + L.realSize) =
            some (some (L.base m + c.bytesUsed), c.bytesUsed) := by
          rw [hag2.2 (m + 1) le_rfl]
          rw [readTailPrev_write, if_neg (hcfTail (m + 1)),
            readTailPrev_write, if_neg (hnbkTail (m + 1) le_rfl),
            readTailPrev_write, if_neg (hnbTail (m + 1) le_rfl),
            readTailPrev_write,
            if_neg (fun hc => by have := hmTail (m + 1) hc; omega),
            readTailPrev_write, if_pos rfl]
        have hcross := crossBack_eq L hrt
        have hee3 : L.base m + c.bytesUsed + (L.realSize - c.bytesUsed) =
            L.base m + L.realSize := by have := h.husedLt; omega
        rw [hee3] at hcross
        rw [getStackWalk_cross hcross (by omega) (by omega) (by omega)]
        have hfc2 : fuel + tr.length + 1 + 1 = fuel + (tr.length + 2) := by
          omega
        rw [hfc2, h.hstack k m'' hag' hhdr fuel]

/-- Any sequence of key-value pushes from a fresh dictionary arena
reaches a state satisfying the dictionary root-frame invariant. -/
theorem pushManyKV_inv [DecidableEq K] {L : Layout} (hW : WFkv L) :
    ∀ (ps : List (K × V)) (st : St K V) (c : Cursor)
      (tr : List (Nat × K × Nat × V)) (m j : Nat), RootKVAt L st c tr m j →
      ∃ st' c' tr2 m' j', pushManyKV L st c ps = some (st', c', tr2) ∧
        RootKVAt L st' c' (tr ++ tr2) m' j' ∧
        tr2.map (fun e => (e.2.1, e.2.2.2)) = ps := by
  intro ps
  induction ps with
  | nil =>
    intro st c tr m j h
    exact ⟨st, c, [], m, j, rfl, by simpa using h, rfl⟩
  | cons p ps ih =>
    intro st c tr m j h
    obtain ⟨st1, c1, ka, va, m1, j1, hpush, hva, h1⟩ := h.pushPresKV hW p.1 p.2
    obtain ⟨st2, c2, tr2, m2, j2, hmany, h2, hmap⟩ :=
      ih st1 c1 (tr ++ [(ka, p.1, va, p.2)]) m1 j1 h1
    refine ⟨st2, c2, (ka, p.1, va, p.2) :: tr2, m2, j2, ?_, ?_, ?_⟩
    · show pushManyKV L st c ((p.1, p.2) :: ps) = _
      unfold pushManyKV
      rw [hpush]
      show (match pushManyKV L st1 c1 ps with
        | none => none
        | some (st'', c'', tr) =>
          some (st'', c'', (ka, p.1, va, p.2) :: tr)) = _
      rw [hmany]
    · simpa using h2
    · simpa using hmap

/-- get_in_frame on a root dictionary cursor returns a handle to the
value slot of the most recently pushed matching entry, or None. -/
theorem getInFrame_of_inv [DecidableEq K] {L : Layout} (hW : WFkv L)
    {st : St K V} {c : Cursor} {tr : List (Nat × K × Nat × V)} {m j : Nat}
    (h : RootKVAt L st c tr m j) (k : K) :
    ∀ fuel, getInFrame L (fuel + (tr.length + 1)) st c k =
      some (findSpec k tr) := by
  intro fuel
  have hh : readHeader st.mem c.currentFrame =
      some (none, L.base m + c.bytesUsed) := by
    rw [h.hcf]; exact h.hbump
  have hta : L.base m + c.bytesUsed + (L.realSize - c.bytesUsed) =
      L.base m + L.realSize := by have := h.husedLt; omega
  have hfindEq := h.hfind k st.mem (AgreeFor.refl L st.mem _ _) fuel
  have hb : alignOffset (c.currentFrame + L.sizeH) L.alignK = 0 := by
    rw [h.hcf]
    exact alignOffset_of_dvd (Nat.dvd_add (dvd_base hW.dvdB 0) hW.dvdSizeH)
  unfold getInFrame
  rw [hh]
  simp only [hb, Nat.add_zero, hta]
  rw [show c.currentFrame + L.sizeH = L.base 0 + L.sizeH from by rw [h.hcf]]
  exact hfindEq

/-- get_in_stack on a root dictionary cursor agrees with get_in_frame:
the root frame is the whole visible chain. -/
theorem getInStack_of_inv [DecidableEq K] {L : Layout} (hW : WFkv L)
    {st : St K V} {c : Cursor} {tr : List (Nat × K × Nat × V)} {m j : Nat}
    (h : RootKVAt L st c tr m j) (k : K) :
    ∀ fuel, getInStack L (fuel + (tr.length + 2)) st c k =
      some (findSpec k tr) := by
  intro fuel
  have hh : readHeader st.mem c.currentFrame =
      some (none, L.base m + c.bytesUsed) := by
    rw [h.hcf]; exact h.hbump
  have hta : L.base m + c.bytesUsed + (L.realSize - c.bytesUsed) =
      L.base m + L.realSize := by have := h.husedLt; omega
  have hb : alignOffset (c.currentFrame + L.sizeH) L.alignK = 0 := by
    rw [h.hcf]
    exact alignOffset_of_dvd (Nat.dvd_add (dvd_base hW.dvdB 0) hW.dvdSizeH)
  unfold getInStack
  rw [hh]
  simp only [hb, Nat.add_zero, hta]
  rw [show c.currentFrame + L.sizeH = L.base 0 + L.sizeH from by rw [h.hcf],
    show c.currentFrame = L.base 0 from h.hcf]
  exact h.hstack k st.mem (AgreeFor.refl L st.mem _ _)
    ⟨L.base m + c.bytesUsed, h.hbump⟩ fuel

/-! ## Child (non-root) dictionary frames within one block -/

theorem dropWalkKV_exit {L : Layout} {m : Mem K V} {peek r t bd : Nat}
    (hle : ¬ bd < peek) (fuel : Nat) :
    dropWalkKV L m (fuel + 1) peek r t bd = some [] := by
  show (if peek > bd then _ else some []) = some []
  rw [if_neg hle]

/-- generate_frame, in-block branch: the header is written sizeof(Header)
bytes past the bump position (the source adds SIZE_HEADER twice), and
buffer_bytes_used advances by padding + sizeof(Header) only. -/
theorem genFrame_eq_inblock {L : Layout} {st : St K V} {c : Cursor}
    {p : Option Nat} {cfp : Nat}
    (hh : readHeader st.mem c.currentFrame = some (p, cfp))
    (hpad : alignOffset cfp L.alignH = 0)
    (hfit : c.bytesUsed + L.sizeH < L.realSize) :
    generateFrame L st c = some (⟨st.mem.write (cfp + L.sizeH)
        (.header (some c.currentFrame) (cfp + L.sizeH + L.sizeH)),
      st.nBlocks⟩, ⟨cfp + L.sizeH, c.bytesUsed + L.sizeH⟩) := by
  unfold generateFrame
  rw [hh]
  simp only [hpad, Nat.add_zero, Nat.zero_add]
  rw [if_pos hfit]

/-- Invariant of a child (non-root) dictionary frame that lives entirely
inside block 0, created from a root cursor whose bump offset was pused.
pm is the memory as it was just before the frame was created; trc is the
child frame's push trace. -/
structure ChildKVAt [DecidableEq K] (L : Layout) (pm : Mem K V)
    (pused : Nat) (st : St K V) (cc : Cursor)
    (trc : List (Nat × K × Nat × V)) : Prop where
  hnb : st.nBlocks = 1
  hdvd : L.alignK ∣ pused
  hcf : cc.currentFrame = L.base 0 + pused + L.sizeH
  hbu : cc.bytesUsed = pused + L.sizeH + trc.length * (L.sizeK + L.sizeV)
  hbound : pused + 2 * L.sizeH + trc.length * (L.sizeK + L.sizeV) ≤
    L.realSize
  hbump : readHeader st.mem cc.currentFrame = some (some (L.base 0),
    L.base 0 + pused + 2 * L.sizeH + trc.length * (L.sizeK + L.sizeV))
  hroot : readHeader st.mem (L.base 0) = readHeader pm (L.base 0)
  hagree : AgreeFor L pm st.mem (L.base 0 + pused) 0
  hdropc : ∀ m' : Mem K V,
      AgreeFor L st.mem m'
        (L.base 0 + pused + 2 * L.sizeH +
          trc.length * (L.sizeK + L.sizeV)) 0 →
      ∀ tA fuel, dropWalkKV L m' (fuel + (trc.length + 1))
        (L.base 0 + pused + 2 * L.sizeH + trc.length * (L.sizeK + L.sizeV))
        cc.bytesUsed tA (cc.currentFrame + L.sizeH) = some (dropEvsKV trc)
  hfindc : ∀ (k : K) (m' : Mem K V),
      AgreeFor L st.mem m'
        (L.base 0 + pused + 2 * L.sizeH +
          trc.length * (L.sizeK + L.sizeV)) 0 →
      ∀ tA fuel, getFrameWalk L m' k (fuel + (trc.length + 1))
        (L.base 0 + pused + 2 * L.sizeH + trc.length * (L.sizeK + L.sizeV))
        cc.bytesUsed tA (cc.currentFrame + L.sizeH) = some (findSpec k trc)
  hstackc : ∀ (k : K) (a : Nat), findSpec k trc = some a →
      ∀ m' : Mem K V,
      AgreeFor L st.mem m'
        (L.base 0 + pused + 2 * L.sizeH +
          trc.length * (L.sizeK + L.sizeV)) 0 →
      ∀ tA fuel, getStackWalk L m' k (fuel + (trc.length + 1))
        (L.base 0 + pused + 2 * L.sizeH + trc.length * (L.sizeK + L.sizeV))
        cc.bytesUsed tA (cc.currentFrame + L.sizeH) cc.currentFrame
        false true = some (some a)

/-- generate_frame on a single-block root cursor succeeds in-block and
establishes the child-frame invariant with an empty trace. -/
theorem childKVAt_base [DecidableEq K] {L : Layout} (hW : WFkv L)
    {st : St K V} {c : Cursor} {tr : List (Nat × K × Nat × V)} {j : Nat}
    (h : RootKVAt L st c tr 0 j)
    (hroom : c.bytesUsed + 2 * L.sizeH ≤ L.realSize) :
    generateFrame L st ⟨c.currentFrame, c.bytesUsed⟩ = some
      (⟨st.mem.write (L.base 0 + c.bytesUsed + L.sizeH)
        (.header (some (L.base 0))
          (L.base 0 + c.bytesUsed + L.sizeH + L.sizeH)), st.nBlocks⟩,
        ⟨L.base 0 + c.bytesUsed + L.sizeH, c.bytesUsed + L.sizeH⟩) ∧
    ChildKVAt L st.mem c.bytesUsed
      ⟨st.mem.write (L.base 0 + c.bytesUsed + L.sizeH)
        (.header (some (L.base 0))
          (L.base 0 + c.bytesUsed + L.sizeH + L.sizeH)), st.nBlocks⟩
      ⟨L.base 0 + c.bytesUsed + L.sizeH, c.bytesUsed + L.sizeH⟩ [] := by
  have hsH := hW.sizeHPos
  have hrs : 0 < L.realSize := by have := hW.capacity; omega
  have hh : readHeader st.mem c.currentFrame =
      some (none, L.base 0 + c.bytesUsed) := by
    rw [h.hcf]; exact h.hbump
  have hdvdUsed : L.alignK ∣ c.bytesUsed := by
    rw [h.hused]
    refine Nat.dvd_add ?_
      (Dvd.dvd.mul_left (Nat.dvd_add hW.dvdSizeK hW.dvdSizeV) j)
    simp [hW.dvdSizeH]
  have hpad : alignOffset (L.base 0 + c.bytesUsed) L.alignH = 0 := by
    rw [hW.alignHEq]
    exact alignOffset_of_dvd (Nat.dvd_add (dvd_base hW.dvdB 0) hdvdUsed)
  have heq := genFrame_eq_inblock hh hpad (by omega)
  rw [h.hcf] at heq
  refine ⟨heq, ?_⟩
  have hne0 : L.base 0 + c.bytesUsed + L.sizeH ≠ L.base 0 := by omega
  have hneT : L.base 0 + c.bytesUsed + L.sizeH ≠ L.base 0 + L.realSize := by
    omega
  refine ⟨h.hnb, hdvdUsed, rfl, by simp, by simpa using hroom,
    ?_, ?_, ?_, ?_, ?_, ?_⟩
  · show readHeader _ _ = _
    rw [readHeader_write, if_pos rfl]
    have he : L.base 0 + c.bytesUsed + L.sizeH + L.sizeH =
        L.base 0 + c.bytesUsed + 2 * L.sizeH +
          List.length ([] : List (Nat × K × Nat × V)) *
            (L.sizeK + L.sizeV) := by
      simp; omega
    rw [he]
  · show readHeader _ (L.base 0) = _
    rw [readHeader_write, if_neg hne0]
  · exact agree_write_above (by omega)
      (fun i hi => by interval_cases i; exact hneT)
  · intro m' hag tA fuel
    exact dropWalkKV_exit (by simp; omega) fuel
  · intro k m' hag tA fuel
    exact getFrameWalk_exit (by simp; omega) fuel
  · intro k a hfs
    simp [findSpec] at hfs

/-- An in-block key-value push preserves the child-frame invariant. -/
theorem ChildKVAt.pushPresChild [DecidableEq K] {L : Layout} (hW : WFkv L)
    {pm : Mem K V} {pused : Nat} {st : St K V} {cc : Cursor}
    {trc : List (Nat × K × Nat × V)}
    (ch : ChildKVAt L pm pused st cc trc)
    (hroom : pused + 2 * L.sizeH + (trc.length + 1) * (L.sizeK + L.sizeV) ≤
      L.realSize) (k0 : K) (v : V) :
    ∃ st' cc', pushKV L st cc k0 v = some (st', cc',
        L.base 0 + pused + 2 * L.sizeH + trc.length * (L.sizeK + L.sizeV),
        L.base 0 + pused + 2 * L.sizeH + trc.length * (L.sizeK + L.sizeV) +
          L.sizeK) ∧
      ChildKVAt L pm pused st' cc' (trc ++
        [(L.base 0 + pused + 2 * L.sizeH + trc.length * (L.sizeK + L.sizeV),
          k0,
          L.base 0 + pused + 2 * L.sizeH +
            trc.length * (L.sizeK + L.sizeV) + L.sizeK, v)]) := by
  have hsH := hW.sizeHPos
  have hsK := hW.sizeKPos
  have hsV := hW.sizeVPos
  have hcf := ch.hcf
  have hbu := ch.hbu
  have hbound := ch.hbound
  have hmul : (trc.length + 1) * (L.sizeK + L.sizeV) =
      trc.length * (L.sizeK + L.sizeV) + (L.sizeK + L.sizeV) := by ring
  have hv0 : rustScanPad L.sizeK L.alignV = 0 :=
    rustScanPad_eq_zero (hW.alignVEq ▸ hW.dvdSizeK)
  have hk0pad : rustScanPad L.sizeV L.alignK = 0 :=
    rustScanPad_eq_zero hW.dvdSizeV
  have hdvdBump : L.alignK ∣ (L.base 0 + pused + 2 * L.sizeH +
      trc.length * (L.sizeK + L.sizeV)) :=
    Nat.dvd_add (Nat.dvd_add (Nat.dvd_add (dvd_base hW.dvdB 0)
      ch.hdvd) (Dvd.dvd.mul_left hW.dvdSizeH 2))
      (Dvd.dvd.mul_left (Nat.dvd_add hW.dvdSizeK hW.dvdSizeV) _)
  have hkpad : alignOffset (L.base 0 + pused + 2 * L.sizeH +
      trc.length * (L.sizeK + L.sizeV)) L.alignK = 0 :=
    alignOffset_of_dvd hdvdBump
  have hvpad : alignOffset (L.base 0 + pused + 2 * L.sizeH +
      trc.length * (L.sizeK + L.sizeV) + L.sizeK) L.alignV = 0 := by
    rw [hW.alignVEq]
    exact alignOffset_of_dvd (Nat.dvd_add hdvdBump hW.dvdSizeK)
  have hfit : cc.bytesUsed + L.sizeK + L.sizeV < L.realSize := by
    rw [ch.hbu]; omega
  have heq := pushKV_eq_inblock k0 v ch.hbump hkpad hvpad hfit
  refine ⟨_, _, heq, ?_⟩
  have hstep : AgreeFor L st.mem (((st.mem.write
      (L.base 0 + pused + 2 * L.sizeH + trc.length * (L.sizeK + L.sizeV))
      (.key k0)).write
      (L.base 0 + pused + 2 * L.sizeH + trc.length * (L.sizeK + L.sizeV) +
        L.sizeK) (.val v)).write cc.currentFrame
      (.header (some (L.base 0))
        (L.base 0 + pused + 2 * L.sizeH +
          trc.length * (L.sizeK + L.sizeV) + (L.sizeK + L.sizeV))))
      (L.base 0 + pused + 2 * L.sizeH + trc.length * (L.sizeK + L.sizeV))
      0 := by
    refine AgreeFor.trans (AgreeFor.trans
      (agree_write_above le_rfl (fun i hi => by interval_cases i; omega))
      (agree_write_above (by omega)
        (fun i hi => by interval_cases i; omega)) le_rfl le_rfl)
      (agree_write_header (some (L.base 0),
        L.base 0 + pused + 2 * L.sizeH +
          trc.length * (L.sizeK + L.sizeV)) ?_) le_rfl le_rfl
    rw [readHeader_write, if_neg (by omega), readHeader_write,
      if_neg (by omega)]
    exact ch.hbump
  have hkeyRead : ∀ m' : Mem K V,
      AgreeFor L (((st.mem.write
        (L.base 0 + pused + 2 * L.sizeH + trc.length * (L.sizeK + L.sizeV))
        (.key k0)).write
        (L.base 0 + pused + 2 * L.sizeH + trc.length * (L.sizeK + L.sizeV) +
          L.sizeK) (.val v)).write cc.currentFrame
        (.header (some (L.base 0))
          (L.base 0 + pused + 2 * L.sizeH +
            trc.length * (L.sizeK + L.sizeV) + (L.sizeK + L.sizeV)))) m'
        (L.base 0 + pused + 2 * L.sizeH +
          trc.length * (L.sizeK + L.sizeV) + (L.sizeK + L.sizeV)) 0 →
      readKeyAt m' (L.base 0 + pused + 2 * L.sizeH +
        trc.length * (L.sizeK + L.sizeV)) = some k0 ∧
      readValAt m' (L.base 0 + pused + 2 * L.sizeH +
        trc.length * (L.sizeK + L.sizeV) + L.sizeK) = some v := by
    intro m' hag
    constructor
    · rw [(hag.1 (L.base 0 + pused + 2 * L.sizeH +
        trc.length * (L.sizeK + L.sizeV)) (by omega)).1]
      rw [readKeyAt_write, if_neg (by omega), readKeyAt_write,
        if_neg (by omega), readKeyAt_write, if_pos rfl]
    · rw [(hag.1 (L.base 0 + pused + 2 * L.sizeH +
        trc.length * (L.sizeK + L.sizeV) + L.sizeK) (by omega)).2]
      rw [readValAt_write, if_neg (by omega), readValAt_write, if_pos rfl]
  refine ⟨ch.hnb, ch.hdvd, ch.hcf, ?_, ?_, ?_, ?_, ?_, ?_, ?_, ?_⟩
  · show cc.bytesUsed + (L.sizeK + L.sizeV) = _
    simp only [List.length_append, List.length_cons, List.length_nil,
        Nat.zero_add]
    rw [ch.hbu]; ring
  · simp only [List.length_append, List.length_cons, List.length_nil,
        Nat.zero_add]
    omega
  · show readHeader _ cc.currentFrame = _
    rw [readHeader_write, if_pos rfl]
    have he : L.base 0 + pused + 2 * L.sizeH +
        trc.length * (L.sizeK + L.sizeV) + (L.sizeK + L.sizeV) =
        L.base 0 + pused + 2 * L.sizeH +
          (trc ++ [(L.base 0 + pused + 2 * L.sizeH +
            trc.length * (L.sizeK + L.sizeV), k0,
            L.base 0 + pused + 2 * L.sizeH +
              trc.length * (L.sizeK + L.sizeV) + L.sizeK, v)]).length *
            (L.sizeK + L.sizeV) := by
      simp only [List.length_append, List.length_cons, List.length_nil,
        Nat.zero_add]
      ring
    rw [he]
  · show readHeader _ (L.base 0) = _
    rw [readHeader_write, if_neg (by omega), readHeader_write,
      if_neg (by omega), readHeader_write, if_neg (by omega)]
    exact ch.hroot
  · exact AgreeFor.trans ch.hagree hstep (by omega) le_rfl
  · intro m' hag tA fuel
    have hag2 : AgreeFor L (((st.mem.write
        (L.base 0 + pused + 2 * L.sizeH + trc.length * (L.sizeK + L.sizeV))
        (.key k0)).write
        (L.base 0 + pused + 2 * L.sizeH + trc.length * (L.sizeK + L.sizeV) +
          L.sizeK) (.val v)).write cc.currentFrame
        (.header (some (L.base 0))
          (L.base 0 + pused + 2 * L.sizeH +
            trc.length * (L.sizeK + L.sizeV) + (L.sizeK + L.sizeV)))) m'
        (L.base 0 + pused + 2 * L.sizeH +
          trc.length * (L.sizeK + L.sizeV) + (L.sizeK + L.sizeV)) 0 := by
      refine AgreeFor.trans (AgreeFor.refl L _
        (L.base 0 + pused + 2 * L.sizeH +
          trc.length * (L.sizeK + L.sizeV) + (L.sizeK + L.sizeV)) 0) hag
        ?_ le_rfl
      simp only [List.length_append, List.length_cons, List.length_nil,
        Nat.zero_add]
      omega
    have hagB : AgreeFor L st.mem m'
        (L.base 0 + pused + 2 * L.sizeH +
          trc.length * (L.sizeK + L.sizeV)) 0 :=
      AgreeFor.trans hstep hag2 (by omega) le_rfl
    show dropWalkKV L m' _ _ (cc.bytesUsed + (L.sizeK + L.sizeV)) tA
      (cc.currentFrame + L.sizeH) = _
    have hfc : fuel + ((trc ++ [(L.base 0 + pused + 2 * L.sizeH +
        trc.length * (L.sizeK + L.sizeV), k0,
        L.base 0 + pused + 2 * L.sizeH +
          trc.length * (L.sizeK + L.sizeV) + L.sizeK, v)]).length + 1) =
        (fuel + (trc.length + 1)) + 1 := by
      simp only [List.length_append, List.length_cons, List.length_nil,
        Nat.zero_add]
      omega
    rw [hfc]
    have hpe : L.base 0 + pused + 2 * L.sizeH +
        (trc ++ [(L.base 0 + pused + 2 * L.sizeH +
          trc.length * (L.sizeK + L.sizeV), k0,
          L.base 0 + pused + 2 * L.sizeH +
            trc.length * (L.sizeK + L.sizeV) + L.sizeK, v)]).length *
          (L.sizeK + L.sizeV) =
        (L.base 0 + pused + 2 * L.sizeH +
          trc.length * (L.sizeK + L.sizeV)) + (L.sizeK + L.sizeV) := by
      simp only [List.length_append, List.length_cons, List.length_nil,
        Nat.zero_add]
      ring
    rw [hpe]
    obtain ⟨hkr, hvr⟩ := hkeyRead m' hag2
    have he : (L.base 0 + pused + 2 * L.sizeH +
        trc.length * (L.sizeK + L.sizeV)) + (L.sizeK + L.sizeV) -
        (L.sizeK + L.sizeV) =
        L.base 0 + pused + 2 * L.sizeH +
          trc.length * (L.sizeK + L.sizeV) := by omega
    have hkr' : readKeyAt m' ((L.base 0 + pused + 2 * L.sizeH +
        trc.length * (L.sizeK + L.sizeV)) + (L.sizeK + L.sizeV) -
        (L.sizeK + L.sizeV)) = some k0 := by rw [he]; exact hkr
    have hvr' : readValAt m' ((L.base 0 + pused + 2 * L.sizeH +
        trc.length * (L.sizeK + L.sizeV)) + (L.sizeK + L.sizeV) -
        (L.sizeK + L.sizeV) + L.sizeK) = some v := by rw [he]; exact hvr
    rw [dropWalkKV_step hv0 hk0pad (by omega) (by omega) (by omega)
      (by omega) hkr' hvr']
    have he2 : cc.bytesUsed + (L.sizeK + L.sizeV) - (L.sizeK + L.sizeV) =
        cc.bytesUsed := by omega
    rw [he, he2, ch.hdropc m' hagB tA fuel]
    unfold dropEvsKV
    simp
  · intro k m' hag tA fuel
    have hag2 : AgreeFor L (((st.mem.write
        (L.base 0 + pused + 2 * L.sizeH + trc.length * (L.sizeK + L.sizeV))
        (.key k0)).write
        (L.base 0 + pused + 2 * L.sizeH + trc.length * (L.sizeK + L.sizeV) +
          L.sizeK) (.val v)).write cc.currentFrame
        (.header (some (L.base 0))
          (L.base 0 + pused + 2 * L.sizeH +
            trc.length * (L.sizeK + L.sizeV) + (L.sizeK + L.sizeV)))) m'
        (L.base 0 + pused + 2 * L.sizeH +
          trc.length * (L.sizeK + L.sizeV) + (L.sizeK + L.sizeV)) 0 := by
      refine AgreeFor.trans (AgreeFor.refl L _
        (L.base 0 + pused + 2 * L.sizeH +
          trc.length * (L.sizeK + L.sizeV) + (L.sizeK + L.sizeV)) 0) hag
        ?_ le_rfl
      simp only [List.length_append, List.length_cons, List.length_nil,
        Nat.zero_add]
      omega
    have hagB : AgreeFor L st.mem m'
        (L.base 0 + pused + 2 * L.sizeH +
          trc.length * (L.sizeK + L.sizeV)) 0 :=
      AgreeFor.trans hstep hag2 (by omega) le_rfl
    show getFrameWalk L m' k _ _ (cc.bytesUsed + (L.sizeK + L.sizeV)) tA
      (cc.currentFrame + L.sizeH) = _
    have hfc : fuel + ((trc ++ [(L.base 0 + pused + 2 * L.sizeH +
        trc.length * (L.sizeK + L.sizeV), k0,
        L.base 0 + pused + 2 * L.sizeH +
          trc.length * (L.sizeK + L.sizeV) + L.sizeK, v)]).length + 1) =
        (fuel + (trc.length + 1)) + 1 := by
      simp only [List.length_append, List.length_cons, List.length_nil,
        Nat.zero_add]
      omega
    rw [hfc]
    have hpe : L.base 0 + pused + 2 * L.sizeH +
        (trc ++ [(L.base 0 + pused + 2 * L.sizeH +
          trc.length * (L.sizeK + L.sizeV), k0,
          L.base 0 + pused + 2 * L.sizeH +
            trc.length * (L.sizeK + L.sizeV) + L.sizeK, v)]).length *
          (L.sizeK + L.sizeV) =
        (L.base 0 + pused + 2 * L.sizeH +
          trc.length * (L.sizeK + L.sizeV)) + (L.sizeK + L.sizeV) := by
      simp only [List.length_append, List.length_cons, List.length_nil,
        Nat.zero_add]
      ring
    rw [hpe]
    obtain ⟨hkr, hvr⟩ := hkeyRead m' hag2
    have he : (L.base 0 + pused + 2 * L.sizeH +
        trc.length * (L.sizeK + L.sizeV)) + (L.sizeK + L.sizeV) -
        (L.sizeK + L.sizeV) =
        L.base 0 + pused + 2 * L.sizeH +
          trc.length * (L.sizeK + L.sizeV) := by omega
    have hkr' : readKeyAt m' ((L.base 0 + pused + 2 * L.sizeH +
        trc.length * (L.sizeK + L.sizeV)) + (L.sizeK + L.sizeV) -
        (L.sizeK + L.sizeV)) = some k0 := by rw [he]; exact hkr
    rw [getFrameWalk_step hv0 hk0pad (by omega) (by omega) (by omega)
      (by omega) hkr']
    rw [findSpec_append]
    by_cases hkk : k = k0
    · rw [if_pos hkk, if_pos hkk, he]
    · rw [if_neg hkk, if_neg hkk]
      have he2 : cc.bytesUsed + (L.sizeK + L.sizeV) - (L.sizeK + L.sizeV) =
          cc.bytesUsed := by omega
      rw [he, he2, ch.hfindc k m' hagB tA fuel]
  · intro k a hfs m' hag tA fuel
    rw [findSpec_append] at hfs
    have hag2 : AgreeFor L (((st.mem.write
        (L.base 0 + pused + 2 * L.sizeH + trc.length * (L.sizeK + L.sizeV))
        (.key k0)).write
        (L.base 0 + pused + 2 * L.sizeH + trc.length * (L.sizeK + L.sizeV) +
          L.sizeK) (.val v)).write cc.currentFrame
        (.header (some (L.base 0))
          (L.base 0 + pused + 2 * L.sizeH +
            trc.length * (L.sizeK + L.sizeV) + (L.sizeK + L.sizeV)))) m'
        (L.base 0 + pused + 2 * L.sizeH +
          trc.length * (L.sizeK + L.sizeV) + (L.sizeK + L.sizeV)) 0 := by
      refine AgreeFor.trans (AgreeFor.refl L _
        (L.base 0 + pused + 2 * L.sizeH +
          trc.length * (L.sizeK + L.sizeV) + (L.sizeK + L.sizeV)) 0) hag
        ?_ le_rfl
      simp only [List.length_append, List.length_cons, List.length_nil,
        Nat.zero_add]
      omega
    have hagB : AgreeFor L st.mem m'
        (L.base 0 + pused + 2 * L.sizeH +
          trc.length * (L.sizeK + L.sizeV)) 0 :=
      AgreeFor.trans hstep hag2 (by omega) le_rfl
    show getStackWalk L m' k _ _ (cc.bytesUsed + (L.sizeK + L.sizeV)) tA
      (cc.currentFrame + L.sizeH) cc.currentFrame false true = _
    have hfc : fuel + ((trc ++ [(L.base 0 + pused + 2 * L.sizeH +
        trc.length * (L.sizeK + L.sizeV), k0,
        L.base 0 + pused + 2 * L.sizeH +
          trc.length * (L.sizeK + L.sizeV) + L.sizeK, v)]).length + 1) =
        (fuel + (trc.length + 1)) + 1 := by
      simp only [List.length_append, List.length_cons, List.length_nil,
        Nat.zero_add]
      omega
    rw [hfc]
    have hpe : L.base 0 + pused + 2 * L.sizeH +
        (trc ++ [(L.base 0 + pused + 2 * L.sizeH +
          trc.length * (L.sizeK + L.sizeV), k0,
          L.base 0 + pused + 2 * L.sizeH +
            trc.length * (L.sizeK + L.sizeV) + L.sizeK, v)]).length *
          (L.sizeK + L.sizeV) =
        (L.base 0 + pused + 2 * L.sizeH +
          trc.length * (L.sizeK + L.sizeV)) + (L.sizeK + L.sizeV) := by
      simp only [List.length_append, List.length_cons, List.length_nil,
        Nat.zero_add]
      ring
    rw [hpe]
    obtain ⟨hkr, hvr⟩ := hkeyRead m' hag2
    have he : (L.base 0 + pused + 2 * L.sizeH +
        trc.length * (L.sizeK + L.sizeV)) + (L.sizeK + L.sizeV) -
        (L.sizeK + L.sizeV) =
        L.base 0 + pused + 2 * L.sizeH +
          trc.length * (L.sizeK + L.sizeV) := by omega
    have hkr' : readKeyAt m' ((L.base 0 + pused + 2 * L.sizeH +
        trc.length * (L.sizeK + L.sizeV)) + (L.sizeK + L.sizeV) -
        (L.sizeK + L.sizeV)) = some k0 := by rw [he]; exact hkr
    rw [getStackWalk_step hv0 hk0pad (by omega) (by omega) (by omega)
      (by omega) hkr']
    by_cases hkk : k = k0
    · rw [if_pos hkk] at hfs
      rw [if_pos hkk, he, hfs]
    · rw [if_neg hkk] at hfs
      have he2 : cc.bytesUsed + (L.sizeK + L.sizeV) - (L.sizeK + L.sizeV) =
          cc.bytesUsed := by omega
      rw [if_neg hkk, he, he2, ch.hstackc k a hfs m' hagB tA fuel]

/-- Any sequence of in-budget pushes preserves the child-frame
invariant, extending its trace. -/
theorem pushManyKV_child [DecidableEq K] {L : Layout} (hW : WFkv L)
    {pm : Mem K V} {pused : Nat} :
    ∀ (ps : List (K × V)) (st : St K V) (cc : Cursor)
      (trc : List (Nat × K × Nat × V)), ChildKVAt L pm pused st cc trc →
      pused + 2 * L.sizeH +
        (trc.length + ps.length) * (L.sizeK + L.sizeV) ≤ L.realSize →
      ∃ st' cc' tr2, pushManyKV L st cc ps = some (st', cc', tr2) ∧
        ChildKVAt L pm pused st' cc' (trc ++ tr2) ∧
        tr2.map (fun e => (e.2.1, e.2.2.2)) = ps := by
  intro ps
  induction ps with
  | nil =>
    intro st cc trc ch hroom
    exact ⟨st, cc, [], rfl, by simpa using ch, rfl⟩
  | cons p ps ih =>
    intro st cc trc ch hroom
    have hroom1 : pused + 2 * L.sizeH +
        (trc.length + 1) * (L.sizeK + L.sizeV) ≤ L.realSize := by
      have hle : (trc.length + 1) * (L.sizeK + L.sizeV) ≤
          (trc.length + (p :: ps).length) * (L.sizeK + L.sizeV) :=
        Nat.mul_le_mul_right _ (by simp only [List.length_cons]; omega)
      omega
    obtain ⟨st1, cc1, hpush, ch1⟩ := ch.pushPresChild hW hroom1 p.1 p.2
    have hfeq : ((trc ++ [(L.base 0 + pused + 2 * L.sizeH +
        trc.length * (L.sizeK + L.sizeV), p.1,
        L.base 0 + pused + 2 * L.sizeH +
          trc.length * (L.sizeK + L.sizeV) + L.sizeK, p.2)]).length +
        ps.length) = trc.length + (p :: ps).length := by
      simp only [List.length_append, List.length_cons, List.length_nil,
        Nat.zero_add]
      omega
    obtain ⟨st2, cc2, tr2, hmany, ch2, hmap⟩ := ih st1 cc1 _ ch1
      (by rw [hfeq]; exact hroom)
    refine ⟨st2, cc2, (L.base 0 + pused + 2 * L.sizeH +
      trc.length * (L.sizeK + L.sizeV), p.1,
      L.base 0 + pused + 2 * L.sizeH +
        trc.length * (L.sizeK + L.sizeV) + L.sizeK, p.2) :: tr2,
      ?_, ?_, ?_⟩
    · show pushManyKV L st cc ((p.1, p.2) :: ps) = _
      unfold pushManyKV
      rw [hpush]
      show (match pushManyKV L st1 cc1 ps with
        | none => none
        | some (st'', c'', tr) =>
          some (st'', c'', (L.base 0 + pused + 2 * L.sizeH +
            trc.length * (L.sizeK + L.sizeV), p.1,
            L.base 0 + pused + 2 * L.sizeH +
              trc.length * (L.sizeK + L.sizeV) + L.sizeK, p.2) :: tr)) = _
      rw [hmany]
    · simpa using ch2
    · simp only [List.map_cons, hmap]

/-- new_scope's frame creation and body pushes on a single-block root
state, all within the block's usable capacity. -/
theorem childScope [DecidableEq K] {L : Layout} (hW : WFkv L)
    {st : St K V} {c : Cursor} {tr : List (Nat × K × Nat × V)} {j : Nat}
    (h : RootKVAt L st c tr 0 j) (ps : List (K × V))
    (hroom : c.bytesUsed + 2 * L.sizeH +
      ps.length * (L.sizeK + L.sizeV) ≤ L.realSize) :
    ∃ st2 cc2 tr2,
      generateFrame L st ⟨c.currentFrame, c.bytesUsed⟩ =
        some (⟨st.mem.write (L.base 0 + c.bytesUsed + L.sizeH)
          (.header (some (L.base 0))
            (L.base 0 + c.bytesUsed + L.sizeH + L.sizeH)), st.nBlocks⟩,
          ⟨L.base 0 + c.bytesUsed + L.sizeH, c.bytesUsed + L.sizeH⟩) ∧
      pushManyKV L ⟨st.mem.write (L.base 0 + c.bytesUsed + L.sizeH)
          (.header (some (L.base 0))
            (L.base 0 + c.bytesUsed + L.sizeH + L.sizeH)), st.nBlocks⟩
        ⟨L.base 0 + c.bytesUsed + L.sizeH, c.bytesUsed + L.sizeH⟩ ps =
        some (st2, cc2, tr2) ∧
      tr2.map (fun e => (e.2.1, e.2.2.2)) = ps ∧
      ChildKVAt L st.mem c.bytesUsed st2 cc2 tr2 := by
  have hroom0 : c.bytesUsed + 2 * L.sizeH ≤ L.realSize := by omega
  obtain ⟨hgen, ch0⟩ := childKVAt_base hW h hroom0
  obtain ⟨st2, cc2, tr2, hmany, ch2, hmap⟩ :=
    pushManyKV_child hW ps _ _ [] ch0 (by simpa using hroom)
  exact ⟨st2, cc2, tr2, hgen, hmany, hmap, by simpa using ch2⟩

/-- get_in_frame on a child cursor sees exactly the child frame's own
entries, latest first. -/
theorem getInFrame_of_child [DecidableEq K] {L : Layout} (hW : WFkv L)
    {pm : Mem K V} {pused : Nat} {st : St K V} {cc : Cursor}
    {trc : List (Nat × K × Nat × V)}
    (ch : ChildKVAt L pm pused st cc trc) (k : K) :
    ∀ fuel, getInFrame L (fuel + (trc.length + 1)) st cc k =
      some (findSpec k trc) := by
  intro fuel
  have hb : alignOffset (cc.currentFrame + L.sizeH) L.alignK = 0 := by
    rw [ch.hcf]
    exact alignOffset_of_dvd (Nat.dvd_add (Nat.dvd_add (Nat.dvd_add
      (dvd_base hW.dvdB 0) ch.hdvd) hW.dvdSizeH) hW.dvdSizeH)
  unfold getInFrame
  rw [ch.hbump]
  simp only [hb, Nat.add_zero]
  exact ch.hfindc k st.mem (AgreeFor.refl L st.mem _ _) _ fuel

/-- get_in_stack on a child cursor finds any key the child frame itself
holds, at the child's own value slot. -/
theorem getInStack_of_child [DecidableEq K] {L : Layout} (hW : WFkv L)
    {pm : Mem K V} {pused : Nat} {st : St K V} {cc : Cursor}
    {trc : List (Nat × K × Nat × V)}
    (ch : ChildKVAt L pm pused st cc trc) (k : K) {a : Nat}
    (hfs : findSpec k trc = some a) :
    ∀ fuel, getInStack L (fuel + (trc.length + 1)) st cc k =
      some (some a) := by
  intro fuel
  have hb : alignOffset (cc.currentFrame + L.sizeH) L.alignK = 0 := by
    rw [ch.hcf]
    exact alignOffset_of_dvd (Nat.dvd_add (Nat.dvd_add (Nat.dvd_add
      (dvd_base hW.dvdB 0) ch.hdvd) hW.dvdSizeH) hW.dvdSizeH)
  unfold getInStack
  rw [ch.hbump]
  simp only [hb, Nat.add_zero]
  exact ch.hstackc k a hfs st.mem (AgreeFor.refl L st.mem _ _) _ fuel

/-- Dropping a child cursor destructs exactly the child frame's entries,
in reverse push order, and frees no blocks. -/
theorem dropDict_of_child [DecidableEq K] {L : Layout} (hW : WFkv L)
    {pm : Mem K V} {pused : Nat} {st : St K V} {cc : Cursor}
    {trc : List (Nat × K × Nat × V)}
    (ch : ChildKVAt L pm pused st cc trc) :
    ∀ fuel, dropDict L (fuel + (trc.length + 1)) st cc =
      some (dropEvsKV trc, []) := by
  intro fuel
  have hb : alignOffset (cc.currentFrame + L.sizeH) L.alignK = 0 := by
    rw [ch.hcf]
    exact alignOffset_of_dvd (Nat.dvd_add (Nat.dvd_add (Nat.dvd_add
      (dvd_base hW.dvdB 0) ch.hdvd) hW.dvdSizeH) hW.dvdSizeH)
  unfold dropDict
  rw [ch.hbump]
  simp only [hb, Nat.add_zero]
  rw [ch.hdropc st.mem (AgreeFor.refl L st.mem _ _) _ fuel]

/-- get_in_frame through a root cursor is unchanged by any later writes
that agree below the root bump (e.g. a whole child scope). -/
theorem getInFrame_agree [DecidableEq K] {L : Layout} (hW : WFkv L)
    {st : St K V} {c : Cursor} {tr : List (Nat × K × Nat × V)} {m j : Nat}
    (h : RootKVAt L st c tr m j) (st' : St K V)
    (hag : AgreeFor L st.mem st'.mem (L.base m + c.bytesUsed) m)
    (hhd : readHeader st'.mem c.currentFrame =
      readHeader st.mem c.currentFrame) (k : K) :
    ∀ fuel, getInFrame L (fuel + (tr.length + 1)) st' c k =
      some (findSpec k tr) := by
  intro fuel
  have hh : readHeader st'.mem c.currentFrame =
      some (none, L.base m + c.bytesUsed) := by
    rw [hhd, h.hcf]; exact h.hbump
  have hta : L.base m + c.bytesUsed + (L.realSize - c.bytesUsed) =
      L.base m + L.realSize := by have := h.husedLt; omega
  have hb : alignOffset (c.currentFrame + L.sizeH) L.alignK = 0 := by
    rw [h.hcf]
    exact alignOffset_of_dvd (Nat.dvd_add (dvd_base hW.dvdB 0) hW.dvdSizeH)
  unfold getInFrame
  rw [hh]
  simp only [hb, Nat.add_zero, hta]
  rw [show c.currentFrame + L.sizeH = L.base 0 + L.sizeH from by rw [h.hcf]]
  exact h.hfind k st'.mem hag fuel

/-- get_in_stack through a root cursor is likewise unchanged by later
writes that agree below the root bump and keep the root header a root. -/
theorem getInStack_agree [DecidableEq K] {L : Layout} (hW : WFkv L)
    {st : St K V} {c : Cursor} {tr : List (Nat × K × Nat × V)} {m j : Nat}
    (h : RootKVAt L st c tr m j) (st' : St K V)
    (hag : AgreeFor L st.mem st'.mem (L.base m + c.bytesUsed) m)
    (hhd : readHeader st'.mem c.currentFrame =
      readHeader st.mem c.currentFrame) (k : K) :
    ∀ fuel, getInStack L (fuel + (tr.length + 2)) st' c k =
      some (findSpec k tr) := by
  intro fuel
  have hh : readHeader st'.mem c.currentFrame =
      some (none, L.base m + c.bytesUsed) := by
    rw [hhd, h.hcf]; exact h.hbump
  have hta : L.base m + c.bytesUsed + (L.realSize - c.bytesUsed) =
      L.base m + L.realSize := by have := h.husedLt; omega
  have hb : alignOffset (c.currentFrame + L.sizeH) L.alignK = 0 := by
    rw [h.hcf]
    exact alignOffset_of_dvd (Nat.dvd_add (dvd_base hW.dvdB 0) hW.dvdSizeH)
  unfold getInStack
  rw [hh]
  simp only [hb, Nat.add_zero, hta]
  rw [show c.currentFrame + L.sizeH = L.base 0 + L.sizeH from by rw [h.hcf],
    show c.currentFrame = L.base 0 from h.hcf]
  refine h.hstack k st'.mem hag ?_ fuel
  refine ⟨L.base m + c.bytesUsed, ?_⟩
  rw [← h.hcf]
  exact hh

/-! ## Child (non-root) value frames within one block -/

theorem dropWalkV_exit {L : Layout} {m : Mem K V} {peek r t bd : Nat}
    (hle : ¬ bd < peek) (fuel : Nat) :
    dropWalkV L m (fuel + 1) peek r t bd = some [] := by
  show (if peek > bd then _ else some []) = some []
  rw [if_neg hle]

/-- generate_frame, overflow branch with a fresh tail: the new block's
tail records prev_block = the CURRENT FRAME HEADER's address (not the
bump pointer push records, and not in general the block start), the
current tail is linked, the new header is written at the new block's
start, and buffer_bytes_used is left unchanged (stale). -/
theorem genFrame_eq_overflow {L : Layout} {st : St K V} {c : Cursor}
    {p : Option Nat} {cfp : Nat} {tp : Option Nat} {tu : Nat}
    (hh : readHeader st.mem c.currentFrame = some (p, cfp))
    (hpad : alignOffset cfp L.alignH = 0)
    (hfit : ¬ c.bytesUsed + L.sizeH < L.realSize)
    (htail : readTailAll st.mem (cfp + (L.realSize - c.bytesUsed)) =
      some (tp, tu, none)) :
    generateFrame L st c = some (⟨((st.mem.write
        (L.base st.nBlocks + L.realSize)
        (.tail (some c.currentFrame) c.bytesUsed none)).write
        (cfp + (L.realSize - c.bytesUsed))
        (.tail tp tu (some (L.base st.nBlocks)))).write
        (L.base st.nBlocks)
        (.header (some c.currentFrame) (L.base st.nBlocks + L.sizeH)),
      st.nBlocks + 1⟩, ⟨L.base st.nBlocks, c.bytesUsed⟩) := by
  unfold generateFrame
  rw [hh]
  simp only [hpad, Nat.add_zero, Nat.zero_add]
  rw [if_neg hfit, htail]

/-- Invariant of a child (non-root) value frame that lives entirely
inside block 0, created from a root cursor whose bump offset was pused;
pm is the memory as it was just before the frame was created. -/
structure ChildVAt (L : Layout) (pm : Mem K V) (pused : Nat)
    (st : St K V) (cc : Cursor) (trc : List (Nat × V)) : Prop where
  hnb : st.nBlocks = 1
  hdvd : L.alignV ∣ pused
  hcf : cc.currentFrame = L.base 0 + pused + L.sizeH
  hbu : cc.bytesUsed = pused + L.sizeH + trc.length * L.sizeV
  hbound : pused + 2 * L.sizeH + trc.length * L.sizeV ≤ L.realSize
  hbump : readHeader st.mem cc.currentFrame = some (some (L.base 0),
    L.base 0 + pused + 2 * L.sizeH + trc.length * L.sizeV)
  hroot : readHeader st.mem (L.base 0) = readHeader pm (L.base 0)
  hagree : AgreeFor L pm st.mem (L.base 0 + pused) 0
  hdropc : ∀ m' : Mem K V,
      AgreeFor L st.mem m'
        (L.base 0 + pused + 2 * L.sizeH + trc.length * L.sizeV) 0 →
      ∀ tA fuel, dropWalkV L m' (fuel + (trc.length + 1))
        (L.base 0 + pused + 2 * L.sizeH + trc.length * L.sizeV)
        cc.bytesUsed tA (cc.currentFrame + L.sizeH) = some trc.reverse

/-- generate_frame on a single-block value root cursor succeeds
in-block and establishes the child-frame invariant. -/
theorem childVAt_base {L : Layout} (hW : WFv L)
    (halign : L.alignH ∣ L.alignV)
    {st : St K V} {c : Cursor} {tr : List (Nat × V)} {j : Nat}
    (h : RootVAt L st c tr 0 j)
    (hroom : c.bytesUsed + 2 * L.sizeH ≤ L.realSize) :
    generateFrame L st ⟨c.currentFrame, c.bytesUsed⟩ = some
      (⟨st.mem.write (L.base 0 + c.bytesUsed + L.sizeH)
        (.header (some (L.base 0))
          (L.base 0 + c.bytesUsed + L.sizeH + L.sizeH)), st.nBlocks⟩,
        ⟨L.base 0 + c.bytesUsed + L.sizeH, c.bytesUsed + L.sizeH⟩) ∧
    ChildVAt L st.mem c.bytesUsed
      ⟨st.mem.write (L.base 0 + c.bytesUsed + L.sizeH)
        (.header (some (L.base 0))
          (L.base 0 + c.bytesUsed + L.sizeH + L.sizeH)), st.nBlocks⟩
      ⟨L.base 0 + c.bytesUsed + L.sizeH, c.bytesUsed + L.sizeH⟩ [] := by
  have hsH := hW.sizeHPos
  have hrs : 0 < L.realSize := by have := hW.capacity; omega
  have hh : readHeader st.mem c.currentFrame =
      some (none, L.base 0 + c.bytesUsed) := by
    rw [h.hcf]; exact h.hbump
  have hdvdUsed : L.alignV ∣ c.bytesUsed := by
    rw [h.hused]
    refine Nat.dvd_add ?_ (Dvd.dvd.mul_left hW.dvdSizeV j)
    simp [hW.dvdSizeH]
  have hpad : alignOffset (L.base 0 + c.bytesUsed) L.alignH = 0 :=
    alignOffset_of_dvd (dvd_trans halign
      (Nat.dvd_add (dvd_base hW.dvdB 0) hdvdUsed))
  have heq := genFrame_eq_inblock hh hpad (by omega)
  rw [h.hcf] at heq
  refine ⟨heq, ?_⟩
  have hne0 : L.base 0 + c.bytesUsed + L.sizeH ≠ L.base 0 := by omega
  have hneT : L.base 0 + c.bytesUsed + L.sizeH ≠
      L.base 0 + L.realSize := by omega
  refine ⟨h.hnb, hdvdUsed, rfl, by simp, by simpa using hroom,
    ?_, ?_, ?_, ?_⟩
  · show readHeader _ _ = _
    rw [readHeader_write, if_pos rfl]
    have he : L.base 0 + c.bytesUsed + L.sizeH + L.sizeH =
        L.base 0 + c.bytesUsed + 2 * L.sizeH +
          List.length ([] : List (Nat × V)) * L.sizeV := by
      simp; omega
    rw [he]
  · show readHeader _ (L.base 0) = _
    rw [readHeader_write, if_neg hne0]
  · exact agree_write_above (by omega)
      (fun i hi => by interval_cases i; exact hneT)
  · intro m' hag tA fuel
    exact dropWalkV_exit (by simp; omega) fuel

/-- An in-block value push preserves the child-frame invariant. -/
theorem ChildVAt.pushPresVChild {L : Layout} (hW : WFv L)
    {pm : Mem K V} {pused : Nat} {st : St K V} {cc : Cursor}
    {trc : List (Nat × V)} (ch : ChildVAt L pm pused st cc trc)
    (hroom : pused + 2 * L.sizeH + (trc.length + 1) * L.sizeV ≤
      L.realSize) (v : V) :
    ∃ st' cc', pushV L st cc v = some (st', cc',
        L.base 0 + pused + 2 * L.sizeH + trc.length * L.sizeV) ∧
      ChildVAt L pm pused st' cc' (trc ++
        [(L.base 0 + pused + 2 * L.sizeH + trc.length * L.sizeV, v)]) := by
  have hsH := hW.sizeHPos
  have hsV := hW.sizeVPos
  have hcf := ch.hcf
  have hbu := ch.hbu
  have hbound := ch.hbound
  have hmul : (trc.length + 1) * L.sizeV =
      trc.length * L.sizeV + L.sizeV := by ring
  have hdvdBump : L.alignV ∣ (L.base 0 + pused + 2 * L.sizeH +
      trc.length * L.sizeV) :=
    Nat.dvd_add (Nat.dvd_add (Nat.dvd_add (dvd_base hW.dvdB 0)
      ch.hdvd) (Dvd.dvd.mul_left hW.dvdSizeH 2))
      (Dvd.dvd.mul_left hW.dvdSizeV _)
  have hpad : alignOffset (L.base 0 + pused + 2 * L.sizeH +
      trc.length * L.sizeV) L.alignV = 0 :=
    alignOffset_of_dvd hdvdBump
  have hfit : cc.bytesUsed + L.sizeV < L.realSize := by
    rw [ch.hbu]; omega
  have heq := pushV_eq_inblock v ch.hbump hpad hfit
  refine ⟨_, _, heq, ?_⟩
  have hstep : AgreeFor L st.mem ((st.mem.write
      (L.base 0 + pused + 2 * L.sizeH + trc.length * L.sizeV)
      (.val v)).write cc.currentFrame
      (.header (some (L.base 0))
        (L.base 0 + pused + 2 * L.sizeH + trc.length * L.sizeV +
          L.sizeV)))
      (L.base 0 + pused + 2 * L.sizeH + trc.length * L.sizeV) 0 := by
    refine AgreeFor.trans
      (agree_write_above le_rfl (fun i hi => by interval_cases i; omega))
      (agree_write_header (some (L.base 0),
        L.base 0 + pused + 2 * L.sizeH + trc.length * L.sizeV) ?_)
      le_rfl le_rfl
    rw [readHeader_write, if_neg (by omega)]
    exact ch.hbump
  have hvalRead : ∀ m' : Mem K V,
      AgreeFor L ((st.mem.write
        (L.base 0 + pused + 2 * L.sizeH + trc.length * L.sizeV)
        (.val v)).write cc.currentFrame
        (.header (some (L.base 0))
          (L.base 0 + pused + 2 * L.sizeH + trc.length * L.sizeV +
            L.sizeV))) m'
        (L.base 0 + pused + 2 * L.sizeH + trc.length * L.sizeV +
          L.sizeV) 0 →
      readValAt m' (L.base 0 + pused + 2 * L.sizeH +
        trc.length * L.sizeV) = some v := by
    intro m' hag
    rw [(hag.1 (L.base 0 + pused + 2 * L.sizeH + trc.length * L.sizeV)
      (by omega)).2]
    rw [readValAt_write, if_neg (by omega), readValAt_write, if_pos rfl]
  refine ⟨ch.hnb, ch.hdvd, ch.hcf, ?_, ?_, ?_, ?_, ?_, ?_⟩
  · show cc.bytesUsed + L.sizeV = _
    simp only [List.length_append, List.length_cons, List.length_nil,
        Nat.zero_add]
    rw [ch.hbu]; ring
  · simp only [List.length_append, List.length_cons, List.length_nil,
        Nat.zero_add]
    omega
  · show readHeader _ cc.currentFrame = _
    rw [readHeader_write, if_pos rfl]
    have he : L.base 0 + pused + 2 * L.sizeH + trc.length * L.sizeV +
        L.sizeV =
        L.base 0 + pused + 2 * L.sizeH +
          (trc ++ [(L.base 0 + pused + 2 * L.sizeH +
            trc.length * L.sizeV, v)]).length * L.sizeV := by
      simp only [List.length_append, List.length_cons, List.length_nil,
        Nat.zero_add]
      ring
    rw [he]
  · show readHeader _ (L.base 0) = _
    rw [readHeader_write, if_neg (by omega), readHeader_write,
      if_neg (by omega)]
    exact ch.hroot
  · exact AgreeFor.trans ch.hagree hstep (by omega) le_rfl
  · intro m' hag tA fuel
    have hag2 : AgreeFor L ((st.mem.write
        (L.base 0 + pused + 2 * L.sizeH + trc.length * L.sizeV)
        (.val v)).write cc.currentFrame
        (.header (some (L.base 0))
          (L.base 0 + pused + 2 * L.sizeH + trc.length * L.sizeV +
            L.sizeV))) m'
        (L.base 0 + pused + 2 * L.sizeH + trc.length * L.sizeV +
          L.sizeV) 0 := by
      refine AgreeFor.trans (AgreeFor.refl L _
        (L.base 0 + pused + 2 * L.sizeH + trc.length * L.sizeV +
          L.sizeV) 0) hag ?_ le_rfl
      simp only [List.length_append, List.length_cons, List.length_nil,
        Nat.zero_add]
      omega
    have hagB : AgreeFor L st.mem m'
        (L.base 0 + pused + 2 * L.sizeH + trc.length * L.sizeV) 0 :=
      AgreeFor.trans hstep hag2 (by omega) le_rfl
    show dropWalkV L m' _ _ (cc.bytesUsed + L.sizeV) tA
      (cc.currentFrame + L.sizeH) = _
    have hfc : fuel + ((trc ++ [(L.base 0 + pused + 2 * L.sizeH +
        trc.length * L.sizeV, v)]).length + 1) =
        (fuel + (trc.length + 1)) + 1 := by
      simp only [List.length_append, List.length_cons, List.length_nil,
        Nat.zero_add]
      omega
    rw [hfc]
    have hpe : L.base 0 + pused + 2 * L.sizeH +
        (trc ++ [(L.base 0 + pused + 2 * L.sizeH +
          trc.length * L.sizeV, v)]).length * L.sizeV =
        (L.base 0 + pused + 2 * L.sizeH + trc.length * L.sizeV) +
          L.sizeV := by
      simp only [List.length_append, List.length_cons, List.length_nil,
        Nat.zero_add]
      ring
    rw [hpe]
    have hvr := hvalRead m' hag2
    have he : (L.base 0 + pused + 2 * L.sizeH + trc.length * L.sizeV) +
        L.sizeV - L.sizeV =
        L.base 0 + pused + 2 * L.sizeH + trc.length * L.sizeV := by
      omega
    have hvr' : readValAt m' ((L.base 0 + pused + 2 * L.sizeH +
        trc.length * L.sizeV) + L.sizeV - L.sizeV) = some v := by
      rw [he]; exact hvr
    rw [dropWalkV_step (by omega) (by omega) (by omega) (by omega) hvr']
    have he2 : cc.bytesUsed + L.sizeV - L.sizeV = cc.bytesUsed := by
      omega
    rw [he, he2, ch.hdropc m' hagB tA fuel]
    simp

/-- Any sequence of in-budget value pushes preserves the child-frame
invariant, extending its trace. -/
theorem pushManyV_child {L : Layout} (hW : WFv L)
    {pm : Mem K V} {pused : Nat} :
    ∀ (vs : List V) (st : St K V) (cc : Cursor) (trc : List (Nat × V)),
      ChildVAt L pm pused st cc trc →
      pused + 2 * L.sizeH + (trc.length + vs.length) * L.sizeV ≤
        L.realSize →
      ∃ st' cc' tr2, pushManyV L st cc vs = some (st', cc', tr2) ∧
        ChildVAt L pm pused st' cc' (trc ++ tr2) ∧
        tr2.map Prod.snd = vs := by
  intro vs
  induction vs with
  | nil =>
    intro st cc trc ch hroom
    exact ⟨st, cc, [], rfl, by simpa using ch, rfl⟩
  | cons v vs ih =>
    intro st cc trc ch hroom
    have hroom1 : pused + 2 * L.sizeH + (trc.length + 1) * L.sizeV ≤
        L.realSize := by
      have hle : (trc.length + 1) * L.sizeV ≤
          (trc.length + (v :: vs).length) * L.sizeV :=
        Nat.mul_le_mul_right _ (by simp only [List.length_cons]; omega)
      omega
    obtain ⟨st1, cc1, hpush, ch1⟩ := ch.pushPresVChild hW hroom1 v
    have hfeq : ((trc ++ [(L.base 0 + pused + 2 * L.sizeH +
        trc.length * L.sizeV, v)]).length + vs.length) =
        trc.length + (v :: vs).length := by
      simp only [List.length_append, List.length_cons, List.length_nil,
        Nat.zero_add]
      omega
    obtain ⟨st2, cc2, tr2, hmany, ch2, hmap⟩ := ih st1 cc1 _ ch1
      (by rw [hfeq]; exact hroom)
    refine ⟨st2, cc2, (L.base 0 + pused + 2 * L.sizeH +
      trc.length * L.sizeV, v) :: tr2, ?_, ?_, ?_⟩
    · show pushManyV L st cc (v :: vs) = _
      unfold pushManyV
      rw [hpush]
      show (match pushManyV L st1 cc1 vs with
        | none => none
        | some (st'', c'', tr) =>
          some (st'', c'', (L.base 0 + pused + 2 * L.sizeH +
            trc.length * L.sizeV, v) :: tr)) = _
      rw [hmany]
    · simpa using ch2
    · simp only [List.map_cons, hmap]

/-- new_scope's frame creation and body pushes on a single-block value
root state, all within the block's usable capacity. -/
theorem childScopeV {L : Layout} (hW : WFv L)
    (halign : L.alignH ∣ L.alignV)
    {st : St K V} {c : Cursor} {tr : List (Nat × V)} {j : Nat}
    (h : RootVAt L st c tr 0 j) (vs : List V)
    (hroom : c.bytesUsed + 2 * L.sizeH + vs.length * L.sizeV ≤
      L.realSize) :
    ∃ st2 cc2 tr2,
      generateFrame L st ⟨c.currentFrame, c.bytesUsed⟩ =
        some (⟨st.mem.write (L.base 0 + c.bytesUsed + L.sizeH)
          (.header (some (L.base 0))
            (L.base 0 + c.bytesUsed + L.sizeH + L.sizeH)), st.nBlocks⟩,
          ⟨L.base 0 + c.bytesUsed + L.sizeH, c.bytesUsed + L.sizeH⟩) ∧
      pushManyV L ⟨st.mem.write (L.base 0 + c.bytesUsed + L.sizeH)
          (.header (some (L.base 0))
            (L.base 0 + c.bytesUsed + L.sizeH + L.sizeH)), st.nBlocks⟩
        ⟨L.base 0 + c.bytesUsed + L.sizeH, c.bytesUsed + L.sizeH⟩ vs =
        some (st2, cc2, tr2) ∧
      tr2.map Prod.snd = vs ∧
      ChildVAt L st.mem c.bytesUsed st2 cc2 tr2 := by
  have hroom0 : c.bytesUsed + 2 * L.sizeH ≤ L.realSize := by omega
  obtain ⟨hgen, ch0⟩ := childVAt_base hW halign h hroom0
  obtain ⟨st2, cc2, tr2, hmany, ch2, hmap⟩ :=
    pushManyV_child hW vs _ _ [] ch0 (by simpa using hroom)
  exact ⟨st2, cc2, tr2, hgen, hmany, hmap, by simpa using ch2⟩

/-- Dropping a value child cursor destructs exactly the child frame's
entries, in reverse push order, and frees no blocks. -/
theorem dropValue_of_childV {L : Layout} (hW : WFv L)
    {pm : Mem K V} {pused : Nat} {st : St K V} {cc : Cursor}
    {trc : List (Nat × V)} (ch : ChildVAt L pm pused st cc trc) :
    ∀ fuel, dropValue L (fuel + (trc.length + 1)) st cc =
      some (trc.reverse, []) := by
  intro fuel
  have hb : alignOffset (cc.currentFrame + L.sizeH) L.alignV = 0 := by
    rw [ch.hcf]
    exact alignOffset_of_dvd (Nat.dvd_add (Nat.dvd_add (Nat.dvd_add
      (dvd_base hW.dvdB 0) ch.hdvd) hW.dvdSizeH) hW.dvdSizeH)
  unfold dropValue
  rw [ch.hbump]
  simp only [hb, Nat.add_zero]
  rw [ch.hdropc st.mem (AgreeFor.refl L st.mem _ _) _ fuel]

/-! ## Concrete layouts and states used by the claim analyses

Field order: bsize, sizeH, alignH, sizeK, alignK, sizeV, alignV,
sizeTail. sizeH = 16 and sizeTail = 24 match the source's
StackFrameHeader (two pointers) and BlockTail (two pointers + usize) on
a 64-bit host. -/

/-- Value engine, 64-byte blocks, 8-byte values. -/
def Lb : Layout := ⟨64, 16, 8, 0, 1, 8, 8, 24⟩

/-- Value engine, 1024-byte blocks, 8-byte values. -/
def Lv : Layout := ⟨1024, 16, 8, 0, 1, 8, 8, 24⟩

/-- Dictionary engine, 64-byte blocks, 8-byte keys and values
(homogeneous alignment 8). -/
def Lh : Layout := ⟨64, 16, 8, 8, 8, 8, 8, 24⟩

/-- Dictionary engine, 1024-byte blocks, 8-byte keys and values. -/
def Lw : Layout := ⟨1024, 16, 8, 8, 8, 8, 8, 24⟩

/-- Dictionary engine with mixed alignments: 2-byte keys (align 2),
8-byte values (align 8), as for (u16, u64) entries. -/
def Lmix : Layout := ⟨64, 16, 8, 2, 2, 8, 8, 24⟩

/-- Dictionary engine, 104-byte blocks, 16-byte keys (as &str),
8-byte values. -/
def Lsd : Layout := ⟨104, 16, 8, 16, 8, 8, 8, 24⟩

/-- The state after pushing [1, 2] on a fresh Lb value arena (the second
block is then one entry short of full). -/
def c7res : St Unit Nat × Cursor × List (Nat × Nat) :=
  (pushManyV Lb (⟨mkMem Lb, 1⟩ : St Unit Nat) ⟨Lb.base 0, Lb.sizeH⟩
    [1, 2]).getD ⟨⟨[], 0⟩, ⟨0, 0⟩, []⟩

/-- Value arena Lv after pushing [10, 20]. -/
def c1vres : St Nat Nat × Cursor × List (Nat × Nat) :=
  (pushManyV Lv (⟨mkMem Lv, 1⟩ : St Nat Nat) ⟨Lv.base 0, Lv.sizeH⟩
    [10, 20]).getD ⟨⟨[], 0⟩, ⟨0, 0⟩, []⟩

/-- Dictionary arena Lw after pushing [(7, 1)] (single block). -/
def c2res : St Nat Nat × Cursor × List (Nat × Nat × Nat × Nat) :=
  (pushManyKV Lw (⟨mkMem Lw, 1⟩ : St Nat Nat) ⟨Lw.base 0, Lw.sizeH⟩
    [(7, 1)]).getD ⟨⟨[], 0⟩, ⟨0, 0⟩, []⟩

/-- Dictionary arena Lsd: root pushes (1,11) (2,12) (3,13) — the third
crosses into block 2 — then a child frame is created in block 2 and
(4,14) is pushed onto it. The cursor is the child's. -/
def c3state : St Nat Nat × Cursor :=
  ((pushManyKV Lsd (⟨mkMem Lsd, 1⟩ : St Nat Nat) ⟨Lsd.base 0, Lsd.sizeH⟩
      [(1, 11), (2, 12), (3, 13)]).bind
    (fun x => (generateFrame Lsd x.1 ⟨x.2.1.currentFrame,
        x.2.1.bytesUsed⟩).bind
      (fun y => (pushKV Lsd y.1 y.2 4 14).map
        (fun z => (z.1, z.2.1))))).getD ⟨⟨[], 0⟩, ⟨0, 0⟩⟩

/-! ## The claims -/

/-- C5: the spec says new_frame performs the identical header-writing
step as new_scope's frame creation, for both engines. The dictionary
engine's new_frame (source lines 290-299) only clones the cursor fields
and returns: no generate_frame call, no header write, no cursor
advance. The value engine's new_frame does call generate_frame: on a
fresh Lv arena it moves the cloned cursor from (base 0, 16) onto a
newly written header. The two engines therefore do not perform the same
step, and the dictionary cursor returned by new_frame does not own a
frame of its own. -/
theorem C5_new_frame_divergence :
    (∀ (st : St Nat Nat) (c : Cursor),
      newFrameDict Lw st c = (st, ⟨c.currentFrame, c.bytesUsed⟩)) ∧
    (newFrameValue Lv (⟨mkMem Lv, 1⟩ : St Unit Nat)
        ⟨Lv.base 0, Lv.sizeH⟩).map (fun x => x.2) =
      some ⟨1056, 32⟩ ∧
    (⟨Lv.base 0, Lv.sizeH⟩ : Cursor) = ⟨1024, 16⟩ :=
  ⟨fun st c => rfl, by decide, by decide⟩

/-- C10: the claim says current_frame_ptr = block start + buffer_bytes_used
after every frame creation. In-block generate_frame (value engine, fresh
Lv arena): the new bump is 1072 = base + 48 while buffer_bytes_used is
32 — the source adds SIZE_HEADER twice to the pointer but once to the
counter. Overflow generate_frame (Lb after two pushes): the new block's
bump is 144 = base₁ + 16 while buffer_bytes_used stays 32, stale from
the previous block. -/
theorem C10_bookkeeping_bug :
    ((generateFrame Lv (⟨mkMem Lv, 1⟩ : St Unit Nat)
        ⟨Lv.base 0, Lv.sizeH⟩).map
      (fun x => (x.2, readHeader x.1.mem x.2.currentFrame)) =
      some (⟨1056, 32⟩, some (some 1024, 1072)) ∧
      Lv.base 0 + 32 = 1056 ∧ (1072 : Nat) ≠ 1056) ∧
    ((generateFrame Lb c7res.1 c7res.2.1).map
      (fun y => (y.2, readHeader y.1.mem y.2.currentFrame, y.1.nBlocks)) =
      some (⟨128, 32⟩, some (some 64, 144), 2) ∧
      Lb.base 1 + 32 = 160 ∧ (144 : Nat) ≠ 160) :=
  ⟨⟨by decide, by decide, by decide⟩, ⟨by decide, by decide, by decide⟩⟩

/-- C3: the claim describes get_in_stack as continuing the scan into
previous_frame until the root frame is exhausted, returning the most
recent match anywhere on the active chain. On c3state the chain is
root {1, 2, 3} (spanning two blocks) plus a child {4}: the scan finds
the child's own key 4, but for key 1 — live on the chain, its key cell
readable at address 120 — it returns none (the model's image of the
scan underflowing its bytes_remaining counter after jumping frames
across the block boundary) instead of the required handle. -/
theorem C3_get_in_stack_bug :
    ((pushManyKV Lsd (⟨mkMem Lsd, 1⟩ : St Nat Nat)
        ⟨Lsd.base 0, Lsd.sizeH⟩ [(1, 11), (2, 12), (3, 13)]).bind
      (fun x => (generateFrame Lsd x.1 ⟨x.2.1.currentFrame,
          x.2.1.bytesUsed⟩).bind
        (fun y => (pushKV Lsd y.1 y.2 4 14).map
          (fun z => (z.1, z.2.1))))) = some c3state ∧
    readKeyAt c3state.1.mem 120 = some 1 ∧
    getInStack Lsd 1000 c3state.1 c3state.2 4 = some (some 280) ∧
    getInStack Lsd 1000 c3state.1 c3state.2 1 = none :=
  ⟨by decide, by decide, by decide, by decide⟩

/-- C6 counterexample: on Lb after two pushes buffer_bytes_used is 32,
padding is 0, and 32 + 0 + 8 is equal to — hence fits (≤) — the usable
capacity 40 = 64 − 24. The claim then requires in-block placement at
the padded bump 96, but the third push allocates a second block and
writes at 128: the source's test is strict (<), so an exactly-fitting
entry overflows. -/
theorem C6_counterexample :
    (pushManyV Lb (⟨mkMem Lb, 1⟩ : St Unit Nat) ⟨Lb.base 0, Lb.sizeH⟩
        [1, 2]).map (fun x => x.2.1) = some ⟨64, 32⟩ ∧
    32 + alignOffset (Lb.base 0 + 32) Lb.alignV + Lb.sizeV ≤
      Lb.realSize ∧
    (pushManyV Lb (⟨mkMem Lb, 1⟩ : St Unit Nat) ⟨Lb.base 0, Lb.sizeH⟩
        [1, 2, 3]).map (fun x => (x.2.2, x.1.nBlocks)) =
      some ([(80, 1), (88, 2), (128, 3)], 2) :=
  ⟨by decide, by decide, by decide⟩

/-- C7 counterexample: on Lb the third push overflows into block 1, and
the fresh tail's prev_block is 96 — the current bump pointer
(base₀ + 32) — not 64, the current block's identity (its start
address). A walk taking prev_block as a block start would land
mid-block. -/
theorem C7_counterexample :
    (pushManyV Lb (⟨mkMem Lb, 1⟩ : St Unit Nat) ⟨Lb.base 0, Lb.sizeH⟩
        [1, 2, 3]).map
      (fun x => (readTailAll x.1.mem (Lb.base 1 + Lb.realSize),
        readTailNext x.1.mem (Lb.base 0 + Lb.realSize))) =
      some (some (some 96, 32, none), some (some 128)) ∧
    Lb.base 0 = 64 ∧ (96 : Nat) ≠ 64 :=
  ⟨by decide, by decide, by decide⟩

/-- C2 counterexample: on the mixed-alignment layout Lmix the same key
5 is pushed twice on the same (root) frame; both entries are present in
the block — the repeated key is indeed not overwritten — but
get_in_frame returns none rather than a handle to V2: the scan's
precomputed stride (sizeK + pad(sizeK, alignV) + sizeV +
pad(sizeV, alignK), with the paddings from the source's -(-s % a)
remainder formula) does not match the addresses push used, so the scan
misreads the frame. -/
theorem C2_counterexample :
    (pushManyKV Lmix (⟨mkMem Lmix, 1⟩ : St Nat Nat)
        ⟨Lmix.base 0, Lmix.sizeH⟩ [(5, 100), (5, 200)]).map
      (fun x => x.2.2) = some [(80, 5, 88, 100), (128, 5, 136, 200)] ∧
    ((pushManyKV Lmix (⟨mkMem Lmix, 1⟩ : St Nat Nat)
        ⟨Lmix.base 0, Lmix.sizeH⟩ [(5, 100), (5, 200)]).bind
      (fun x => getInFrame Lmix 1000 x.1 x.2.1 5)) = none :=
  ⟨by decide, by decide⟩

/-- C2 (amended): on homogeneous pre-aligned layouts — see the
counterexample for a mixed-alignment layout where the lookup fails —
with the root chain in one block and the shadowing frame created
in-budget: a key pushed again in the child frame is only positionally
shadowed (both entries stay in memory), both lookups on the child
cursor return the child's (latest) value slot, and after the child
frame's teardown the same lookups on the parent return the parent's
value slot again. -/
theorem C2_shadowing [DecidableEq K] {L : Layout} (hW : WFkv L)
    {ps₀ ps₁ : List (K × V)} {st : St K V} {c : Cursor}
    {tr : List (Nat × K × Nat × V)}
    (hbuild : pushManyKV L (⟨mkMem L, 1⟩ : St K V) ⟨L.base 0, L.sizeH⟩
      ps₀ = some (st, c, tr))
    (hsingle : st.nBlocks = 1)
    (hroom : c.bytesUsed + 2 * L.sizeH +
      ps₁.length * (L.sizeK + L.sizeV) ≤ L.realSize)
    (k : K) {a₁ : Nat} (hv1 : findSpec k tr = some a₁) :
    ∃ st1 cc st2 cc2 tr2,
      generateFrame L st ⟨c.currentFrame, c.bytesUsed⟩ = some (st1, cc) ∧
      pushManyKV L st1 cc ps₁ = some (st2, cc2, tr2) ∧
      tr2.map (fun e => (e.2.1, e.2.2.2)) = ps₁ ∧
      (∀ a₂, findSpec k tr2 = some a₂ →
        (∀ fuel, getInFrame L (fuel + (tr2.length + 1)) st2 cc2 k =
          some (some a₂)) ∧
        (∀ fuel, getInStack L (fuel + (tr2.length + 1)) st2 cc2 k =
          some (some a₂))) ∧
      (∀ fuel, dropDict L (fuel + (tr2.length + 1)) st2 cc2 =
        some (dropEvsKV tr2, [])) ∧
      (∀ fuel, getInFrame L (fuel + (tr.length + 1)) st2 c k =
        some (some a₁)) ∧
      (∀ fuel, getInStack L (fuel + (tr.length + 2)) st2 c k =
        some (some a₁)) := by
  obtain ⟨st', c', tr', m, j, hp, hinv, hmap⟩ :=
    pushManyKV_inv hW ps₀ ⟨mkMem L, 1⟩ ⟨L.base 0, L.sizeH⟩ [] 0 0
      (rootKVAt_mkStack L hW)
  have he := hp.symm.trans hbuild
  simp only [Option.some.injEq, Prod.mk.injEq] at he
  obtain ⟨ha, hb, hc⟩ := he
  rw [ha] at hinv
  rw [hb] at hinv
  rw [hc] at hinv
  rw [List.nil_append] at hinv
  have hm0 : m = 0 := by have := hinv.hnb; omega
  rw [hm0] at hinv
  obtain ⟨st2, cc2, tr2, hgen, hmany, hmap2, ch⟩ :=
    childScope hW hinv ps₁ hroom
  have hhd : readHeader st2.mem c.currentFrame =
      readHeader st.mem c.currentFrame := by
    rw [show c.currentFrame = L.base 0 from hinv.hcf]
    exact ch.hroot
  refine ⟨_, _, st2, cc2, tr2, hgen, hmany, hmap2, ?_, ?_, ?_, ?_⟩
  · intro a₂ hfs2
    refine ⟨fun fuel => ?_, fun fuel => getInStack_of_child hW ch k hfs2 fuel⟩
    rw [getInFrame_of_child hW ch k fuel, hfs2]
  · intro fuel
    exact dropDict_of_child hW ch fuel
  · intro fuel
    rw [getInFrame_agree hW hinv st2 ch.hagree hhd k fuel, hv1]
  · intro fuel
    rw [getInStack_agree hW hinv st2 ch.hagree hhd k fuel, hv1]

theorem C2_shadowing_witness :
    (pushManyKV Lw (⟨mkMem Lw, 1⟩ : St Nat Nat) ⟨Lw.base 0, Lw.sizeH⟩
        [(7, 1)] = some (c2res.1, c2res.2.1, c2res.2.2)) ∧
    c2res.1.nBlocks = 1 ∧
    c2res.2.1.bytesUsed + 2 * Lw.sizeH +
      ([(7, 2)] : List (Nat × Nat)).length * (Lw.sizeK + Lw.sizeV) ≤
      Lw.realSize ∧
    findSpec 7 c2res.2.2 = some 1048 ∧
    (∃ st1 cc st2 cc2 tr2,
      generateFrame Lw c2res.1 ⟨c2res.2.1.currentFrame,
        c2res.2.1.bytesUsed⟩ = some (st1, cc) ∧
      pushManyKV Lw st1 cc [(7, 2)] = some (st2, cc2, tr2) ∧
      tr2.map (fun e => (e.2.1, e.2.2.2)) = [(7, 2)] ∧
      (∀ a₂, findSpec 7 tr2 = some a₂ →
        (∀ fuel, getInFrame Lw (fuel + (tr2.length + 1)) st2 cc2 7 =
          some (some a₂)) ∧
        (∀ fuel, getInStack Lw (fuel + (tr2.length + 1)) st2 cc2 7 =
          some (some a₂))) ∧
      (∀ fuel, dropDict Lw (fuel + (tr2.length + 1)) st2 cc2 =
        some (dropEvsKV tr2, [])) ∧
      (∀ fuel, getInFrame Lw (fuel + (c2res.2.2.length + 1)) st2
        c2res.2.1 7 = some (some 1048)) ∧
      (∀ fuel, getInStack Lw (fuel + (c2res.2.2.length + 2)) st2
        c2res.2.1 7 = some (some 1048))) :=
  ⟨by decide, by decide, by decide, by decide,
    C2_shadowing (by constructor <;> decide)
      (show pushManyKV Lw (⟨mkMem Lw, 1⟩ : St Nat Nat)
          ⟨Lw.base 0, Lw.sizeH⟩ [(7, 1)] =
        some (c2res.1, c2res.2.1, c2res.2.2) from by decide)
      (by decide)
      (show c2res.2.1.bytesUsed + 2 * Lw.sizeH +
          ([(7, 2)] : List (Nat × Nat)).length * (Lw.sizeK + Lw.sizeV) ≤
        Lw.realSize from by decide)
      7 (show findSpec 7 c2res.2.2 = some 1048 from by decide)⟩

/-- C4 counterexample: a value arena (Lb) whose root frame has used 32
of the 40 usable bytes of block 0. A plain push of one more value
succeeds (it overflows correctly into a fresh block at 128). But
new_scope with a callback that pushes that same single value faults:
generate_frame's overflow branch moves the child frame to the new
block while leaving buffer_bytes_used at its stale value 32 (C10), so
the callback's first push computes the block tail at
144 + (40 - 32) = 152 although the block's real tail sits at 168 —
a garbage read (none in the model), and new_scope cannot even return
with the parent intact. The unrestricted claim therefore fails. -/
theorem C4_counterexample :
    (pushV Lb c7res.1 c7res.2.1 7).map (fun x => x.2.2) = some 128 ∧
    (generateFrame Lb c7res.1 ⟨c7res.2.1.currentFrame,
        c7res.2.1.bytesUsed⟩).map
      (fun y => (y.2, readHeader y.1.mem y.2.currentFrame,
        readTailAll y.1.mem 152,
        readTailAll y.1.mem (Lb.base 1 + Lb.realSize))) =
      some (⟨128, 32⟩, some (some 64, 144), none,
        some (some 64, 32, none)) ∧
    144 + (Lb.realSize - 32) = 152 ∧
    Lb.base 1 + Lb.realSize = 168 ∧
    newScopeValue Lb 1000 c7res.1 c7res.2.1 [7] = none :=
  ⟨by decide, by decide, by decide, by decide, by decide⟩

/-- C4 (amended): scope isolation holds for both engines when the
parent's chain sits in one block and the child frame plus the
callback's pushes fit the block's remaining budget: after new_scope
returns, the parent cursor's frame header (current_frame reference and
bump position) reads exactly as before, the block count is unchanged,
the child's entries are destructed at scope exit, and — dictionary
engine — both lookups on the parent return exactly what they returned
before the scope, so every child entry is invisible. (The cursor
record itself is passed by value and never mutated.) Outside this
class new_scope can fault before returning; see the counterexample. -/
theorem C4_scope_isolation [DecidableEq K] {L₁ L₂ : Layout}
    (hW₁ : WFv L₁) (halign₁ : L₁.alignH ∣ L₁.alignV) (hW₂ : WFkv L₂)
    {vs₀ : List V} (vs₁ : List V) {stv : St K V} {cv : Cursor}
    {trv : List (Nat × V)}
    (hbuildV : pushManyV L₁ (⟨mkMem L₁, 1⟩ : St K V)
      ⟨L₁.base 0, L₁.sizeH⟩ vs₀ = some (stv, cv, trv))
    (hsingleV : stv.nBlocks = 1)
    (hroomV : cv.bytesUsed + 2 * L₁.sizeH + vs₁.length * L₁.sizeV ≤
      L₁.realSize)
    {ps₀ : List (K × V)} (ps₁ : List (K × V)) {st : St K V} {c : Cursor}
    {tr : List (Nat × K × Nat × V)}
    (hbuild : pushManyKV L₂ (⟨mkMem L₂, 1⟩ : St K V)
      ⟨L₂.base 0, L₂.sizeH⟩ ps₀ = some (st, c, tr))
    (hsingle : st.nBlocks = 1)
    (hroom : c.bytesUsed + 2 * L₂.sizeH +
      ps₁.length * (L₂.sizeK + L₂.sizeV) ≤ L₂.realSize) :
    (∃ (st2 : St K V) (tr2 : List (Nat × V)),
      (∀ fuel, newScopeValue L₁ (fuel + (vs₁.length + 1)) stv cv vs₁ =
        some (st2, tr2.reverse)) ∧
      tr2.map Prod.snd = vs₁ ∧
      st2.nBlocks = stv.nBlocks ∧
      readHeader st2.mem cv.currentFrame =
        readHeader stv.mem cv.currentFrame) ∧
    (∃ st2 tr2,
      (∀ fuel, newScopeDict L₂ (fuel + (ps₁.length + 1)) st c ps₁ =
        some (st2, dropEvsKV tr2)) ∧
      tr2.map (fun e => (e.2.1, e.2.2.2)) = ps₁ ∧
      st2.nBlocks = st.nBlocks ∧
      readHeader st2.mem c.currentFrame =
        readHeader st.mem c.currentFrame ∧
      (∀ (k : K) fuel, getInFrame L₂ (fuel + (tr.length + 1)) st2 c k =
        getInFrame L₂ (fuel + (tr.length + 1)) st c k) ∧
      (∀ (k : K) fuel, getInStack L₂ (fuel + (tr.length + 2)) st2 c k =
        getInStack L₂ (fuel + (tr.length + 2)) st c k)) := by
  constructor
  · obtain ⟨st', c', tr', m, j, hp, hinv, hmap⟩ :=
      pushManyV_inv hW₁ vs₀ ⟨mkMem L₁, 1⟩ ⟨L₁.base 0, L₁.sizeH⟩ [] 0 0
        (rootVAt_mkStack L₁ hW₁)
    have he := hp.symm.trans hbuildV
    simp only [Option.some.injEq, Prod.mk.injEq] at he
    obtain ⟨ha, hb, hc⟩ := he
    rw [ha] at hinv
    rw [hb] at hinv
    rw [hc] at hinv
    rw [List.nil_append] at hinv
    have hm0 : m = 0 := by have := hinv.hnb; omega
    rw [hm0] at hinv
    obtain ⟨st2, cc2, tr2, hgen, hmany, hmap2, ch⟩ :=
      childScopeV hW₁ halign₁ hinv vs₁ hroomV
    have hlen : tr2.length = vs₁.length := by
      rw [← hmap2]
      simp
    refine ⟨st2, tr2, ?_, hmap2, ?_, ?_⟩
    · intro fuel
      unfold newScopeValue
      simp only [hgen, hmany]
      rw [show fuel + (vs₁.length + 1) = fuel + (tr2.length + 1) from by
        rw [hlen]]
      simp only [dropValue_of_childV hW₁ ch fuel]
    · rw [ch.hnb, hsingleV]
    · rw [show cv.currentFrame = L₁.base 0 from hinv.hcf]
      exact ch.hroot
  · obtain ⟨st', c', tr', m, j, hp, hinv, hmap⟩ :=
      pushManyKV_inv hW₂ ps₀ ⟨mkMem L₂, 1⟩ ⟨L₂.base 0, L₂.sizeH⟩ [] 0 0
        (rootKVAt_mkStack L₂ hW₂)
    have he := hp.symm.trans hbuild
    simp only [Option.some.injEq, Prod.mk.injEq] at he
    obtain ⟨ha, hb, hc⟩ := he
    rw [ha] at hinv
    rw [hb] at hinv
    rw [hc] at hinv
    rw [List.nil_append] at hinv
    have hm0 : m = 0 := by have := hinv.hnb; omega
    rw [hm0] at hinv
    obtain ⟨st2, cc2, tr2, hgen, hmany, hmap2, ch⟩ :=
      childScope hW₂ hinv ps₁ hroom
    have hhd : readHeader st2.mem c.currentFrame =
        readHeader st.mem c.currentFrame := by
      rw [show c.currentFrame = L₂.base 0 from hinv.hcf]
      exact ch.hroot
    have hlen : tr2.length = ps₁.length := by
      rw [← hmap2]
      simp
    refine ⟨st2, tr2, ?_, hmap2, ?_, hhd, ?_, ?_⟩
    · intro fuel
      unfold newScopeDict
      simp only [hgen, hmany]
      rw [show fuel + (ps₁.length + 1) = fuel + (tr2.length + 1) from by
        rw [hlen]]
      simp only [dropDict_of_child hW₂ ch fuel]
    · rw [ch.hnb, hsingle]
    · intro k fuel
      rw [getInFrame_agree hW₂ hinv st2 ch.hagree hhd k fuel,
        getInFrame_of_inv hW₂ hinv k fuel]
    · intro k fuel
      rw [getInStack_agree hW₂ hinv st2 ch.hagree hhd k fuel,
        getInStack_of_inv hW₂ hinv k fuel]

theorem C4_scope_isolation_witness :
    (pushManyV Lv (⟨mkMem Lv, 1⟩ : St Nat Nat) ⟨Lv.base 0, Lv.sizeH⟩
        [10, 20] = some (c1vres.1, c1vres.2.1, c1vres.2.2)) ∧
    c1vres.1.nBlocks = 1 ∧
    c1vres.2.1.bytesUsed + 2 * Lv.sizeH +
      ([30] : List Nat).length * Lv.sizeV ≤ Lv.realSize ∧
    (pushManyKV Lw (⟨mkMem Lw, 1⟩ : St Nat Nat) ⟨Lw.base 0, Lw.sizeH⟩
        [(7, 1)] = some (c2res.1, c2res.2.1, c2res.2.2)) ∧
    c2res.1.nBlocks = 1 ∧
    c2res.2.1.bytesUsed + 2 * Lw.sizeH +
      ([(8, 2), (9, 3)] : List (Nat × Nat)).length *
        (Lw.sizeK + Lw.sizeV) ≤ Lw.realSize ∧
    ((∃ (st2 : St Nat Nat) (tr2 : List (Nat × Nat)),
      (∀ fuel, newScopeValue Lv (fuel + (([30] : List Nat).length + 1))
          c1vres.1 c1vres.2.1 [30] = some (st2, tr2.reverse)) ∧
      tr2.map Prod.snd = [30] ∧
      st2.nBlocks = c1vres.1.nBlocks ∧
      readHeader st2.mem c1vres.2.1.currentFrame =
        readHeader c1vres.1.mem c1vres.2.1.currentFrame) ∧
    (∃ st2 tr2,
      (∀ fuel, newScopeDict Lw
          (fuel + (([(8, 2), (9, 3)] : List (Nat × Nat)).length + 1))
          c2res.1 c2res.2.1 [(8, 2), (9, 3)] =
        some (st2, dropEvsKV tr2)) ∧
      tr2.map (fun e => (e.2.1, e.2.2.2)) = [(8, 2), (9, 3)] ∧
      st2.nBlocks = c2res.1.nBlocks ∧
      readHeader st2.mem c2res.2.1.currentFrame =
        readHeader c2res.1.mem c2res.2.1.currentFrame ∧
      (∀ (k : Nat) fuel, getInFrame Lw (fuel + (c2res.2.2.length + 1))
          st2 c2res.2.1 k =
        getInFrame Lw (fuel + (c2res.2.2.length + 1)) c2res.1
          c2res.2.1 k) ∧
      (∀ (k : Nat) fuel, getInStack Lw (fuel + (c2res.2.2.length + 2))
          st2 c2res.2.1 k =
        getInStack Lw (fuel + (c2res.2.2.length + 2)) c2res.1
          c2res.2.1 k))) :=
  ⟨by decide, by decide, by decide, by decide, by decide, by decide,
    C4_scope_isolation (by constructor <;> decide) (by decide)
      (by constructor <;> decide) [30]
      (show pushManyV Lv (⟨mkMem Lv, 1⟩ : St Nat Nat)
          ⟨Lv.base 0, Lv.sizeH⟩ [10, 20] =
        some (c1vres.1, c1vres.2.1, c1vres.2.2) from by decide)
      (by decide) (by decide) [(8, 2), (9, 3)]
      (show pushManyKV Lw (⟨mkMem Lw, 1⟩ : St Nat Nat)
          ⟨Lw.base 0, Lw.sizeH⟩ [(7, 1)] =
        some (c2res.1, c2res.2.1, c2res.2.2) from by decide)
      (by decide) (by decide)⟩

/-- C6 (amended): over canonical root states of homogeneous pre-aligned
layouts the alignment padding at the bump is zero, and the placement
test is STRICT: an entry is placed at the current bump exactly when
buffer_bytes_used + size is strictly below the usable capacity
B − sizeof(Tail); when used + size equals the capacity (the claim's
"fits, ≤" case, see the counterexample) or exceeds it, allocation
overflows into the next block. Both engines. -/
theorem C6_fit_strict [DecidableEq K] {L₁ L₂ : Layout}
    (hW₁ : WFv L₁) (hW₂ : WFkv L₂)
    {st₁ : St K V} {c₁ : Cursor} {tr₁ : List (Nat × V)} {m₁ j₁ : Nat}
    (h₁ : RootVAt L₁ st₁ c₁ tr₁ m₁ j₁) (v : V)
    {st₂ : St K V} {c₂ : Cursor} {tr₂ : List (Nat × K × Nat × V)}
    {m₂ j₂ : Nat} (h₂ : RootKVAt L₂ st₂ c₂ tr₂ m₂ j₂) (k : K) (w : V) :
    (∃ st' c' a, pushV L₁ st₁ c₁ v = some (st', c', a) ∧
      (c₁.bytesUsed + L₁.sizeV < L₁.realSize →
        a = L₁.base m₁ + c₁.bytesUsed ∧ st'.nBlocks = st₁.nBlocks ∧
        c'.bytesUsed = c₁.bytesUsed + L₁.sizeV) ∧
      (¬ c₁.bytesUsed + L₁.sizeV < L₁.realSize →
        a = L₁.base st₁.nBlocks ∧ st'.nBlocks = st₁.nBlocks + 1)) ∧
    (∃ st' c' ka va, pushKV L₂ st₂ c₂ k w = some (st', c', ka, va) ∧
      (c₂.bytesUsed + L₂.sizeK + L₂.sizeV < L₂.realSize →
        ka = L₂.base m₂ + c₂.bytesUsed ∧ st'.nBlocks = st₂.nBlocks ∧
        c'.bytesUsed = c₂.bytesUsed + (L₂.sizeK + L₂.sizeV)) ∧
      (¬ c₂.bytesUsed + L₂.sizeK + L₂.sizeV < L₂.realSize →
        ka = L₂.base st₂.nBlocks ∧ st'.nBlocks = st₂.nBlocks + 1)) := by
  constructor
  · have hh : readHeader st₁.mem c₁.currentFrame =
        some (none, L₁.base m₁ + c₁.bytesUsed) := by
      rw [h₁.hcf]; exact h₁.hbump
    have hdvdUsed : L₁.alignV ∣ c₁.bytesUsed := by
      rw [h₁.hused]
      refine Nat.dvd_add ?_ (Dvd.dvd.mul_left hW₁.dvdSizeV j₁)
      by_cases hm : m₁ = 0 <;> simp [hm, hW₁.dvdSizeH]
    have hpad : alignOffset (L₁.base m₁ + c₁.bytesUsed) L₁.alignV = 0 :=
      alignOffset_of_dvd (Nat.dvd_add (dvd_base hW₁.dvdB m₁) hdvdUsed)
    by_cases hfit : c₁.bytesUsed + L₁.sizeV < L₁.realSize
    · refine ⟨_, _, _, pushV_eq_inblock v hh hpad hfit, ?_, ?_⟩
      · intro _
        exact ⟨rfl, rfl, rfl⟩
      · intro hcon
        exact absurd hfit hcon
    · obtain ⟨tp, tu, htf⟩ := h₁.htailFull
      have htf' : readTailAll st₁.mem ((L₁.base m₁ + c₁.bytesUsed) +
          (L₁.realSize - c₁.bytesUsed)) = some (tp, tu, none) := by
        rw [show (L₁.base m₁ + c₁.bytesUsed) +
            (L₁.realSize - c₁.bytesUsed) = L₁.base m₁ + L₁.realSize from
          by have := h₁.husedLt; omega]
        exact htf
      have hpad2 : alignOffset (L₁.base st₁.nBlocks) L₁.alignV = 0 :=
        alignOffset_of_dvd (dvd_base hW₁.dvdB _)
      refine ⟨_, _, _, pushV_eq_overflow v hh hpad hfit htf' hpad2,
        ?_, ?_⟩
      · intro hcon
        exact absurd hcon hfit
      · intro _
        exact ⟨rfl, rfl⟩
  · have hh : readHeader st₂.mem c₂.currentFrame =
        some (none, L₂.base m₂ + c₂.bytesUsed) := by
      rw [h₂.hcf]; exact h₂.hbump
    have hdvdUsed : L₂.alignK ∣ c₂.bytesUsed := by
      rw [h₂.hused]
      refine Nat.dvd_add ?_
        (Dvd.dvd.mul_left (Nat.dvd_add hW₂.dvdSizeK hW₂.dvdSizeV) j₂)
      by_cases hm : m₂ = 0 <;> simp [hm, hW₂.dvdSizeH]
    have hdvdBump : L₂.alignK ∣ L₂.base m₂ + c₂.bytesUsed :=
      Nat.dvd_add (dvd_base hW₂.dvdB m₂) hdvdUsed
    have hkpad : alignOffset (L₂.base m₂ + c₂.bytesUsed) L₂.alignK = 0 :=
      alignOffset_of_dvd hdvdBump
    have hvpad : alignOffset (L₂.base m₂ + c₂.bytesUsed + L₂.sizeK)
        L₂.alignV = 0 := by
      rw [hW₂.alignVEq]
      exact alignOffset_of_dvd (Nat.dvd_add hdvdBump hW₂.dvdSizeK)
    by_cases hfit : c₂.bytesUsed + L₂.sizeK + L₂.sizeV < L₂.realSize
    · refine ⟨_, _, _, _, pushKV_eq_inblock k w hh hkpad hvpad hfit,
        ?_, ?_⟩
      · intro _
        exact ⟨rfl, rfl, rfl⟩
      · intro hcon
        exact absurd hfit hcon
    · obtain ⟨tp, tu, htf⟩ := h₂.htailFull
      have htf' : readTailAll st₂.mem ((L₂.base m₂ + c₂.bytesUsed) +
          (L₂.realSize - c₂.bytesUsed)) = some (tp, tu, none) := by
        rw [show (L₂.base m₂ + c₂.bytesUsed) +
            (L₂.realSize - c₂.bytesUsed) = L₂.base m₂ + L₂.realSize from
          by have := h₂.husedLt; omega]
        exact htf
      have hkpad2 : alignOffset (L₂.base st₂.nBlocks) L₂.alignK = 0 :=
        alignOffset_of_dvd (dvd_base hW₂.dvdB _)
      have hvpad2 : alignOffset (L₂.base st₂.nBlocks + L₂.sizeK)
          L₂.alignV = 0 := by
        rw [hW₂.alignVEq]
        exact alignOffset_of_dvd
          (Nat.dvd_add (dvd_base hW₂.dvdB _) hW₂.dvdSizeK)
      refine ⟨_, _, _, _,
        pushKV_eq_overflow k w hh hkpad hvpad hfit htf' hkpad2 hvpad2,
        ?_, ?_⟩
      · intro hcon
        exact absurd hcon hfit
      · intro _
        exact ⟨rfl, rfl⟩

theorem C6_fit_strict_witness :
    (∃ st' c' a, pushV Lv (⟨mkMem Lv, 1⟩ : St Nat Nat)
        ⟨Lv.base 0, Lv.sizeH⟩ 5 = some (st', c', a) ∧
      ((⟨Lv.base 0, Lv.sizeH⟩ : Cursor).bytesUsed + Lv.sizeV <
          Lv.realSize →
        a = Lv.base 0 + (⟨Lv.base 0, Lv.sizeH⟩ : Cursor).bytesUsed ∧
        st'.nBlocks = (⟨mkMem Lv, 1⟩ : St Nat Nat).nBlocks ∧
        c'.bytesUsed = (⟨Lv.base 0, Lv.sizeH⟩ : Cursor).bytesUsed +
          Lv.sizeV) ∧
      (¬ (⟨Lv.base 0, Lv.sizeH⟩ : Cursor).bytesUsed + Lv.sizeV <
          Lv.realSize →
        a = Lv.base (⟨mkMem Lv, 1⟩ : St Nat Nat).nBlocks ∧
        st'.nBlocks = (⟨mkMem Lv, 1⟩ : St Nat Nat).nBlocks + 1)) ∧
    (∃ st' c' ka va, pushKV Lh (⟨mkMem Lh, 1⟩ : St Nat Nat)
        ⟨Lh.base 0, Lh.sizeH⟩ 1 9 = some (st', c', ka, va) ∧
      ((⟨Lh.base 0, Lh.sizeH⟩ : Cursor).bytesUsed + Lh.sizeK + Lh.sizeV <
          Lh.realSize →
        ka = Lh.base 0 + (⟨Lh.base 0, Lh.sizeH⟩ : Cursor).bytesUsed ∧
        st'.nBlocks = (⟨mkMem Lh, 1⟩ : St Nat Nat).nBlocks ∧
        c'.bytesUsed = (⟨Lh.base 0, Lh.sizeH⟩ : Cursor).bytesUsed +
          (Lh.sizeK + Lh.sizeV)) ∧
      (¬ (⟨Lh.base 0, Lh.sizeH⟩ : Cursor).bytesUsed + Lh.sizeK +
          Lh.sizeV < Lh.realSize →
        ka = Lh.base (⟨mkMem Lh, 1⟩ : St Nat Nat).nBlocks ∧
        st'.nBlocks = (⟨mkMem Lh, 1⟩ : St Nat Nat).nBlocks + 1)) :=
  C6_fit_strict (by constructor <;> decide) (by constructor <;> decide)
    (rootVAt_mkStack Lv (by constructor <;> decide)) 5
    (rootKVAt_mkStack Lh (by constructor <;> decide)) 1 9

/-- A dictionary arena (Lh) after pushing one pair: 32 of the 40
usable bytes of block 0 are consumed, so the next allocation
overflows. -/
def c7dres : St Nat Nat × Cursor × List (Nat × Nat × Nat × Nat) :=
  (pushManyKV Lh (⟨mkMem Lh, 1⟩ : St Nat Nat) ⟨Lh.base 0, Lh.sizeH⟩
    [(1, 10)]).getD ⟨⟨[], 0⟩, ⟨0, 0⟩, []⟩

/-- The same Lb value-arena state as c7res, with Nat phantom keys. -/
def c7resN : St Nat Nat × Cursor × List (Nat × Nat) :=
  (pushManyV Lb (⟨mkMem Lb, 1⟩ : St Nat Nat) ⟨Lb.base 0, Lb.sizeH⟩
    [1, 2]).getD ⟨⟨[], 0⟩, ⟨0, 0⟩, []⟩

/-- C7 (amended): when an allocation does not fit and the current tail's
next_block is unset, a new block is allocated, its tail gets
prev_block_bytes_used = the current buffer_bytes_used and
next_block = none, the current tail's next_block is set to the new
block, and the entry (or frame header) is written at the new block's
start with padding zero — all as claimed. But prev_block is NOT in
general the current block's identity (its start address): push (either
engine) records the current BUMP POINTER, block start +
buffer_bytes_used (counterexample: 96, not the block start 64), while
generate_frame records the current frame HEADER's address — which
coincides with the block start exactly when the current frame leads its
block (e.g. a root frame), the only case where the claim's wording
holds. -/
theorem C7_overflow_tail {L₁ L₂ L₃ : Layout} (hW₁ : WFv L₁)
    {st₁ : St K V} {c₁ : Cursor} {p₁ : Option Nat} {m₁ : Nat}
    {tp₁ : Option Nat} {tu₁ : Nat}
    (hh₁ : readHeader st₁.mem c₁.currentFrame =
      some (p₁, L₁.base m₁ + c₁.bytesUsed))
    (hdvd₁ : L₁.alignV ∣ c₁.bytesUsed)
    (husedLe₁ : c₁.bytesUsed ≤ L₁.realSize)
    (husedPos₁ : 0 < c₁.bytesUsed)
    (hfit₁ : ¬ c₁.bytesUsed + L₁.sizeV < L₁.realSize)
    (htail₁ : readTailAll st₁.mem (L₁.base m₁ + L₁.realSize) =
      some (tp₁, tu₁, none))
    (hnb₁ : st₁.nBlocks = m₁ + 1)
    (hcflt₁ : c₁.currentFrame < L₁.base m₁ + c₁.bytesUsed) (v : V)
    {st₂ : St K V} {c₂ : Cursor} {p₂ : Option Nat} {m₂ : Nat}
    {tp₂ : Option Nat} {tu₂ : Nat}
    (hh₂ : readHeader st₂.mem c₂.currentFrame =
      some (p₂, L₂.base m₂ + c₂.bytesUsed))
    (hpadH₂ : alignOffset (L₂.base m₂ + c₂.bytesUsed) L₂.alignH = 0)
    (husedLe₂ : c₂.bytesUsed ≤ L₂.realSize)
    (hfit₂ : ¬ c₂.bytesUsed + L₂.sizeH < L₂.realSize)
    (htail₂ : readTailAll st₂.mem (L₂.base m₂ + L₂.realSize) =
      some (tp₂, tu₂, none))
    (hnb₂ : st₂.nBlocks = m₂ + 1)
    (hrsPos₂ : 0 < L₂.realSize) (hrsLt₂ : L₂.realSize < L₂.bsize)
    {st₃ : St K V} {c₃ : Cursor} {p₃ : Option Nat} {m₃ : Nat}
    {tp₃ : Option Nat} {tu₃ : Nat}
    (hh₃ : readHeader st₃.mem c₃.currentFrame =
      some (p₃, L₃.base m₃ + c₃.bytesUsed))
    (hkpad₃ : alignOffset (L₃.base m₃ + c₃.bytesUsed) L₃.alignK = 0)
    (hvpad₃ : alignOffset (L₃.base m₃ + c₃.bytesUsed + L₃.sizeK)
      L₃.alignV = 0)
    (hkpad2₃ : alignOffset (L₃.base st₃.nBlocks) L₃.alignK = 0)
    (hvpad2₃ : alignOffset (L₃.base st₃.nBlocks + L₃.sizeK)
      L₃.alignV = 0)
    (husedLe₃ : c₃.bytesUsed ≤ L₃.realSize)
    (husedPos₃ : 0 < c₃.bytesUsed)
    (hfit₃ : ¬ c₃.bytesUsed + L₃.sizeK + L₃.sizeV < L₃.realSize)
    (htail₃ : readTailAll st₃.mem (L₃.base m₃ + L₃.realSize) =
      some (tp₃, tu₃, none))
    (hnb₃ : st₃.nBlocks = m₃ + 1)
    (hcflt₃ : c₃.currentFrame < L₃.base m₃ + c₃.bytesUsed)
    (hrsPos₃ : 0 < L₃.realSize) (hrsLt₃ : L₃.realSize < L₃.bsize)
    (hsKpos₃ : 0 < L₃.sizeK) (hsKlt₃ : L₃.sizeK < L₃.realSize)
    (k : K) (w : V) :
    (∃ st' : St K V,
      pushV L₁ st₁ c₁ v = some (st', ⟨c₁.currentFrame, L₁.sizeV⟩,
        L₁.base (m₁ + 1)) ∧
      readTailAll st'.mem (L₁.base (m₁ + 1) + L₁.realSize) =
        some (some (L₁.base m₁ + c₁.bytesUsed), c₁.bytesUsed, none) ∧
      readTailNext st'.mem (L₁.base m₁ + L₁.realSize) =
        some (some (L₁.base (m₁ + 1))) ∧
      readValAt st'.mem (L₁.base (m₁ + 1)) = some v ∧
      st'.nBlocks = m₁ + 2 ∧
      L₁.base m₁ + c₁.bytesUsed ≠ L₁.base m₁) ∧
    (∃ st' : St K V,
      generateFrame L₂ st₂ c₂ = some (st',
        ⟨L₂.base (m₂ + 1), c₂.bytesUsed⟩) ∧
      readTailAll st'.mem (L₂.base (m₂ + 1) + L₂.realSize) =
        some (some c₂.currentFrame, c₂.bytesUsed, none) ∧
      readTailNext st'.mem (L₂.base m₂ + L₂.realSize) =
        some (some (L₂.base (m₂ + 1))) ∧
      readHeader st'.mem (L₂.base (m₂ + 1)) =
        some (some c₂.currentFrame, L₂.base (m₂ + 1) + L₂.sizeH) ∧
      st'.nBlocks = m₂ + 2 ∧
      (c₂.currentFrame = L₂.base m₂ →
        readTailPrev st'.mem (L₂.base (m₂ + 1) + L₂.realSize) =
          some (some (L₂.base m₂), c₂.bytesUsed))) ∧
    (∃ st' : St K V,
      pushKV L₃ st₃ c₃ k w = some (st',
        ⟨c₃.currentFrame, L₃.sizeK + L₃.sizeV⟩, L₃.base (m₃ + 1),
        L₃.base (m₃ + 1) + L₃.sizeK) ∧
      readTailAll st'.mem (L₃.base (m₃ + 1) + L₃.realSize) =
        some (some (L₃.base m₃ + c₃.bytesUsed), c₃.bytesUsed, none) ∧
      readTailNext st'.mem (L₃.base m₃ + L₃.realSize) =
        some (some (L₃.base (m₃ + 1))) ∧
      readKeyAt st'.mem (L₃.base (m₃ + 1)) = some k ∧
      readValAt st'.mem (L₃.base (m₃ + 1) + L₃.sizeK) = some w ∧
      st'.nBlocks = m₃ + 2 ∧
      L₃.base m₃ + c₃.bytesUsed ≠ L₃.base m₃) := by
  refine ⟨?_, ?_, ?_⟩
  · have hB := hW₁.bsizePosV
    have hrsLt := hW₁.realSizeLtV
    have hrsPos : 0 < L₁.realSize := by have := hW₁.capacity; omega
    have hpad : alignOffset (L₁.base m₁ + c₁.bytesUsed) L₁.alignV = 0 :=
      alignOffset_of_dvd (Nat.dvd_add (dvd_base hW₁.dvdB m₁) hdvd₁)
    have htf' : readTailAll st₁.mem ((L₁.base m₁ + c₁.bytesUsed) +
        (L₁.realSize - c₁.bytesUsed)) = some (tp₁, tu₁, none) := by
      rw [show (L₁.base m₁ + c₁.bytesUsed) +
        (L₁.realSize - c₁.bytesUsed) = L₁.base m₁ + L₁.realSize from
        by omega]
      exact htail₁
    have hpad2 : alignOffset (L₁.base st₁.nBlocks) L₁.alignV = 0 :=
      alignOffset_of_dvd (dvd_base hW₁.dvdB _)
    have heq := pushV_eq_overflow v hh₁ hpad hfit₁ htf' hpad2
    rw [hnb₁] at heq
    have hb1 : L₁.base m₁ + L₁.realSize < L₁.base (m₁ + 1) :=
      base_add_realSize_lt L₁ m₁ hrsLt
    refine ⟨_, heq, ?_, ?_, ?_, rfl, by omega⟩
    · rw [readTailAll_write, if_neg (by omega), readTailAll_write,
        if_neg (by omega), readTailAll_write, if_neg (by omega),
        readTailAll_write, if_pos rfl]
    · rw [readTailNext_write, if_neg (by omega), readTailNext_write,
        if_neg (by omega), readTailNext_write,
        if_pos (show (L₁.base m₁ + c₁.bytesUsed) +
          (L₁.realSize - c₁.bytesUsed) = L₁.base m₁ + L₁.realSize from
          by omega)]
    · rw [readValAt_write, if_neg (by omega), readValAt_write,
        if_pos rfl]
  · have heq := genFrame_eq_overflow hh₂ hpadH₂ hfit₂
      (show readTailAll st₂.mem ((L₂.base m₂ + c₂.bytesUsed) +
          (L₂.realSize - c₂.bytesUsed)) = some (tp₂, tu₂, none) from by
        rw [show (L₂.base m₂ + c₂.bytesUsed) +
          (L₂.realSize - c₂.bytesUsed) = L₂.base m₂ + L₂.realSize from
          by omega]
        exact htail₂)
    rw [hnb₂] at heq
    have hb1 : L₂.base m₂ + L₂.realSize < L₂.base (m₂ + 1) :=
      base_add_realSize_lt L₂ m₂ hrsLt₂
    have hAll : readTailAll (((st₂.mem.write
        (L₂.base (m₂ + 1) + L₂.realSize)
        (.tail (some c₂.currentFrame) c₂.bytesUsed none)).write
        ((L₂.base m₂ + c₂.bytesUsed) + (L₂.realSize - c₂.bytesUsed))
        (.tail tp₂ tu₂ (some (L₂.base (m₂ + 1))))).write
        (L₂.base (m₂ + 1))
        (.header (some c₂.currentFrame) (L₂.base (m₂ + 1) + L₂.sizeH)))
        (L₂.base (m₂ + 1) + L₂.realSize) =
        some (some c₂.currentFrame, c₂.bytesUsed, none) := by
      rw [readTailAll_write, if_neg (by omega), readTailAll_write,
        if_neg (by omega), readTailAll_write, if_pos rfl]
    refine ⟨_, heq, hAll, ?_, ?_, rfl, ?_⟩
    · rw [readTailNext_write, if_neg (by omega), readTailNext_write,
        if_pos (show (L₂.base m₂ + c₂.bytesUsed) +
          (L₂.realSize - c₂.bytesUsed) = L₂.base m₂ + L₂.realSize from
          by omega)]
    · rw [readHeader_write, if_pos rfl]
    · intro hrt
      have h2 := readTailPrev_of_all hAll
      rw [h2, hrt]
  · have hb1 : L₃.base m₃ + L₃.realSize < L₃.base (m₃ + 1) :=
      base_add_realSize_lt L₃ m₃ hrsLt₃
    have htf' : readTailAll st₃.mem ((L₃.base m₃ + c₃.bytesUsed) +
        (L₃.realSize - c₃.bytesUsed)) = some (tp₃, tu₃, none) := by
      rw [show (L₃.base m₃ + c₃.bytesUsed) +
        (L₃.realSize - c₃.bytesUsed) = L₃.base m₃ + L₃.realSize from
        by omega]
      exact htail₃
    have heq := pushKV_eq_overflow k w hh₃ hkpad₃ hvpad₃ hfit₃ htf'
      hkpad2₃ hvpad2₃
    rw [hnb₃] at heq
    refine ⟨_, heq, ?_, ?_, ?_, ?_, rfl, by omega⟩
    · rw [readTailAll_write, if_neg (by omega), readTailAll_write,
        if_neg (by omega), readTailAll_write, if_neg (by omega),
        readTailAll_write, if_neg (by omega), readTailAll_write,
        if_pos rfl]
    · rw [readTailNext_write, if_neg (by omega), readTailNext_write,
        if_neg (by omega), readTailNext_write, if_neg (by omega),
        readTailNext_write,
        if_pos (show (L₃.base m₃ + c₃.bytesUsed) +
          (L₃.realSize - c₃.bytesUsed) = L₃.base m₃ + L₃.realSize from
          by omega)]
    · rw [readKeyAt_write, if_neg (by omega), readKeyAt_write,
        if_neg (by omega), readKeyAt_write, if_pos rfl]
    · rw [readValAt_write, if_neg (by omega), readValAt_write,
        if_pos rfl]

theorem C7_overflow_tail_witness :
    readHeader c7resN.1.mem c7resN.2.1.currentFrame =
      some (none, Lb.base 0 + c7resN.2.1.bytesUsed) ∧
    alignOffset (Lb.base 0 + c7resN.2.1.bytesUsed) Lb.alignH = 0 ∧
    ¬ c7resN.2.1.bytesUsed + Lb.sizeH < Lb.realSize ∧
    readHeader c7dres.1.mem c7dres.2.1.currentFrame =
      some (none, Lh.base 0 + c7dres.2.1.bytesUsed) ∧
    ¬ c7dres.2.1.bytesUsed + Lh.sizeK + Lh.sizeV < Lh.realSize ∧
    readTailAll c7dres.1.mem (Lh.base 0 + Lh.realSize) =
      some (none, 0, none) ∧
    ((∃ st' : St Nat Nat,
      pushV Lb c7resN.1 c7resN.2.1 3 = some (st',
        ⟨c7resN.2.1.currentFrame, Lb.sizeV⟩, Lb.base (0 + 1)) ∧
      readTailAll st'.mem (Lb.base (0 + 1) + Lb.realSize) =
        some (some (Lb.base 0 + c7resN.2.1.bytesUsed),
          c7resN.2.1.bytesUsed, none) ∧
      readTailNext st'.mem (Lb.base 0 + Lb.realSize) =
        some (some (Lb.base (0 + 1))) ∧
      readValAt st'.mem (Lb.base (0 + 1)) = some 3 ∧
      st'.nBlocks = 0 + 2 ∧
      Lb.base 0 + c7resN.2.1.bytesUsed ≠ Lb.base 0) ∧
    (∃ st' : St Nat Nat,
      generateFrame Lb c7resN.1 c7resN.2.1 = some (st',
        ⟨Lb.base (0 + 1), c7resN.2.1.bytesUsed⟩) ∧
      readTailAll st'.mem (Lb.base (0 + 1) + Lb.realSize) =
        some (some c7resN.2.1.currentFrame,
          c7resN.2.1.bytesUsed, none) ∧
      readTailNext st'.mem (Lb.base 0 + Lb.realSize) =
        some (some (Lb.base (0 + 1))) ∧
      readHeader st'.mem (Lb.base (0 + 1)) =
        some (some c7resN.2.1.currentFrame,
          Lb.base (0 + 1) + Lb.sizeH) ∧
      st'.nBlocks = 0 + 2 ∧
      (c7resN.2.1.currentFrame = Lb.base 0 →
        readTailPrev st'.mem (Lb.base (0 + 1) + Lb.realSize) =
          some (some (Lb.base 0), c7resN.2.1.bytesUsed))) ∧
    (∃ st' : St Nat Nat,
      pushKV Lh c7dres.1 c7dres.2.1 2 20 = some (st',
        ⟨c7dres.2.1.currentFrame, Lh.sizeK + Lh.sizeV⟩,
        Lh.base (0 + 1), Lh.base (0 + 1) + Lh.sizeK) ∧
      readTailAll st'.mem (Lh.base (0 + 1) + Lh.realSize) =
        some (some (Lh.base 0 + c7dres.2.1.bytesUsed),
          c7dres.2.1.bytesUsed, none) ∧
      readTailNext st'.mem (Lh.base 0 + Lh.realSize) =
        some (some (Lh.base (0 + 1))) ∧
      readKeyAt st'.mem (Lh.base (0 + 1)) = some 2 ∧
      readValAt st'.mem (Lh.base (0 + 1) + Lh.sizeK) = some 20 ∧
      st'.nBlocks = 0 + 2 ∧
      Lh.base 0 + c7dres.2.1.bytesUsed ≠ Lh.base 0)) :=
  ⟨by decide, by decide, by decide, by decide, by decide, by decide,
    C7_overflow_tail (by constructor <;> decide)
      (show readHeader c7resN.1.mem c7resN.2.1.currentFrame =
        some (none, Lb.base 0 + c7resN.2.1.bytesUsed) from by decide)
      (by decide) (by decide) (by decide) (by decide)
      (show readTailAll c7resN.1.mem (Lb.base 0 + Lb.realSize) =
        some (none, 0, none) from by decide)
      (by decide) (by decide) 3
      (show readHeader c7resN.1.mem c7resN.2.1.currentFrame =
        some (none, Lb.base 0 + c7resN.2.1.bytesUsed) from by decide)
      (by decide) (by decide) (by decide)
      (show readTailAll c7resN.1.mem (Lb.base 0 + Lb.realSize) =
        some (none, 0, none) from by decide)
      (by decide) (by decide) (by decide)
      (show readHeader c7dres.1.mem c7dres.2.1.currentFrame =
        some (none, Lh.base 0 + c7dres.2.1.bytesUsed) from by decide)
      (by decide) (by decide) (by decide) (by decide) (by decide)
      (by decide) (by decide)
      (show readTailAll c7dres.1.mem (Lh.base 0 + Lh.realSize) =
        some (none, 0, none) from by decide)
      (by decide) (by decide) (by decide) (by decide) (by decide)
      (by decide) 2 20⟩

end StackFrameAlloc
